import Mathlib

/-!
Verification of the schedule-conformance analysis engine of the
criticalPathVisual repository.  The engine (`runScheduleAnalysis`,
`detectAndReportCycles`, `calculateCPM`, `calculateCPMToTask`,
`calculateFloatAndCriticalityForSubset`, the data indexer
`transformDataOptimized` and the generic `PriorityQueue`) is shallowly
embedded below.  Dates are modelled as rational day-offsets (the source
converts `Date` values to day offsets from the minimum start before any
arithmetic); JavaScript `Map`/object lookups become association-list /
`find?` lookups; mutable per-task fields become explicitly threaded
functions from task ids.
-/

namespace CPV

/-- Association-list lookup mirroring JavaScript object property access:
first binding for the key wins, absence gives `none`. -/
def alook {β : Type} : List (String × β) → String → Option β
  | [], _ => none
  | kv :: rest, key => if kv.1 = key then some kv.2 else alook rest key

/-- A task as consumed by the analysis: `start`/`finish` are the actual
dates as day offsets (`earlyStart`/`earlyFinish` in the source, fixed for
the whole run), `predecessorIds` with the per-predecessor relationship
type and lag maps (`relationshipTypes`, `relationshipLags`). -/
structure STask where
  internalId : String
  nameStr : String
  start : ℚ
  finish : ℚ
  predecessorIds : List String
  relationshipTypes : List (String × String)
  relationshipLags : List (String × Option ℚ)
deriving Repr, DecidableEq

/-- A relationship record: ordered pair, type, optional externally
supplied free float, optional lag. -/
structure SRel where
  predecessorId : String
  successorId : String
  type : String
  freeFloat : Option ℚ
  lag : Option ℚ
deriving Repr, DecidableEq

/-- Input of one full-project analysis run. -/
structure AnalysisInput where
  tasks : List STask
  relationships : List SRel
  floatTolerance : ℚ
  floatThreshold : ℚ

/-- Task lookup by id (`taskMap.get`); task ids are unique post-indexing,
so first-match lookup coincides with the JavaScript `Map`. -/
def findTask (tasks : List STask) (id : String) : Option STask :=
  tasks.find? (fun t => t.internalId = id)

/-- Successor adjacency built from the relationship list
(`successors.get(id)`), in relationship-list order. -/
def succIds (rels : List SRel) (id : String) : List String :=
  (rels.filter (fun r => r.predecessorId = id)).map (fun r => r.successorId)

/-- Actual start date of a task id (0 for an unknown id; unknown ids are
never consulted by the algorithm). -/
def startOf (tasks : List STask) (id : String) : ℚ :=
  match findTask tasks id with
  | some t => t.start
  | none => 0

/-- Actual finish date of a task id. -/
def finishOf (tasks : List STask) (id : String) : ℚ :=
  match findTask tasks id with
  | some t => t.finish
  | none => 0

/-- Derived duration `earlyFinish - earlyStart` as computed at
initialization of the run. -/
def durationOf (t : STask) : ℚ := t.finish - t.start

/-- Relationship type for an edge, read from the successor task's map:
`succ.relationshipTypes[predId] || 'FS'` (missing or empty means FS). -/
def relTypeOf (succ : STask) (predId : String) : String :=
  match alook succ.relationshipTypes predId with
  | some ty => if ty = "" then "FS" else ty
  | none => "FS"

/-- Lag for an edge: `succ.relationshipLags[predId] ?? 0` (missing or
null means 0). -/
def relLagOf (succ : STask) (predId : String) : ℚ :=
  match alook succ.relationshipLags predId with
  | some (some q) => q
  | _ => 0

/-- Forward-pass implied earliest required start of `succ` from the
actual dates of predecessor `pred`, per relationship type (the switch in
the forward pass of `runScheduleAnalysis`; an unrecognized type falls to
the FS formula). -/
def impliedReqStart (pred succ : STask) : ℚ :=
  let relType := relTypeOf succ pred.internalId
  let lag := relLagOf succ pred.internalId
  if relType = "FS" then pred.finish + lag
  else if relType = "SS" then pred.start + lag
  else if relType = "FF" then pred.finish - durationOf succ + lag
  else if relType = "SF" then pred.start - durationOf succ + lag
  else pred.finish + lag

/-- Backward-pass implied latest required finish of `task` through its
outgoing edge to `succ`, per relationship type (the switch in the
backward pass of `runScheduleAnalysis`). -/
def impliedReqFinish (task succ : STask) : ℚ :=
  let relType := relTypeOf succ task.internalId
  let lag := relLagOf succ task.internalId
  if relType = "FS" then succ.start - lag
  else if relType = "SS" then succ.start - lag + durationOf task
  else if relType = "FF" then succ.finish - lag
  else if relType = "SF" then succ.finish - lag - durationOf succ + durationOf task
  else succ.start - lag

/-- State of the Kahn forward pass: pending FIFO queue, emitted
topological order, remaining in-degrees (a JavaScript number, hence
`Int`: decrements below zero do not re-trigger the zero test), and the
running `earliestReqStart` map. -/
structure FwdState where
  queue : List String
  topo : List String
  inDeg : String → Int
  ers : String → ℚ

/-- Processing of one predecessor→successor edge inside the Kahn loop:
raise the successor's running earliest required start to the implied
value, decrement its in-degree, enqueue it when the in-degree reaches
exactly zero.  (The source reads the successor with `taskMap.get(..)!`;
an unknown successor id cannot occur post-indexing.) -/
def processEdge (tasks : List STask) (pred : STask) (st : FwdState) (succId : String) : FwdState :=
  match findTask tasks succId with
  | none => st
  | some succ =>
    let req := max (st.ers succId) (impliedReqStart pred succ)
    let nd := st.inDeg succId - 1
    { queue := if nd = 0 then st.queue ++ [succId] else st.queue
      topo := st.topo
      inDeg := fun id => if id = succId then nd else st.inDeg id
      ers := fun id => if id = succId then req else st.ers id }

/-- Processing of one dequeued task: walk its successor list. -/
def processTask (tasks : List STask) (rels : List SRel) (st : FwdState) (id : String) : FwdState :=
  match findTask tasks id with
  | none => st
  | some pred => (succIds rels id).foldl (processEdge tasks pred) st

/-- The Kahn `while (queue.length)` loop, fuel-bounded.  Each task id is
enqueued at most once (initially iff its in-degree is zero, later only at
the unique moment its in-degree reaches exactly zero), so
`tasks.length + 1` units of fuel always outlast the source loop. -/
def kahnLoop (tasks : List STask) (rels : List SRel) : ℕ → FwdState → FwdState
  | 0, st => st
  | fuel + 1, st =>
    match st.queue with
    | [] => st
    | id :: rest =>
      kahnLoop tasks rels fuel
        (processTask tasks rels { st with queue := rest, topo := st.topo ++ [id] } id)

/-- Initial in-degrees: `t.predecessorIds.length` per task. -/
def initDeg (tasks : List STask) : String → Int := fun id =>
  match findTask tasks id with
  | some t => (t.predecessorIds.length : Int)
  | none => 0

/-- Initial queue: tasks whose in-degree is zero, in task-list order. -/
def initQueue (tasks : List STask) : List String :=
  (tasks.filter (fun t => t.predecessorIds.isEmpty)).map (fun t => t.internalId)

/-- The complete forward pass: initialize `earliestReqStart` to the
actual start of every task, then propagate in Kahn order. -/
def forwardPass (tasks : List STask) (rels : List SRel) : FwdState :=
  kahnLoop tasks rels (tasks.length + 1)
    { queue := initQueue tasks
      topo := []
      inDeg := initDeg tasks
      ers := fun id => startOf tasks id }

/-- Minimum implied required finish over the outgoing edges of `task`
(the `minFinish` accumulator of the backward pass; `none` stands for the
initial `Infinity`). -/
def minReqOverSuccs (tasks : List STask) (task : STask) (succs : List String) : Option ℚ :=
  succs.foldl (fun acc succId =>
    match findTask tasks succId with
    | none => acc
    | some succ =>
      let req := impliedReqFinish task succ
      match acc with
      | none => some req
      | some m => if req < m then some req else some m) none

/-- One step of the backward pass for a dequeued id: skip tasks without
successors, otherwise clamp the minimum implied requirement by the
task's own actual finish (`Math.min(task.earlyFinish, minFinish)`). -/
def backStep (tasks : List STask) (rels : List SRel) (lrf : String → ℚ) (id : String) :
    String → ℚ :=
  match findTask tasks id with
  | none => lrf
  | some task =>
    let succs := succIds rels id
    if succs.isEmpty then lrf
    else
      match minReqOverSuccs tasks task succs with
      | none => lrf
      | some m => fun j => if j = id then min task.finish m else lrf j

/-- The backward pass: initialize `latestReqFinish` to every task's
actual finish, then walk the topological order in reverse. -/
def backwardPass (tasks : List STask) (rels : List SRel) (topo : List String) : String → ℚ :=
  topo.reverse.foldl (backStep tasks rels) (fun id => finishOf tasks id)

/-- Relationship "driving" test: the relationship-type formula over the
two endpoints' actual dates is met within the tolerance, with
`rel.lag || 0` and `rel.type || 'FS'` defaulting. -/
def relDriving (tol : ℚ) (pred succ : STask) (r : SRel) : Bool :=
  let lag := r.lag.getD 0
  let ty := if r.type = "" then "FS" else r.type
  if ty = "FS" then decide (|pred.finish + lag - succ.start| ≤ tol)
  else if ty = "SS" then decide (|pred.start + lag - succ.start| ≤ tol)
  else if ty = "FF" then decide (|pred.finish + lag - succ.finish| ≤ tol)
  else if ty = "SF" then decide (|pred.start + lag - succ.finish| ≤ tol)
  else decide (|pred.finish + lag - succ.start| ≤ tol)

/-- Per-relationship criticality: relationships with a missing endpoint
are non-critical; an externally supplied free float decides directly
against the tolerance; otherwise the relationship must be driving and
join two critical-by-float tasks. -/
def relIsCriticalB (tasks : List STask) (tol : ℚ) (cbf : String → Bool) (r : SRel) : Bool :=
  match findTask tasks r.predecessorId, findTask tasks r.successorId with
  | some pred, some succ =>
    match r.freeFloat with
    | some ff => decide (ff ≤ tol)
    | none => relDriving tol pred succ r && cbf pred.internalId && cbf succ.internalId
  | _, _ => false

/-- Output of a full-project `runScheduleAnalysis` run, as maps from task
id to the computed per-task fields plus the per-relationship flag. -/
structure AnalysisResult where
  topo : List String
  earliestReqStart : String → ℚ
  latestReqFinish : String → ℚ
  totalFloat : String → ℚ
  lateStart : String → ℚ
  lateFinish : String → ℚ
  violatesConstraints : String → Bool
  isCriticalByFloat : String → Bool
  isNearCritical : String → Bool
  isCriticalByRel : String → Bool
  isCritical : String → Bool
  relCritical : SRel → Bool

/-- The schedule-based analysis (`runScheduleAnalysis`): forward pass,
backward pass, float/violation/criticality classification, relationship
classification, and the final criticality combination. -/
def runScheduleAnalysis (inp : AnalysisInput) : AnalysisResult :=
  let tasks := inp.tasks
  let rels := inp.relationships
  let fwd := forwardPass tasks rels
  let ers := fwd.ers
  let lrf := backwardPass tasks rels fwd.topo
  let tf : String → ℚ := fun id => min (startOf tasks id - ers id) (lrf id - finishOf tasks id)
  let lateFin : String → ℚ := fun id => finishOf tasks id + max 0 (tf id)
  let lateSt : String → ℚ := fun id => lateFin id - (finishOf tasks id - startOf tasks id)
  let viol : String → Bool := fun id => decide (tf id < -inp.floatTolerance)
  let cbf : String → Bool := fun id => decide (|tf id| ≤ inp.floatTolerance) && !viol id
  let nearC : String → Bool := fun id =>
    !cbf id && !viol id && decide (tf id > inp.floatTolerance) &&
      decide (tf id ≤ inp.floatThreshold)
  let relCrit : SRel → Bool := relIsCriticalB tasks inp.floatTolerance cbf
  let cbr : String → Bool := fun id =>
    rels.any (fun r =>
      relCrit r && (decide (r.predecessorId = id) || decide (r.successorId = id)))
  { topo := fwd.topo
    earliestReqStart := ers
    latestReqFinish := lrf
    totalFloat := tf
    lateStart := lateSt
    lateFinish := lateFin
    violatesConstraints := viol
    isCriticalByFloat := cbf
    isNearCritical := nearC
    isCriticalByRel := cbr
    isCritical := fun id => (cbf id && !viol id) || cbr id
    relCritical := relCrit }

/-- Mutable state of `detectAndReportCycles`: the visited set, the
recursion stack, the set of tasks found on cycles and the collected
cycle descriptions.  JavaScript `Set`s become duplicate-free lists
(`List.insert` adds only when absent). -/
structure CycleState where
  visited : List String
  recStack : List String
  cyclicTasks : List String
  cycleDetails : List String
deriving Repr

/-- Display name used in cycle descriptions: task name and id when the
task exists, the raw id otherwise. -/
def displayName (tasks : List STask) (id : String) : String :=
  match findTask tasks id with
  | some t => t.nameStr ++ " (" ++ id ++ ")"
  | none => id

/-- Human-readable description of a detected cycle: the tail of the
current path from the first occurrence of `succId`, closed by `succId`
again.  (`succId` is always on the path when this is reached, since the
recursion stack holds exactly the path members.) -/
def describeCycle (tasks : List STask) (path1 : List String) (succId : String) : String :=
  let cycleStartIndex := path1.indexOf succId
  let cyclePath := path1.drop cycleStartIndex ++ [succId]
  "Cycle found: " ++ String.intercalate " → " (cyclePath.map (displayName tasks))

/-- The `for (const successor of task.successors)` loop of
`detectCycleDFS`: an unvisited successor is explored through `step`
(the recursive visit with one unit of fuel less); a visited successor on
the recursion stack is a back edge, recorded as a cycle; a visited
finished successor is skipped.  Returning `true` aborts the loop and
marks the current task cyclic. -/
def dfsLoopAux (step : String → List String → CycleState → Bool × CycleState)
    (tasks : List STask) (taskId : String) (path1 : List String) :
    List String → CycleState → Bool × CycleState
  | [], s => (false, s)
  | succId :: rest, s =>
    if succId ∈ s.visited then
      if succId ∈ s.recStack then
        (true,
          { s with
            cyclicTasks := (s.cyclicTasks.insert succId).insert taskId
            cycleDetails := s.cycleDetails ++ [describeCycle tasks path1 succId] })
      else dfsLoopAux step tasks taskId path1 rest s
    else
      match step succId path1 s with
      | (true, s2) => (true, { s2 with cyclicTasks := s2.cyclicTasks.insert taskId })
      | (false, s2) => dfsLoopAux step tasks taskId path1 rest s2

/-- The recursive `detectCycleDFS` helper, fuel-bounded.  Each recursive
call is on a task not yet visited and immediately marks it visited, so
any fuel exceeding the number of unvisited tasks behaves exactly like
the unbounded source recursion. -/
def dfsVisit (tasks : List STask) (rels : List SRel) :
    ℕ → String → List String → CycleState → Bool × CycleState
  | 0, _, _, s => (false, s)
  | fuel + 1, taskId, path, s =>
    let s1 : CycleState :=
      { s with visited := s.visited.insert taskId, recStack := s.recStack.insert taskId }
    let path1 := path ++ [taskId]
    match findTask tasks taskId with
    | none => (false, { s1 with recStack := s1.recStack.erase taskId })
    | some _ =>
      match dfsLoopAux (fun sid p st => dfsVisit tasks rels fuel sid p st)
          tasks taskId path1 (succIds rels taskId) s1 with
      | (true, s2) => (true, s2)
      | (false, s2) => (false, { s2 with recStack := s2.recStack.erase taskId })

/-- Result of `detectAndReportCycles`. -/
structure CycleReport where
  hasCycles : Bool
  cyclicTasks : List String
  cycleDetails : List String
deriving Repr

/-- Cycle detection: depth-first search from every unvisited task over
the successor graph; `hasCycles` is `cyclicTasks.size > 0`. -/
def detectAndReportCycles (tasks : List STask) (rels : List SRel) : CycleReport :=
  let finalState :=
    tasks.foldl (fun s t =>
      if t.internalId ∈ s.visited then s
      else (dfsVisit tasks rels (tasks.length + 1) t.internalId [] s).2)
      ⟨[], [], [], []⟩
  { hasCycles := !finalState.cyclicTasks.isEmpty
    cyclicTasks := finalState.cyclicTasks
    cycleDetails := finalState.cycleDetails }

/-- The full-project entry point `calculateCPM`: refuse the run (no
per-task results at all) when there are no tasks or when the cycle gate
fires, otherwise run the schedule analysis. -/
def calculateCPM (inp : AnalysisInput) : Option AnalysisResult :=
  if inp.tasks.isEmpty then none
  else if (detectAndReportCycles inp.tasks inp.relationships).hasCycles then none
  else some (runScheduleAnalysis inp)

/-- Breadth-first ancestor closure (`identifyAllPredecessorTasksOptimized`):
FIFO queue, predecessor edges, visited-set guard; always contains the
seed.  Fuel-bounded: each id is enqueued at most once, so the bound
below outlasts the source loop. -/
def ancestorBFS (tasks : List STask) : ℕ → List String → List String → List String
  | 0, _, seen => seen
  | fuel + 1, queue, seen =>
    match queue with
    | [] => seen
    | id :: rest =>
      match findTask tasks id with
      | none => ancestorBFS tasks fuel rest seen
      | some t =>
        let step := t.predecessorIds.foldl
          (fun (acc : List String × List String) p =>
            if p ∈ acc.2 then acc else (acc.1 ++ [p], acc.2 ++ [p]))
          (rest, seen)
        ancestorBFS tasks fuel step.1 step.2

/-- Ancestor closure of a target task id. -/
def identifyAllPredecessorTasks (tasks : List STask) (targetId : String) : List String :=
  ancestorBFS tasks
    (tasks.length + tasks.foldl (fun n t => n + t.predecessorIds.length) 0 + 1)
    [targetId] [targetId]

/-- Breadth-first descendant closure (`identifyAllSuccessorTasksOptimized`):
follows successor edges from the relationship index. -/
def descendantBFS (rels : List SRel) : ℕ → List String → List String → List String
  | 0, _, seen => seen
  | fuel + 1, queue, seen =>
    match queue with
    | [] => seen
    | id :: rest =>
      let step := (succIds rels id).foldl
        (fun (acc : List String × List String) sid =>
          if sid ∈ acc.2 then acc else (acc.1 ++ [sid], acc.2 ++ [sid]))
        (rest, seen)
      descendantBFS rels fuel step.1 step.2

/-- Descendant closure of a source task id. -/
def identifyAllSuccessorTasks (rels : List SRel) (sourceId : String) : List String :=
  descendantBFS rels (rels.length + 2) [sourceId] [sourceId]

/-- Per-task results of `calculateFloatAndCriticalityForSubset`;
`totalFloat = none` models the `Infinity` assigned to excluded tasks. -/
structure SubsetResult where
  totalFloat : String → Option ℚ
  isCriticalByFloat : String → Bool
  isCriticalByRel : String → Bool
  isNearCritical : String → Bool
  isCritical : String → Bool

/-- Relationship criticality inside a scoped run: both endpoints must
exist and lie in the subset; then the free-float override or the
driving test over the endpoints' actual dates with both endpoints
critical-by-float (the subset's own critical-by-float flags). -/
def subsetRelCritical (tasks : List STask) (tol : ℚ) (subset : List String)
    (cbfS : String → Bool) (r : SRel) : Bool :=
  match findTask tasks r.predecessorId, findTask tasks r.successorId with
  | some pred, some succ =>
    if pred.internalId ∈ subset ∧ succ.internalId ∈ subset then
      match r.freeFloat with
      | some ff => decide (ff ≤ tol)
      | none => relDriving tol pred succ r && cbfS pred.internalId && cbfS succ.internalId
    else false
  | _, _ => false

/-- The scoped classifier `calculateFloatAndCriticalityForSubset`, fed by
a completed full run: tasks outside the subset are forced non-critical
and non-near-critical with infinite float; tasks inside recompute
`totalFloat = max(0, lateStart - earlyStart)` from the full run's late
dates (all finite after a completed run, so the NaN/Infinity guard
branches of the source are not reachable here); the final pass combines
`isCritical = isCriticalByFloat || isCriticalByRel` and recomputes the
near-critical band; the target task, when it exists, is forced critical
and not near-critical at the end. -/
def calculateFloatAndCriticalityForSubset (inp : AnalysisInput) (full : AnalysisResult)
    (subset : List String) (target : Option String) : SubsetResult :=
  let tasks := inp.tasks
  let tol := inp.floatTolerance
  let thr := inp.floatThreshold
  let sf : String → ℚ := fun id => max 0 (full.lateStart id - startOf tasks id)
  let tf : String → Option ℚ := fun id => if id ∈ subset then some (sf id) else none
  let cbfS : String → Bool := fun id =>
    if id ∈ subset then decide (sf id ≤ tol) else false
  let cbrS : String → Bool := fun id =>
    inp.relationships.any (fun r =>
      subsetRelCritical tasks tol subset cbfS r &&
        (decide (r.predecessorId = id) || decide (r.successorId = id)))
  let critPre : String → Bool := fun id =>
    if id ∈ subset then cbfS id || cbrS id else false
  let nearFinal : String → Bool := fun id =>
    if id ∈ subset then
      !critPre id && decide (sf id > tol) && decide (sf id ≤ thr)
    else false
  let forced : String → Bool := fun id =>
    match target with
    | some tid => decide (id = tid) && (findTask tasks tid).isSome
    | none => false
  { totalFloat := tf
    isCriticalByFloat := cbfS
    isCriticalByRel := cbrS
    isNearCritical := fun id => if forced id then false else nearFinal id
    isCritical := fun id => if forced id then true else critPre id }

/-- The task-scoped entry point `calculateCPMToTask`: run the full
analysis, then restrict criticality to the ancestor closure of the
selected task.  (On a cyclic graph the source skips the full analysis
but still reclassifies whatever stale fields the task objects carry;
that stateful path has no pure counterpart and is modelled as refusal.) -/
def calculateCPMToTask (inp : AnalysisInput) (targetTaskId : Option String) :
    Option (AnalysisResult × Option SubsetResult) :=
  match calculateCPM inp with
  | none => none
  | some full =>
    match targetTaskId with
    | none => some (full, none)
    | some tid =>
      let subset := identifyAllPredecessorTasks inp.tasks tid
      some (full, some (calculateFloatAndCriticalityForSubset inp full subset (some tid)))

/-- The forward-scoped entry point `calculateCPMFromTask`: same with the
descendant closure. -/
def calculateCPMFromTask (inp : AnalysisInput) (targetTaskId : Option String) :
    Option (AnalysisResult × Option SubsetResult) :=
  match calculateCPM inp with
  | none => none
  | some full =>
    match targetTaskId with
    | none => some (full, none)
    | some tid =>
      let subset := identifyAllSuccessorTasks inp.relationships tid
      some (full, some (calculateFloatAndCriticalityForSubset inp full subset (some tid)))

/-- One tabular input row as seen by `transformDataOptimized` after
column extraction: a validated task id, the task's parsed fields, and
the optional relationship columns (`predecessorId` empty or null means
no relationship on this row; free float and lag are `none` unless they
parsed to finite numbers). -/
structure SourceRow where
  taskId : String
  nameStr : String
  start : ℚ
  finish : ℚ
  predecessorId : Option String
  relType : Option String
  relFreeFloat : Option ℚ
  relLag : Option ℚ
deriving Repr, DecidableEq

/-- Relationship data parsed from one row. -/
structure RawRelData where
  predId : String
  relType : String
  freeFloat : Option ℚ
  lag : Option ℚ
deriving Repr, DecidableEq

/-- The valid relationship types accepted by the indexer. -/
def validRelTypes : List String := ["FS", "SS", "FF", "SF"]

/-- Relationship extraction for one row: requires a non-empty
predecessor id different from the row's task id (`predId && predId !==
taskId`); the raw type defaults to FS and is replaced by FS unless it is
one of FS/SS/FF/SF.  Note that nothing here checks that `predId` names
an existing task. -/
def rowRelData (row : SourceRow) : Option RawRelData :=
  match row.predecessorId with
  | none => none
  | some predId =>
    if predId ≠ "" ∧ predId ≠ row.taskId then
      let relTypeRaw := row.relType.getD "FS"
      let relType := if relTypeRaw ∈ validRelTypes then relTypeRaw else "FS"
      some ⟨predId, relType, row.relFreeFloat, row.relLag⟩
    else none

/-- Relationships grouped for one task id, in row order, keeping only
the first relationship seen for each predecessor id. -/
def relsForTask (rows : List SourceRow) (tid : String) : List RawRelData :=
  (rows.filter (fun r => r.taskId = tid)).foldl (fun acc row =>
    match rowRelData row with
    | none => acc
    | some rd =>
      if acc.any (fun r0 => r0.predId = rd.predId) then acc else acc ++ [rd]) []

/-- Distinct task ids in first-occurrence order (the `Map` insertion
order of the grouping pass). -/
def taskIdOrder (rows : List SourceRow) : List String :=
  rows.foldl (fun acc r => if r.taskId ∈ acc then acc else acc ++ [r.taskId]) []

/-- Task record creation: fields from the first row of the task,
predecessor list and per-predecessor maps from the grouped
relationships. -/
def buildTask (rows : List SourceRow) (tid : String) : Option STask :=
  match (rows.filter (fun r => r.taskId = tid)).head? with
  | none => none
  | some row =>
    let rds := relsForTask rows tid
    some
      { internalId := tid
        nameStr := row.nameStr
        start := row.start
        finish := row.finish
        predecessorIds := rds.map (fun rd => rd.predId)
        relationshipTypes := rds.map (fun rd => (rd.predId, rd.relType))
        relationshipLags := rds.map (fun rd => (rd.predId, rd.lag)) }

/-- The data indexer `transformDataOptimized`, restricted to its
task/relationship outputs: the task list (map iteration order) and the
relationship list (pushed per task, per grouped relationship). -/
def transformData (rows : List SourceRow) : List STask × List SRel :=
  let ids := taskIdOrder rows
  ( ids.filterMap (buildTask rows)
  , ids.flatMap (fun tid =>
      (relsForTask rows tid).map (fun rd =>
        ⟨rd.predId, tid, rd.relType, rd.freeFloat, rd.lag⟩)) )

/-- A task as consumed by the web worker (`cpmWorker.ts`): only a
duration, no dates — the worker recomputes early dates classically. -/
structure WTask where
  internalId : String
  duration : ℚ
  predecessorIds : List String
  relationshipTypes : List (String × String)
  relationshipLags : List (String × Option ℚ)
deriving Repr, DecidableEq

/-- Input message of the worker. -/
structure WorkerInput where
  tasks : List WTask
  relationships : List SRel
  floatTolerance : ℚ
  floatThreshold : ℚ

/-- Worker task lookup. -/
def findWTask (tasks : List WTask) (id : String) : Option WTask :=
  tasks.find? (fun t => t.internalId = id)

/-- Worker relationship type lookup (`succ.relationshipTypes[id] || 'FS'`). -/
def wRelTypeOf (succ : WTask) (predId : String) : String :=
  match alook succ.relationshipTypes predId with
  | some ty => if ty = "" then "FS" else ty
  | none => "FS"

/-- Worker lag lookup (`succ.relationshipLags[id] ?? 0`). -/
def wRelLagOf (succ : WTask) (predId : String) : ℚ :=
  match alook succ.relationshipLags predId with
  | some (some q) => q
  | _ => 0

/-- Worker in-degree of a task: the length of the predecessor adjacency
built from the relationship list. -/
def wPredCount (rels : List SRel) (id : String) : ℕ :=
  (rels.filter (fun r => r.successorId = id)).length

/-- State of the worker's classical forward pass: the worker recomputes
`earlyStart`/`earlyFinish` from durations (dates flexible), unlike the
schedule-based engine. -/
structure WFwdState where
  queue : List String
  topo : List String
  inDeg : String → Int
  es : String → ℚ
  ef : String → ℚ

/-- One edge of the worker forward pass: push the successor's early
start to the implied value (clamped at 0), recompute its early finish,
decrement its in-degree. -/
def wProcessEdge (tasks : List WTask) (st : WFwdState) (predId succId : String) : WFwdState :=
  match findWTask tasks succId with
  | none => st
  | some succ =>
    let relType := wRelTypeOf succ predId
    let lag := wRelLagOf succ predId
    let sv :=
      if relType = "FS" then st.ef predId + lag
      else if relType = "SS" then st.es predId + lag
      else if relType = "FF" then st.ef predId - succ.duration + lag
      else if relType = "SF" then st.es predId - succ.duration + lag
      else st.ef predId + lag
    let nes := max (st.es succId) (max 0 sv)
    let nef := nes + succ.duration
    let nd := st.inDeg succId - 1
    { queue := if nd = 0 then st.queue ++ [succId] else st.queue
      topo := st.topo
      inDeg := fun id => if id = succId then nd else st.inDeg id
      es := fun id => if id = succId then nes else st.es id
      ef := fun id => if id = succId then nef else st.ef id }

/-- The worker Kahn loop. -/
def wKahnLoop (tasks : List WTask) (rels : List SRel) : ℕ → WFwdState → WFwdState
  | 0, st => st
  | fuel + 1, st =>
    match st.queue with
    | [] => st
    | id :: rest =>
      wKahnLoop tasks rels fuel
        ((succIds rels id).foldl (fun s succId => wProcessEdge tasks s id succId)
          { st with queue := rest, topo := st.topo ++ [id] })

/-- The worker forward pass: early start 0 and early finish `duration`
initially, in-degrees from the relationship-derived predecessor lists. -/
def wForwardPass (tasks : List WTask) (rels : List SRel) : WFwdState :=
  wKahnLoop tasks rels (tasks.length + 1)
    { queue := (tasks.filter (fun t => wPredCount rels t.internalId = 0)).map
        (fun t => t.internalId)
      topo := []
      inDeg := fun id => (wPredCount rels id : Int)
      es := fun _ => 0
      ef := fun id =>
        match findWTask tasks id with
        | some t => t.duration
        | none => 0 }

/-- One step of the worker backward pass for a dequeued id (late starts
and finishes are `Option ℚ`, `none` standing for `Infinity`): take the
minimum requirement over successors with finite late dates; when none is
finite, fall back to the project end (the task's early finish is always
finite). -/
def wBackStep (tasks : List WTask) (rels : List SRel) (projectEnd : ℚ)
    (st : (String → Option ℚ) × (String → Option ℚ)) (id : String) :
    (String → Option ℚ) × (String → Option ℚ) :=
  match findWTask tasks id with
  | none => st
  | some task =>
    let succs := succIds rels id
    if succs.isEmpty then st
    else
      let minReq : Option ℚ := succs.foldl (fun acc succId =>
        match findWTask tasks succId with
        | none => acc
        | some succ =>
          match st.1 succId, st.2 succId with
          | some sls, some slf =>
            let relType := wRelTypeOf succ id
            let lag := wRelLagOf succ id
            let req :=
              if relType = "FS" then sls - lag
              else if relType = "SS" then sls - lag + task.duration
              else if relType = "FF" then slf - lag
              else if relType = "SF" then slf - lag - succ.duration + task.duration
              else sls - lag
            match acc with
            | none => some req
            | some m => if req < m then some req else some m
          | _, _ => acc) none
      let nlf := match minReq with
        | some m => m
        | none => projectEnd
      ( fun j => if j = id then some (max 0 (nlf - task.duration)) else st.1 j
      , fun j => if j = id then some nlf else st.2 j )

/-- Worker relationship driving test, over the recomputed early dates. -/
def wRelDriving (tol : ℚ) (es ef : String → ℚ) (r : SRel) : Bool :=
  let lag := r.lag.getD 0
  let ty := if r.type = "" then "FS" else r.type
  if ty = "FS" then decide (|ef r.predecessorId + lag - es r.successorId| ≤ tol)
  else if ty = "SS" then decide (|es r.predecessorId + lag - es r.successorId| ≤ tol)
  else if ty = "FF" then decide (|ef r.predecessorId + lag - ef r.successorId| ≤ tol)
  else if ty = "SF" then decide (|es r.predecessorId + lag - ef r.successorId| ≤ tol)
  else decide (|ef r.predecessorId + lag - es r.successorId| ≤ tol)

/-- Worker per-relationship criticality. -/
def wRelCritical (tasks : List WTask) (tol : ℚ) (es ef : String → ℚ)
    (cbf : String → Bool) (r : SRel) : Bool :=
  match findWTask tasks r.predecessorId, findWTask tasks r.successorId with
  | some _, some _ =>
    match r.freeFloat with
    | some ff => decide (ff ≤ tol)
    | none => wRelDriving tol es ef r && cbf r.predecessorId && cbf r.successorId
  | _, _ => false

/-- Output of one worker run. -/
structure WorkerResult where
  topo : List String
  earlyStart : String → ℚ
  earlyFinish : String → ℚ
  lateStart : String → Option ℚ
  lateFinish : String → Option ℚ
  totalFloat : String → Option ℚ
  isCriticalByFloat : String → Bool
  isNearCritical : String → Bool
  isCriticalByRel : String → Bool
  isCritical : String → Bool
  relCritical : SRel → Bool

/-- The worker's `self.onmessage` analysis: classical forward and
backward passes over durations, `totalFloat = max(0, lateStart -
earlyStart)`, near-critical banding against the threshold, relationship
criticality, and `isCritical = isCriticalByFloat || isCriticalByRel`. -/
def workerRun (inp : WorkerInput) : WorkerResult :=
  let tasks := inp.tasks
  let rels := inp.relationships
  let tol := inp.floatTolerance
  let fwd := wForwardPass tasks rels
  let es := fwd.es
  let ef := fwd.ef
  let projectEnd := tasks.foldl (fun m t => max m (ef t.internalId)) 0
  let ls0 : String → Option ℚ := fun id =>
    match findWTask tasks id with
    | some t =>
      if (succIds rels id).isEmpty then some (max 0 (projectEnd - t.duration)) else none
    | none => none
  let lf0 : String → Option ℚ := fun id =>
    match findWTask tasks id with
    | some _ => if (succIds rels id).isEmpty then some projectEnd else none
    | none => none
  let back := fwd.topo.reverse.foldl (wBackStep tasks rels projectEnd) (ls0, lf0)
  let ls := back.1
  let lf := back.2
  let tf : String → Option ℚ := fun id =>
    match ls id with
    | some l => some (max 0 (l - es id))
    | none => none
  let cbf : String → Bool := fun id =>
    match tf id with
    | some q => decide (q ≤ tol)
    | none => false
  let nearC : String → Bool := fun id =>
    match tf id with
    | some q => !decide (q ≤ tol) && decide (q > tol) && decide (q ≤ inp.floatThreshold)
    | none => false
  let relCrit : SRel → Bool := wRelCritical tasks tol es ef cbf
  let cbr : String → Bool := fun id =>
    rels.any (fun r =>
      relCrit r && (decide (r.predecessorId = id) || decide (r.successorId = id)))
  { topo := fwd.topo
    earlyStart := es
    earlyFinish := ef
    lateStart := ls
    lateFinish := lf
    totalFloat := tf
    isCriticalByFloat := cbf
    isNearCritical := nearC
    isCriticalByRel := cbr
    isCritical := fun id => cbf id || cbr id
    relCritical := relCrit }

/-- An entry of the generic priority queue: the stored item with its
numeric priority. -/
structure PQEntry (α : Type) where
  item : α
  priority : ℚ
deriving Repr, DecidableEq

/-- The queue's default comparator `(a, b) => a < b` (min-heap
behaviour). -/
def defaultCompare : ℚ → ℚ → Bool := fun a b => decide (a < b)

/-- The priority queue's backing array of entries. -/
structure PriorityQueue (α : Type) where
  heap : List (PQEntry α)
deriving Repr

/-- The `bubbleUp` sift: while the moved element compares before its
parent, swap them and continue from the parent index (the source keeps
the moved element in a local and rewrites both cells per iteration). -/
def bubbleUp {α : Type} (cmp : ℚ → ℚ → Bool) (element : PQEntry α) :
    List (PQEntry α) → ℕ → List (PQEntry α)
  | h, 0 => h
  | h, i + 1 =>
    let parentIndex := (i + 1 - 1) / 2
    match h.get? parentIndex with
    | none => h
    | some parent =>
      if cmp element.priority parent.priority then
        bubbleUp cmp element ((h.set parentIndex element).set (i + 1) parent) parentIndex
      else h
termination_by h i => i
decreasing_by simp_wf; omega

/-- Child comparison against a fixed priority; `false` when the index is
out of range (`left < length && compare(...)`). -/
def cmpAt {α : Type} (cmp : ℚ → ℚ → Bool) (h : List (PQEntry α)) (j : ℕ) (p : ℚ) : Bool :=
  match h.get? j with
  | some e => cmp e.priority p
  | none => false

/-- Comparison of two cells, `false` when either is out of range. -/
def cmpAt2 {α : Type} (cmp : ℚ → ℚ → Bool) (h : List (PQEntry α)) (j k : ℕ) : Bool :=
  match h.get? j, h.get? k with
  | some a, some b => cmp a.priority b.priority
  | _, _ => false

/-- Selection of the swap target in one `bubbleDown` iteration: the left
child when it compares before the element, improved to the right child
when that compares before the left; otherwise the right child alone when
it compares before the element. -/
def chooseSwap {α : Type} (cmp : ℚ → ℚ → Bool) (h : List (PQEntry α)) (index : ℕ)
    (element : PQEntry α) : Option ℕ :=
  let left := 2 * index + 1
  let right := 2 * index + 2
  if cmpAt cmp h left element.priority then
    if cmpAt2 cmp h right left then some right else some left
  else
    if cmpAt cmp h right element.priority then some right else none

/-- A true `cmpAt` needs the index in range. -/
theorem cmpAt_true_lt {α : Type} {cmp : ℚ → ℚ → Bool} {h : List (PQEntry α)} {j : ℕ} {p : ℚ}
    (hc : cmpAt cmp h j p = true) : j < h.length := by
  unfold cmpAt at hc
  rcases hj : h.get? j with _ | e
  · rw [hj] at hc; simp at hc
  · exact (List.get?_eq_some.mp hj).1

/-- A true `cmpAt2` needs its first index in range. -/
theorem cmpAt2_true_lt {α : Type} {cmp : ℚ → ℚ → Bool} {h : List (PQEntry α)} {j k : ℕ}
    (hc : cmpAt2 cmp h j k = true) : j < h.length := by
  unfold cmpAt2 at hc
  rcases hj : h.get? j with _ | e
  · rw [hj] at hc; simp at hc
  · exact (List.get?_eq_some.mp hj).1

/-- The swap target is strictly below the current index and in range. -/
theorem chooseSwap_some {α : Type} {cmp : ℚ → ℚ → Bool} {h : List (PQEntry α)} {index s : ℕ}
    {element : PQEntry α} (hs : chooseSwap cmp h index element = some s) :
    index < s ∧ s < h.length := by
  unfold chooseSwap at hs
  by_cases h1 : cmpAt cmp h (2 * index + 1) element.priority = true
  · rw [if_pos h1] at hs
    by_cases h2 : cmpAt2 cmp h (2 * index + 2) (2 * index + 1) = true
    · rw [if_pos h2] at hs
      cases hs
      exact ⟨by omega, cmpAt2_true_lt h2⟩
    · rw [if_neg h2] at hs
      cases hs
      exact ⟨by omega, cmpAt_true_lt h1⟩
  · rw [if_neg h1] at hs
    by_cases h2 : cmpAt cmp h (2 * index + 2) element.priority = true
    · rw [if_pos h2] at hs
      cases hs
      exact ⟨by omega, cmpAt_true_lt h2⟩
    · rw [if_neg h2] at hs
      cases hs

/-- The `bubbleDown` sift: repeatedly swap the moved element with its
smallest qualifying child. -/
def bubbleDown {α : Type} (cmp : ℚ → ℚ → Bool) (element : PQEntry α)
    (h : List (PQEntry α)) (index : ℕ) : List (PQEntry α) :=
  match hs : chooseSwap cmp h index element with
  | none => h
  | some s =>
    match h.get? s with
    | none => h
    | some es => bubbleDown cmp element ((h.set index es).set s element) s
termination_by h.length - index
decreasing_by
  simp_wf
  have := chooseSwap_some hs
  omega

/-- The queue's `size()`. -/
def PriorityQueue.size {α : Type} (q : PriorityQueue α) : ℕ := q.heap.length

/-- The queue's `enqueue`: push the entry, then sift it up from the last
index. -/
def PriorityQueue.enqueue {α : Type} (cmp : ℚ → ℚ → Bool) (q : PriorityQueue α)
    (item : α) (priority : ℚ) : PriorityQueue α :=
  let h := q.heap ++ [⟨item, priority⟩]
  ⟨bubbleUp cmp ⟨item, priority⟩ h (h.length - 1)⟩

/-- The queue's `dequeue`: `undefined` (here `none`) on an empty queue;
otherwise return the root's item, move the popped last entry to the
root and sift it down. -/
def PriorityQueue.dequeue {α : Type} (cmp : ℚ → ℚ → Bool) (q : PriorityQueue α) :
    Option α × PriorityQueue α :=
  match q.heap with
  | [] => (none, q)
  | top :: rest =>
    let endE := (top :: rest).getLast (by simp)
    let popped := (top :: rest).dropLast
    if popped.isEmpty then (some top.item, ⟨popped⟩)
    else (some top.item, ⟨bubbleDown cmp endE (popped.set 0 endE) 0⟩)

/-- States reachable from the empty queue by sequences of `enqueue` and
`dequeue` with the default comparator. -/
inductive Reachable {α : Type} : PriorityQueue α → Prop
  | empty : Reachable ⟨[]⟩
  | enq (q : PriorityQueue α) (x : α) (p : ℚ) :
      Reachable q → Reachable (q.enqueue defaultCompare x p)
  | deq (q : PriorityQueue α) :
      Reachable q → Reachable (q.dequeue defaultCompare).2

/-- Task id projection of a task list. -/
def taskIds (tasks : List STask) : List String := tasks.map (fun t => t.internalId)

/-- With unique ids, `findTask` returns the list member itself. -/
theorem findTask_eq_self {tasks : List STask} (hnd : (taskIds tasks).Nodup)
    {t : STask} (ht : t ∈ tasks) : findTask tasks t.internalId = some t := by
  induction tasks with
  | nil => cases ht
  | cons u rest ih =>
    rw [taskIds, List.map_cons, List.nodup_cons] at hnd
    cases ht with
    | head =>
      rw [findTask]
      exact List.find?_cons_of_pos _ (by simp)
    | tail _ ht =>
      have hne : ¬ u.internalId = t.internalId := by
        intro h
        exact hnd.1 (h ▸ List.mem_map_of_mem (fun x => x.internalId) ht)
      rw [findTask, List.find?_cons_of_neg _ (by simpa using hne)]
      simpa [findTask] using ih hnd.2 ht

/-- Fixture: predecessor task A with actual dates 0 → 1. -/
def exTaskA : STask := ⟨"A", "A", 0, 1, [], [], []⟩

/-- Fixture: FS successor B starting 0.5 days before the predecessor's
actual finish (actual dates 0.5 → 1.5, lag 0). -/
def exTaskB : STask := ⟨"B", "B", 1/2, 3/2, ["A"], [("A", "FS")], [("A", some 0)]⟩

/-- Fixture: the FS relationship A → B with lag 0 and no free float. -/
def exRelAB : SRel := ⟨"A", "B", "FS", none, some 0⟩

/-- Fixture: the violation scenario of the spec's testable properties,
with tolerance 0.01 and threshold 1. -/
def exViolation : AnalysisInput := ⟨[exTaskA, exTaskB], [exRelAB], 1/100, 1⟩

/-- C4: for every task of any run, `totalFloat` is the minimum of the
start slack `actualStart - earliestRequiredStart` and the finish slack
`latestRequiredFinish - actualFinish`, and `violatesConstraints` holds
exactly when `totalFloat < -floatTolerance`; on the fixture, the FS
successor that starts 0.5 days early gets `totalFloat = -0.5` and
violates, so the output float can be negative. -/
theorem claim_C4_float_formula_and_violation :
    (∀ (inp : AnalysisInput), (taskIds inp.tasks).Nodup → ∀ t ∈ inp.tasks,
      (runScheduleAnalysis inp).totalFloat t.internalId =
        min (t.start - (runScheduleAnalysis inp).earliestReqStart t.internalId)
          ((runScheduleAnalysis inp).latestReqFinish t.internalId - t.finish)
      ∧ ((runScheduleAnalysis inp).violatesConstraints t.internalId = true ↔
          (runScheduleAnalysis inp).totalFloat t.internalId < -inp.floatTolerance))
    ∧ (runScheduleAnalysis exViolation).totalFloat "B" = -(1/2)
    ∧ (runScheduleAnalysis exViolation).violatesConstraints "B" = true := by
  refine ⟨?_, by with_unfolding_all decide, by with_unfolding_all decide⟩
  intro inp hnd t ht
  have hf := findTask_eq_self hnd ht
  constructor
  · simp [runScheduleAnalysis, startOf, finishOf, hf]
  · simp [runScheduleAnalysis]

/-- Witness for the hypotheses of C4 at the violation fixture. -/
theorem claim_C4_witness :
    (taskIds exViolation.tasks).Nodup ∧ exTaskB ∈ exViolation.tasks ∧
      ((runScheduleAnalysis exViolation).totalFloat exTaskB.internalId =
        min (exTaskB.start - (runScheduleAnalysis exViolation).earliestReqStart exTaskB.internalId)
          ((runScheduleAnalysis exViolation).latestReqFinish exTaskB.internalId - exTaskB.finish)
      ∧ ((runScheduleAnalysis exViolation).violatesConstraints exTaskB.internalId = true ↔
          (runScheduleAnalysis exViolation).totalFloat exTaskB.internalId <
            -exViolation.floatTolerance)) :=
  ⟨by decide, by simp [exViolation],
    claim_C4_float_formula_and_violation.1 exViolation (by decide) exTaskB (by simp [exViolation])⟩

/-- C5: after the full-project analysis the final flag satisfies
`isCritical = (isCriticalByFloat AND NOT violatesConstraints) OR
isCriticalByRelationship`; consequently a violating task touching no
critical relationship is never marked critical. -/
theorem claim_C5_final_criticality :
    ∀ (inp : AnalysisInput) (id : String),
      (runScheduleAnalysis inp).isCritical id =
        (((runScheduleAnalysis inp).isCriticalByFloat id &&
          !(runScheduleAnalysis inp).violatesConstraints id) ||
          (runScheduleAnalysis inp).isCriticalByRel id)
      ∧ ((runScheduleAnalysis inp).violatesConstraints id = true →
          (runScheduleAnalysis inp).isCriticalByRel id = false →
          (runScheduleAnalysis inp).isCritical id = false) := by
  intro inp id
  refine ⟨rfl, fun hv hr => ?_⟩
  have h : (runScheduleAnalysis inp).isCritical id =
      (((runScheduleAnalysis inp).isCriticalByFloat id &&
        !(runScheduleAnalysis inp).violatesConstraints id) ||
        (runScheduleAnalysis inp).isCriticalByRel id) := rfl
  rw [h, hv, hr]
  simp

/-- Witness for C5 at the violation fixture: B violates, touches no
critical relationship, and is indeed not critical. -/
theorem claim_C5_witness :
    (runScheduleAnalysis exViolation).violatesConstraints "B" = true ∧
      (runScheduleAnalysis exViolation).isCriticalByRel "B" = false ∧
      (runScheduleAnalysis exViolation).isCritical "B" = false :=
  ⟨by with_unfolding_all decide, by with_unfolding_all decide,
    (claim_C5_final_criticality exViolation "B").2
      (by with_unfolding_all decide) (by with_unfolding_all decide)⟩

/-- C6: for a relationship whose endpoint tasks both exist, a present
free float decides criticality against the tolerance; otherwise the
relationship is critical exactly when driving with both endpoints
critical-by-float; and every task touching a critical relationship gets
`isCriticalByRel`. -/
theorem claim_C6_relationship_criticality :
    ∀ (inp : AnalysisInput),
      (∀ r ∈ inp.relationships, ∀ pred succ,
        findTask inp.tasks r.predecessorId = some pred →
        findTask inp.tasks r.successorId = some succ →
        (∀ ff, r.freeFloat = some ff →
          ((runScheduleAnalysis inp).relCritical r = true ↔ ff ≤ inp.floatTolerance))
        ∧ (r.freeFloat = none →
          ((runScheduleAnalysis inp).relCritical r = true ↔
            relDriving inp.floatTolerance pred succ r = true
            ∧ (runScheduleAnalysis inp).isCriticalByFloat pred.internalId = true
            ∧ (runScheduleAnalysis inp).isCriticalByFloat succ.internalId = true)))
      ∧ (∀ id,
          (∃ r ∈ inp.relationships, (runScheduleAnalysis inp).relCritical r = true ∧
            (r.predecessorId = id ∨ r.successorId = id)) →
          (runScheduleAnalysis inp).isCriticalByRel id = true) := by
  intro inp
  have hrel : (runScheduleAnalysis inp).relCritical =
      relIsCriticalB inp.tasks inp.floatTolerance
        (fun id => (runScheduleAnalysis inp).isCriticalByFloat id) := rfl
  constructor
  · intro r _ pred succ hp hs
    constructor
    · intro ff hff
      rw [hrel]
      unfold relIsCriticalB
      rw [hp, hs, hff]
      simp
    · intro hff
      rw [hrel]
      unfold relIsCriticalB
      rw [hp, hs, hff]
      simp [Bool.and_eq_true, and_assoc]
  · intro id hex
    rcases hex with ⟨r, hr, hc, hor⟩
    have hcbr : (runScheduleAnalysis inp).isCriticalByRel id =
        inp.relationships.any (fun r =>
          (runScheduleAnalysis inp).relCritical r &&
            (decide (r.predecessorId = id) || decide (r.successorId = id))) := rfl
    rw [hcbr, List.any_eq_true]
    refine ⟨r, hr, ?_⟩
    rw [hc]
    rcases hor with h | h <;> simp [h]

/-- Fixture: the zero-float aligned successor scenario, where the FS
relationship A → B is driving and both endpoints are critical by float. -/
def exAligned : AnalysisInput :=
  ⟨[exTaskA, ⟨"B", "B", 1, 2, ["A"], [("A", "FS")], [("A", some 0)]⟩], [exRelAB], 1/100, 1⟩

/-- Witness for C6 at the aligned fixture: the endpoints of A → B exist,
the free-float-absent branch decides by driving and endpoint
criticality, and B (touching the critical A → B) is critical by
relationship. -/
theorem claim_C6_witness :
    exRelAB ∈ exAligned.relationships ∧
      ((runScheduleAnalysis exAligned).relCritical exRelAB = true ↔
        relDriving exAligned.floatTolerance exTaskA
            (⟨"B", "B", 1, 2, ["A"], [("A", "FS")], [("A", some 0)]⟩ : STask) exRelAB = true
          ∧ (runScheduleAnalysis exAligned).isCriticalByFloat "A" = true
          ∧ (runScheduleAnalysis exAligned).isCriticalByFloat "B" = true) ∧
      (runScheduleAnalysis exAligned).isCriticalByRel "B" = true := by
  refine ⟨by simp [exAligned], ?_, ?_⟩
  · exact ((claim_C6_relationship_criticality exAligned).1 exRelAB (by simp [exAligned])
      exTaskA _ (by with_unfolding_all decide) (by with_unfolding_all decide)).2 rfl
  · exact (claim_C6_relationship_criticality exAligned).2 "B"
      ⟨exRelAB, by simp [exAligned], by with_unfolding_all decide, Or.inr rfl⟩

/-- C9: holding the snapshot and the tolerance fixed, a task with float
above the tolerance that is near-critical at threshold τ1 stays
near-critical (or critical) at any τ2 ≥ τ1 — stated over the worker
classifier, the live near-critical path. -/
theorem claim_C9_threshold_monotonic :
    ∀ (tasks : List WTask) (rels : List SRel) (tol t1 t2 : ℚ), t1 ≤ t2 →
      ∀ id q, (workerRun ⟨tasks, rels, tol, t1⟩).totalFloat id = some q → tol < q →
        (workerRun ⟨tasks, rels, tol, t1⟩).isNearCritical id = true →
        ((workerRun ⟨tasks, rels, tol, t2⟩).isNearCritical id = true ∨
          (workerRun ⟨tasks, rels, tol, t2⟩).isCritical id = true) := by
  intro tasks rels tol t1 t2 ht id q htf hq hnear
  left
  have hn : ∀ th : ℚ, (workerRun ⟨tasks, rels, tol, th⟩).isNearCritical id =
      (match (workerRun ⟨tasks, rels, tol, th⟩).totalFloat id with
        | some v => !decide (v ≤ tol) && decide (v > tol) && decide (v ≤ th)
        | none => false) := fun th => rfl
  have hsame : (workerRun ⟨tasks, rels, tol, t2⟩).totalFloat id =
      (workerRun ⟨tasks, rels, tol, t1⟩).totalFloat id := rfl
  rw [hn t1, htf] at hnear
  rw [hn t2, hsame, htf]
  simp only [Bool.and_eq_true, decide_eq_true_eq, Bool.not_eq_true'] at hnear ⊢
  exact ⟨⟨hnear.1.1, hnear.1.2⟩, le_trans hnear.2 ht⟩

/-- Fixture: worker tasks for the near-critical witness — a two-task
chain A → B plus an isolated task C with one day of slack. -/
def exWorkerInput : WorkerInput :=
  ⟨[⟨"A", 1, [], [], []⟩, ⟨"B", 1, ["A"], [("A", "FS")], [("A", some 0)]⟩, ⟨"C", 1, [], [], []⟩],
    [⟨"A", "B", "FS", none, some 0⟩], 1/100, 1⟩

/-- Witness for C9: at the fixture, C has float 1 above the tolerance
and is near-critical at threshold 1, hence still near-critical or
critical at threshold 2. -/
theorem claim_C9_witness :
    (1 : ℚ) ≤ 2 ∧ (workerRun exWorkerInput).totalFloat "C" = some 1 ∧
      (1 : ℚ)/100 < 1 ∧ (workerRun exWorkerInput).isNearCritical "C" = true ∧
      ((workerRun ⟨exWorkerInput.tasks, exWorkerInput.relationships, 1/100, 2⟩).isNearCritical "C" = true ∨
        (workerRun ⟨exWorkerInput.tasks, exWorkerInput.relationships, 1/100, 2⟩).isCritical "C" = true) :=
  ⟨by norm_num, by with_unfolding_all decide, by norm_num, by with_unfolding_all decide,
    claim_C9_threshold_monotonic exWorkerInput.tasks exWorkerInput.relationships (1/100) 1 2
      (by norm_num) "C" 1 (by with_unfolding_all decide) (by norm_num)
      (by with_unfolding_all decide)⟩

/-- Relationship data parsed from a row never names the row's own task
as predecessor (the `predId !== taskId` guard; the guard also rejects an
empty predecessor string). -/
theorem rowRelData_pred_ne {row : SourceRow} {rd : RawRelData}
    (h : rowRelData row = some rd) : rd.predId ≠ row.taskId := by
  unfold rowRelData at h
  split at h
  · cases h
  · rename_i predId
    split at h
    · rename_i hc
      cases h
      exact hc.2
    · cases h

/-- Every grouped relationship of a task names a different predecessor
than the task itself. -/
theorem relsForTask_pred_ne {rows : List SourceRow} {tid : String} :
    ∀ rd ∈ relsForTask rows tid, rd.predId ≠ tid := by
  have aux : ∀ (l : List SourceRow) (acc : List RawRelData),
      (∀ rd ∈ acc, rd.predId ≠ tid) → (∀ row ∈ l, row.taskId = tid) →
      ∀ rd ∈ l.foldl (fun acc row =>
        match rowRelData row with
        | none => acc
        | some rd =>
          if acc.any (fun r0 => r0.predId = rd.predId) then acc else acc ++ [rd]) acc,
        rd.predId ≠ tid := by
    intro l
    induction l with
    | nil => intro acc hacc _ rd hrd; exact hacc rd hrd
    | cons row l ih =>
      intro acc hacc hrow rd hrd
      rw [List.foldl_cons] at hrd
      refine ih _ ?_ (fun x hx => hrow x (List.mem_cons_of_mem row hx)) rd hrd
      intro rd0 hrd0
      split at hrd0
      · exact hacc rd0 hrd0
      · rename_i rdr hR
        split at hrd0
        · exact hacc rd0 hrd0
        · rcases List.mem_append.mp hrd0 with hmem | hmem
          · exact hacc rd0 hmem
          · have heq : rd0 = rdr := by simpa using hmem
            subst heq
            exact (hrow row (List.mem_cons_self row l)) ▸ rowRelData_pred_ne hR
  intro rd hrd
  refine aux _ [] (by intro x hx; cases hx) ?_ rd hrd
  intro row hrow
  have := List.mem_filter.mp hrow
  simpa using this.2

/-- Fixture: rows for B(0 → 1), C(1 → 2) after B, D(0 → 3) after C — a
clean chain whose tail D starts before C finishes. -/
def exRowsClean : List SourceRow :=
  [⟨"B", "B", 0, 1, none, none, none, none⟩,
   ⟨"C", "C", 1, 2, some "B", some "FS", none, some 0⟩,
   ⟨"D", "D", 0, 3, some "C", some "FS", none, some 0⟩]

/-- Fixture: the same rows plus one extra row giving C a predecessor X
that names no task. -/
def exRowsDangling : List SourceRow :=
  exRowsClean ++ [⟨"C", "C", 1, 2, some "X", some "FS", none, some 0⟩]

/-- Analysis input indexed from the clean rows. -/
def exInputClean : AnalysisInput :=
  ⟨(transformData exRowsClean).1, (transformData exRowsClean).2, 1/100, 1⟩

/-- Analysis input indexed from the rows with the dangling reference. -/
def exInputDangling : AnalysisInput :=
  ⟨(transformData exRowsDangling).1, (transformData exRowsDangling).2, 1/100, 1⟩

/-- Counterexample to C7: the relationship X → C naming the unknown task
X is not dropped at indexing — it survives in the indexed relationship
list and in C's predecessor list, and its presence changes C's computed
float (0 instead of -2), because C keeps a positive in-degree and is
never topologically processed. -/
theorem claim_C7_counterexample :
    (⟨"X", "C", "FS", none, some 0⟩ : SRel) ∈ (transformData exRowsDangling).2
    ∧ (Option.map (fun t => t.predecessorIds)
        (findTask (transformData exRowsDangling).1 "C")) = some ["B", "X"]
    ∧ (runScheduleAnalysis exInputDangling).totalFloat "C" = 0
    ∧ (runScheduleAnalysis exInputClean).totalFloat "C" = -2 :=
  ⟨by with_unfolding_all decide, by with_unfolding_all decide,
    by with_unfolding_all decide, by with_unfolding_all decide⟩

/-- C7 as amended: self-loop relationships are indeed dropped at
indexing time (no indexed relationship is a self-loop), but a
relationship naming an unknown predecessor is kept — in the relationship
list and the successor's predecessor list — and is only neutralized
later: the classifier marks it non-critical, while it leaves the
successor with a forever-positive in-degree, so the successor is missing
from the topological order and keeps its initialization values
(`totalFloat` 0, not violating) instead of its true schedule float. -/
theorem claim_C7_amended :
    (∀ (rows : List SourceRow), ∀ r ∈ (transformData rows).2,
      r.predecessorId ≠ r.successorId)
    ∧ (⟨"X", "C", "FS", none, some 0⟩ : SRel) ∈ (transformData exRowsDangling).2
    ∧ (runScheduleAnalysis exInputDangling).relCritical ⟨"X", "C", "FS", none, some 0⟩ = false
    ∧ "C" ∉ (runScheduleAnalysis exInputDangling).topo
    ∧ (runScheduleAnalysis exInputDangling).totalFloat "C" = 0
    ∧ (runScheduleAnalysis exInputDangling).violatesConstraints "C" = false := by
  refine ⟨?_, by with_unfolding_all decide, by with_unfolding_all decide,
    by with_unfolding_all decide, by with_unfolding_all decide, by with_unfolding_all decide⟩
  intro rows r hr
  unfold transformData at hr
  rcases List.mem_flatMap.mp hr with ⟨tid, _, hmem⟩
  rcases List.mem_map.mp hmem with ⟨rd, hrd, hre⟩
  have := relsForTask_pred_ne rd hrd
  rw [← hre]
  simpa using this

/-- Witness for the universally quantified part of the amended C7 at the
dangling fixture: the indexed relationship B → C is not a self-loop. -/
theorem claim_C7_witness :
    (⟨"B", "C", "FS", none, some 0⟩ : SRel) ∈ (transformData exRowsDangling).2 ∧
      (⟨"B", "C", "FS", none, some 0⟩ : SRel).predecessorId ≠
        (⟨"B", "C", "FS", none, some 0⟩ : SRel).successorId :=
  ⟨by with_unfolding_all decide,
    claim_C7_amended.1 exRowsDangling ⟨"B", "C", "FS", none, some 0⟩
      (by with_unfolding_all decide)⟩

/-- Fixture: chain A(0 → 1) → B(0.5 → 1.5) → C(2 → 3); B violates its FS
constraint from A, C is comfortably after B. -/
def exScopedInput : AnalysisInput :=
  ⟨[exTaskA, exTaskB, ⟨"C", "C", 2, 3, ["B"], [("B", "FS")], [("B", some 0)]⟩],
   [exRelAB, ⟨"B", "C", "FS", none, some 0⟩], 1/100, 1⟩

/-- The subset classification produced by the ancestor-scoped run seeded
at C on the fixture. -/
def exScopedSub : SubsetResult :=
  calculateFloatAndCriticalityForSubset exScopedInput (runScheduleAnalysis exScopedInput)
    (identifyAllPredecessorTasks exScopedInput.tasks "C") (some "C")

/-- Counterexample to C8: in the scoped run seeded at C, the in-closure
task B is not classified by the full-project rules — the full run gives
B `totalFloat = -1/2`, a violation, and `isCritical = false`, while the
scoped classification clamps B's float to 0 and marks it critical. -/
theorem claim_C8_counterexample :
    calculateCPMToTask exScopedInput (some "C") =
      some (runScheduleAnalysis exScopedInput, some exScopedSub)
    ∧ "B" ∈ identifyAllPredecessorTasks exScopedInput.tasks "C"
    ∧ (runScheduleAnalysis exScopedInput).totalFloat "B" = -(1/2)
    ∧ (runScheduleAnalysis exScopedInput).violatesConstraints "B" = true
    ∧ (runScheduleAnalysis exScopedInput).isCritical "B" = false
    ∧ exScopedSub.isCritical "B" = true
    ∧ exScopedSub.totalFloat "B" = some 0 := by
  refine ⟨?_, by with_unfolding_all decide, by with_unfolding_all decide,
    by with_unfolding_all decide, by with_unfolding_all decide,
    by with_unfolding_all decide, by with_unfolding_all decide⟩
  unfold calculateCPMToTask calculateCPM
  rw [if_neg (by with_unfolding_all decide), if_neg (by with_unfolding_all decide)]
  rfl

/-- The ancestor BFS only ever extends the seen set. -/
theorem ancestorBFS_seen_subset (tasks : List STask) :
    ∀ (fuel : ℕ) (queue seen : List String), seen ⊆ ancestorBFS tasks fuel queue seen := by
  intro fuel
  induction fuel with
  | zero => intro queue seen; unfold ancestorBFS; exact fun x hx => hx
  | succ n ih =>
    intro queue seen
    have hfold : ∀ (l : List String) (acc : List String × List String),
        acc.2 ⊆ (l.foldl (fun (acc : List String × List String) p =>
          if p ∈ acc.2 then acc else (acc.1 ++ [p], acc.2 ++ [p])) acc).2 := by
      intro l
      induction l with
      | nil => exact fun acc x hx => hx
      | cons p l ihl =>
        intro acc
        rw [List.foldl_cons]
        intro x hx
        refine ihl _ ?_
        by_cases hp : p ∈ acc.2
        · rw [if_pos hp]; exact hx
        · rw [if_neg hp]; exact List.mem_append_left _ hx
    unfold ancestorBFS
    split
    · exact fun x hx => hx
    · rename_i id rest
      split
      · exact ih rest seen
      · rename_i t hft
        exact fun x hx => ih _ _ (hfold t.predecessorIds (rest, seen) hx)

/-- The seed task is always part of its own ancestor closure. -/
theorem seed_mem_closure (tasks : List STask) (seed : String) :
    seed ∈ identifyAllPredecessorTasks tasks seed := by
  unfold identifyAllPredecessorTasks
  exact ancestorBFS_seen_subset tasks _ [seed] [seed] (by simp)

/-- C8 as amended: in an ancestor-scoped run, tasks outside the closure
are forced non-critical and non-near-critical with undefined (infinite)
float; the seed, when it exists, is forced critical; but tasks inside
the closure are not reclassified by the §4.4 rules — their float is
clamped to `max 0 (full totalFloat)` (erasing violations), criticality
by float compares that clamped value against the tolerance, and the
final `isCritical` is `isCriticalByFloat || isCriticalByRel` with no
violation exclusion. -/
theorem claim_C8_amended :
    ∀ (inp : AnalysisInput) (seed : String) (full : AnalysisResult) (sub : SubsetResult),
      calculateCPMToTask inp (some seed) = some (full, some sub) →
      (∀ id, id ∉ identifyAllPredecessorTasks inp.tasks seed →
        sub.isCritical id = false ∧ sub.isNearCritical id = false ∧
          sub.isCriticalByFloat id = false ∧ sub.totalFloat id = none)
      ∧ (∀ id, id ∈ identifyAllPredecessorTasks inp.tasks seed →
          sub.totalFloat id = some (max 0 (full.totalFloat id))
          ∧ sub.isCriticalByFloat id =
              decide (max 0 (full.totalFloat id) ≤ inp.floatTolerance)
          ∧ (id ≠ seed →
              sub.isCritical id = (sub.isCriticalByFloat id || sub.isCriticalByRel id)
              ∧ sub.isNearCritical id =
                  (!sub.isCritical id &&
                    decide (max 0 (full.totalFloat id) > inp.floatTolerance) &&
                    decide (max 0 (full.totalFloat id) ≤ inp.floatThreshold))))
      ∧ ((findTask inp.tasks seed).isSome = true →
          sub.isCritical seed = true ∧ sub.isNearCritical seed = false) := by
  intro inp seed full sub hrun
  have hfull : full = runScheduleAnalysis inp ∧
      sub = calculateFloatAndCriticalityForSubset inp (runScheduleAnalysis inp)
        (identifyAllPredecessorTasks inp.tasks seed) (some seed) := by
    unfold calculateCPMToTask calculateCPM at hrun
    by_cases h1 : inp.tasks.isEmpty = true
    · rw [if_pos h1] at hrun; cases hrun
    · rw [if_neg h1] at hrun
      by_cases h2 : (detectAndReportCycles inp.tasks inp.relationships).hasCycles = true
      · rw [if_pos h2] at hrun; cases hrun
      · rw [if_neg h2] at hrun
        simp only [Option.some.injEq, Prod.mk.injEq] at hrun
        exact ⟨hrun.1.symm, hrun.2.symm⟩
  rcases hfull with ⟨hf, hs⟩
  subst hf
  subst hs
  have hseed := seed_mem_closure inp.tasks seed
  have hlate : ∀ id, (runScheduleAnalysis inp).lateStart id - startOf inp.tasks id =
      max 0 ((runScheduleAnalysis inp).totalFloat id) := by
    intro id
    have h1 : (runScheduleAnalysis inp).lateStart id =
        (finishOf inp.tasks id + max 0 ((runScheduleAnalysis inp).totalFloat id)) -
          (finishOf inp.tasks id - startOf inp.tasks id) := rfl
    rw [h1]; ring
  refine ⟨?_, ?_, ?_⟩
  · intro id hout
    have hne : ¬ id = seed := fun h => hout (h ▸ hseed)
    refine ⟨?_, ?_, ?_, ?_⟩ <;>
      simp [calculateFloatAndCriticalityForSubset, hout, hne]
  · intro id hin
    refine ⟨?_, ?_, fun hne => ⟨?_, ?_⟩⟩
    · simp [calculateFloatAndCriticalityForSubset, hin, hlate]
    · simp [calculateFloatAndCriticalityForSubset, hin, hlate]
    · simp [calculateFloatAndCriticalityForSubset, hin, hne]
    · simp [calculateFloatAndCriticalityForSubset, hin, hne, hlate]
  · intro hex
    constructor <;> simp [calculateFloatAndCriticalityForSubset, hseed, hex]

/-- Witness for the amended C8 at the scoped fixture: A is inside the
closure of C and B is, the unrelated id Z is outside, and the seed C is
forced critical. -/
theorem claim_C8_witness :
    calculateCPMToTask exScopedInput (some "C") =
      some (runScheduleAnalysis exScopedInput, some exScopedSub) ∧
      "Z" ∉ identifyAllPredecessorTasks exScopedInput.tasks "C" ∧
      (exScopedSub.isCritical "Z" = false ∧ exScopedSub.isNearCritical "Z" = false ∧
        exScopedSub.isCriticalByFloat "Z" = false ∧ exScopedSub.totalFloat "Z" = none) ∧
      (findTask exScopedInput.tasks "C").isSome = true ∧
      (exScopedSub.isCritical "C" = true ∧ exScopedSub.isNearCritical "C" = false) := by
  have hpipe : calculateCPMToTask exScopedInput (some "C") =
      some (runScheduleAnalysis exScopedInput, some exScopedSub) := by
    unfold calculateCPMToTask calculateCPM
    rw [if_neg (by with_unfolding_all decide), if_neg (by with_unfolding_all decide)]
    rfl
  have h := claim_C8_amended exScopedInput "C" (runScheduleAnalysis exScopedInput)
    exScopedSub hpipe
  exact ⟨hpipe, by with_unfolding_all decide,
    h.1 "Z" (by with_unfolding_all decide),
    by with_unfolding_all decide,
    h.2.2 (by with_unfolding_all decide)⟩

/-- Edge relation of the successor graph induced by a relationship
list. -/
def relEdge (rels : List SRel) (a b : String) : Prop :=
  ∃ r ∈ rels, r.predecessorId = a ∧ r.successorId = b

/-- A dependency cycle: a nonempty edge chain from some node back to
itself. -/
def hasCycleProp (rels : List SRel) : Prop :=
  ∃ (u : String) (l : List String), List.Chain (relEdge rels) u (l ++ [u])

/-- Incoming relationship records of a task id. -/
def inEdgesOf (rels : List SRel) (id : String) : List SRel :=
  rels.filter (fun r => r.successorId = id)

/-- Outgoing relationship records of a task id. -/
def outEdgesOf (rels : List SRel) (id : String) : List SRel :=
  rels.filter (fun r => r.predecessorId = id)

/-- Predecessor ids of a task id as derived from the relationship
list. -/
def predIdsOf (rels : List SRel) (id : String) : List String :=
  (inEdgesOf rels id).map (fun r => r.predecessorId)

/-- Implied earliest required start contributed by one relationship. -/
def impliedFwdOf (tasks : List STask) (r : SRel) : ℚ :=
  match findTask tasks r.predecessorId, findTask tasks r.successorId with
  | some pred, some succ => impliedReqStart pred succ
  | _, _ => 0

/-- Implied latest required finish contributed by one relationship. -/
def impliedBwdOf (tasks : List STask) (r : SRel) : ℚ :=
  match findTask tasks r.predecessorId, findTask tasks r.successorId with
  | some task, some succ => impliedReqFinish task succ
  | _, _ => 0

/-- Minimum of a list of rationals, `none` for the empty list. -/
def minOfList : List ℚ → Option ℚ
  | [] => none
  | x :: xs => some (xs.foldl min x)

/-- Well-formedness of an analysis input, as the indexer establishes it:
unique task ids, relationship endpoints naming existing distinct tasks,
at most one relationship per ordered pair, and each task's embedded
predecessor list agreeing with the relationship list. -/
structure WellFormedInput (inp : AnalysisInput) : Prop where
  nodupIds : (taskIds inp.tasks).Nodup
  relMem : ∀ r ∈ inp.relationships,
    r.predecessorId ∈ taskIds inp.tasks ∧ r.successorId ∈ taskIds inp.tasks ∧
      r.predecessorId ≠ r.successorId
  nodupPairs : (inp.relationships.map (fun r => (r.predecessorId, r.successorId))).Nodup
  predsMatch : ∀ t ∈ inp.tasks,
    t.predecessorIds.Perm (predIdsOf inp.relationships t.internalId)

/-- Two tasks of a duplicate-free list with the same id are equal. -/
theorem id_unique {tasks : List STask} (hnd : (taskIds tasks).Nodup)
    {u t : STask} (hu : u ∈ tasks) (ht : t ∈ tasks)
    (h : u.internalId = t.internalId) : u = t := by
  have h1 := findTask_eq_self hnd hu
  have h2 := findTask_eq_self hnd ht
  rw [h] at h1
  rw [h1] at h2
  exact Option.some.inj h2

/-- Membership in the successor adjacency characterizes edges: `b`
follows `a` iff some relationship goes from `a` to `b`. -/
theorem mem_succIds {rels : List SRel} {a b : String} :
    b ∈ succIds rels a ↔ relEdge rels a b := by
  unfold succIds relEdge
  constructor
  · intro h
    rcases List.mem_map.mp h with ⟨r, hr, hb⟩
    have := List.mem_filter.mp hr
    exact ⟨r, this.1, by simpa using this.2, hb⟩
  · rintro ⟨r, hr, ha, hb⟩
    exact List.mem_map.mpr ⟨r, List.mem_filter.mpr ⟨hr, by simpa using ha⟩, hb⟩

/-- Membership in the derived predecessor list characterizes edges. -/
theorem mem_predIdsOf {rels : List SRel} {a b : String} :
    a ∈ predIdsOf rels b ↔ relEdge rels a b := by
  unfold predIdsOf inEdgesOf relEdge
  constructor
  · intro h
    rcases List.mem_map.mp h with ⟨r, hr, ha⟩
    have := List.mem_filter.mp hr
    exact ⟨r, this.1, ha, by simpa using this.2⟩
  · rintro ⟨r, hr, ha, hb⟩
    exact List.mem_map.mpr ⟨r, List.mem_filter.mpr ⟨hr, by simpa using hb⟩, ha⟩

/-- Iterated-predecessor sequences yield backward edge chains. -/
theorem chain_of_seq {E : String → String → Prop} (seq : ℕ → String)
    (hstep : ∀ n, E (seq (n + 1)) (seq n)) :
    ∀ (d a : ℕ), 0 < d → ∃ l, List.Chain E (seq (a + d)) (l ++ [seq a]) := by
  intro d
  induction d with
  | zero => intro a ha; omega
  | succ d ihd =>
    intro a _
    by_cases hd0 : d = 0
    · subst hd0
      exact ⟨[], by simpa using hstep a⟩
    · obtain ⟨l, hl⟩ := ihd (a + 1) (Nat.pos_of_ne_zero hd0)
      refine ⟨l ++ [seq (a + 1)], ?_⟩
      have harith : a + 1 + d = a + (d + 1) := by omega
      rw [harith] at hl
      rw [List.append_assoc]
      rw [show [seq (a + 1)] ++ [seq a] = seq (a + 1) :: [seq a] from rfl]
      rw [List.chain_split]
      exact ⟨hl, by simpa using hstep a⟩

/-- Pigeonhole cycle construction: in a finite set where every member
has a predecessor inside the set, the edge relation has a cycle. -/
theorem cycle_of_all_have_pred {rels : List SRel} (S : List String) (hne : S ≠ [])
    (h : ∀ s ∈ S, ∃ p, p ∈ S ∧ relEdge rels p s) : hasCycleProp rels := by
  classical
  let f : String → String := fun s => if hs : s ∈ S then (h s hs).choose else s
  have hf : ∀ s ∈ S, f s ∈ S ∧ relEdge rels (f s) s := by
    intro s hs
    have hspec := (h s hs).choose_spec
    simp only [f, dif_pos hs]
    exact hspec
  obtain ⟨s0, hs0⟩ := List.exists_mem_of_ne_nil S hne
  let seq : ℕ → String := fun n => f^[n] s0
  have hmem : ∀ n, seq n ∈ S := by
    intro n
    induction n with
    | zero => simpa [seq] using hs0
    | succ n ihn =>
      have hit : seq (n + 1) = f (seq n) := by
        simp [seq, Function.iterate_succ_apply']
      rw [hit]
      exact (hf _ ihn).1
  have hstep : ∀ n, relEdge rels (seq (n + 1)) (seq n) := by
    intro n
    have hit : seq (n + 1) = f (seq n) := by
      simp [seq, Function.iterate_succ_apply']
    rw [hit]
    exact (hf _ (hmem n)).2
  have hpig : ∃ i ∈ Finset.range (S.length + 1), ∃ j ∈ Finset.range (S.length + 1),
      i ≠ j ∧ seq i = seq j := by
    apply Finset.exists_ne_map_eq_of_card_lt_of_maps_to
    · rw [Finset.card_range]
      exact Nat.lt_succ_of_le S.toFinset_card_le
    · intro i _
      exact List.mem_toFinset.mpr (hmem i)
  obtain ⟨i, _, j, _, hij, hseq⟩ := hpig
  rcases Nat.lt_or_ge i j with hlt | hge
  · obtain ⟨l, hl⟩ := chain_of_seq seq hstep (j - i) i (by omega)
    rw [show i + (j - i) = j by omega] at hl
    rw [show seq i = seq j from hseq] at hl
    exact ⟨seq j, l, hl⟩
  · have hlt : j < i := by omega
    obtain ⟨l, hl⟩ := chain_of_seq seq hstep (i - j) j (by omega)
    rw [show j + (i - j) = i by omega] at hl
    rw [show seq j = seq i from hseq.symm] at hl
    exact ⟨seq i, l, hl⟩

/-- Remaining in-degree after the tasks of `topo` have been processed:
the number of predecessors not yet emitted. -/
def kahnDegVal (rels : List SRel) (topo : List String) (id : String) : Int :=
  (((predIdsOf rels id).filter (fun p => !decide (p ∈ topo))).length : Int)

/-- Incoming edges whose predecessor has been processed. -/
def kahnErsDone (rels : List SRel) (topo : List String) (id : String) : List SRel :=
  (inEdgesOf rels id).filter (fun r => decide (r.predecessorId ∈ topo))

/-- Loop invariant of the Kahn forward pass: no id is duplicated between
the emitted order and the queue, both hold task ids only, the in-degree
map counts unprocessed predecessors, an id is emitted or queued exactly
when all its predecessors are emitted, and the running
`earliestReqStart` is the maximum of the actual start and the implied
values over the processed incoming edges. -/
structure KahnInv (inp : AnalysisInput) (st : FwdState) : Prop where
  nodup : (st.topo ++ st.queue).Nodup
  memIds : ∀ x ∈ st.topo ++ st.queue, x ∈ taskIds inp.tasks
  degEq : ∀ id ∈ taskIds inp.tasks, st.inDeg id = kahnDegVal inp.relationships st.topo id
  ready : ∀ id ∈ taskIds inp.tasks,
    (id ∈ st.topo ++ st.queue ↔ ∀ p ∈ predIdsOf inp.relationships id, p ∈ st.topo)
  ersEq : ∀ id, ∃ l : List SRel,
    l.Perm (kahnErsDone inp.relationships st.topo id)
    ∧ st.ers id = (l.map (impliedFwdOf inp.tasks)).foldl max (startOf inp.tasks id)

/-- The relationship list of a well-formed input is duplicate-free. -/
theorem rels_nodup {inp : AnalysisInput} (hWF : WellFormedInput inp) :
    inp.relationships.Nodup :=
  hWF.nodupPairs.of_map _

/-- The pair projection is injective on a well-formed relationship
list. -/
theorem rel_pair_inj {inp : AnalysisInput} (hWF : WellFormedInput inp) :
    ∀ r1 ∈ inp.relationships, ∀ r2 ∈ inp.relationships,
      r1.predecessorId = r2.predecessorId → r1.successorId = r2.successorId → r1 = r2 := by
  intro r1 h1 r2 h2 hp hs
  exact List.inj_on_of_nodup_map hWF.nodupPairs h1 h2 (by rw [Prod.mk.injEq]; exact ⟨hp, hs⟩)

/-- Derived predecessor lists of a well-formed input are
duplicate-free. -/
theorem predIdsOf_nodup {inp : AnalysisInput} (hWF : WellFormedInput inp) (id : String) :
    (predIdsOf inp.relationships id).Nodup := by
  unfold predIdsOf
  refine List.Nodup.map_on ?_ ((rels_nodup hWF).filter _)
  intro r1 h1 r2 h2 hp
  have m1 := List.mem_filter.mp h1
  have m2 := List.mem_filter.mp h2
  have e1 : r1.successorId = id := by simpa using m1.2
  have e2 : r2.successorId = id := by simpa using m2.2
  exact rel_pair_inj hWF r1 m1.1 r2 m2.1 hp (e1.trans e2.symm)

/-- Successor lists of a well-formed input are duplicate-free. -/
theorem succIds_nodup {inp : AnalysisInput} (hWF : WellFormedInput inp) (id : String) :
    (succIds inp.relationships id).Nodup := by
  unfold succIds
  refine List.Nodup.map_on ?_ ((rels_nodup hWF).filter _)
  intro r1 h1 r2 h2 hs
  have m1 := List.mem_filter.mp h1
  have m2 := List.mem_filter.mp h2
  have e1 : r1.predecessorId = id := by simpa using m1.2
  have e2 : r2.predecessorId = id := by simpa using m2.2
  exact rel_pair_inj hWF r1 m1.1 r2 m2.1 (e1.trans e2.symm) hs

/-- Flipping one filter bit of a unique element permutes the filtered
list by inserting that element. -/
theorem filter_perm_cons_of_flip {α : Type} {l : List α} {p pn : α → Bool} {x : α}
    (hx : x ∈ l) (hnd : l.Nodup) (hpx : p x = false) (hpnx : pn x = true)
    (hagree : ∀ y ∈ l, y ≠ x → pn y = p y) :
    (l.filter pn).Perm (x :: l.filter p) := by
  induction l with
  | nil => cases hx
  | cons a l ih =>
    rw [List.nodup_cons] at hnd
    by_cases hax : a = x
    · subst hax
      rw [List.filter_cons_of_pos hpnx, List.filter_cons_of_neg (by rw [hpx]; simp)]
      have hcong : l.filter pn = l.filter p :=
        List.filter_congr (fun y hy =>
          hagree y (List.mem_cons_of_mem a hy) (fun h => hnd.1 (h ▸ hy)))
      rw [hcong]
    · have hxl : x ∈ l := by
        rcases List.mem_cons.mp hx with h | h
        · exact absurd h.symm hax
        · exact h
      have hpa : pn a = p a := hagree a (List.mem_cons_self a l) hax
      have ihl := ih hxl hnd.2 (fun y hy hne => hagree y (List.mem_cons_of_mem a hy) hne)
      cases hpab : p a
      · rw [List.filter_cons_of_neg (by rw [hpa, hpab]; simp),
          List.filter_cons_of_neg (by rw [hpab]; simp)]
        exact ihl
      · rw [List.filter_cons_of_pos (by rw [hpa, hpab]),
          List.filter_cons_of_pos (by rw [hpab])]
        exact ((ihl.cons a).trans (List.Perm.swap x a _))

/-- Appending one unprocessed id to the emitted order decrements the
unprocessed-predecessor count exactly when that id is a predecessor. -/
theorem filter_not_mem_append_len {l topo : List String} {u : String}
    (hnd : l.Nodup) (hu : u ∉ topo) :
    ((l.filter (fun p => !decide (p ∈ topo ++ [u]))).length : Int) =
      ((l.filter (fun p => !decide (p ∈ topo))).length : Int) - (if u ∈ l then 1 else 0) := by
  induction l with
  | nil => simp
  | cons a l ih =>
    rw [List.nodup_cons] at hnd
    by_cases hau : a = u
    · subst hau
      rw [List.filter_cons_of_neg (by simp), List.filter_cons_of_pos (by simpa using hu)]
      have hcong : l.filter (fun p => !decide (p ∈ topo ++ [a])) =
          l.filter (fun p => !decide (p ∈ topo)) := by
        refine List.filter_congr ?_
        intro y hy
        have hya : ¬ y = a := fun h => hnd.1 (by rw [← h]; exact hy)
        simp [List.mem_append, hya]
      rw [hcong]
      simp [List.mem_cons]
    · have hstep := ih hnd.2
      by_cases hmem : a ∈ topo
      · rw [List.filter_cons_of_neg (by simp [hmem]),
          List.filter_cons_of_neg (by simp [hmem])]
        rw [hstep]
        have hua : ¬ u = a := fun h => hau h.symm
        simp [List.mem_cons, hua]
      · rw [List.filter_cons_of_pos (by simp [List.mem_append, hmem, hau]),
          List.filter_cons_of_pos (by simp [hmem])]
        rw [List.length_cons, List.length_cons]
        push_cast
        rw [hstep]
        have hua : ¬ u = a := fun h => hau h.symm
        by_cases hul : u ∈ l <;> simp [List.mem_cons, hua, hul] <;> ring

/-- Appending one unprocessed id to the emitted order decrements the
unprocessed-predecessor count exactly when that id is a predecessor. -/
theorem kahnDegVal_append {rels : List SRel} {topo : List String} {u : String} {id : String}
    (hnd : (predIdsOf rels id).Nodup) (hu : u ∉ topo) :
    kahnDegVal rels (topo ++ [u]) id =
      kahnDegVal rels topo id - (if u ∈ predIdsOf rels id then 1 else 0) := by
  unfold kahnDegVal
  exact filter_not_mem_append_len hnd hu

/-- The initial forward state satisfies the Kahn invariant. -/
theorem kahnInv_init {inp : AnalysisInput} (hWF : WellFormedInput inp) :
    KahnInv inp
      ⟨initQueue inp.tasks, [], initDeg inp.tasks, fun id => startOf inp.tasks id⟩ := by
  have hsub : List.Sublist (initQueue inp.tasks) (taskIds inp.tasks) := by
    unfold initQueue taskIds
    exact (List.filter_sublist inp.tasks).map (fun t => t.internalId)
  refine ⟨?_, ?_, ?_, ?_, ?_⟩
  · simpa using hWF.nodupIds.sublist hsub
  · intro x hx
    simp only [List.nil_append] at hx
    exact hsub.subset hx
  · intro id hid
    rcases List.mem_map.mp hid with ⟨t, ht, rfl⟩
    show initDeg inp.tasks t.internalId = _
    unfold initDeg kahnDegVal
    rw [findTask_eq_self hWF.nodupIds ht]
    have hfil : (predIdsOf inp.relationships t.internalId).filter
        (fun p => !decide (p ∈ ([] : List String))) =
        predIdsOf inp.relationships t.internalId := by simp
    show (t.predecessorIds.length : Int) = _
    rw [hfil, (hWF.predsMatch t ht).length_eq]
  · intro id hid
    rcases List.mem_map.mp hid with ⟨t, ht, rfl⟩
    simp only [List.nil_append]
    constructor
    · intro hq p hp
      exfalso
      rcases List.mem_map.mp hq with ⟨u, hu, huid⟩
      have humem := List.mem_filter.mp hu
      have hut : u = t := id_unique hWF.nodupIds humem.1 ht huid
      subst hut
      have hempty : u.predecessorIds = [] := by simpa using humem.2
      have hperm := hWF.predsMatch u humem.1
      rw [hempty] at hperm
      rw [hperm.symm.eq_nil] at hp
      cases hp
    · intro hall
      have hempty : predIdsOf inp.relationships t.internalId = [] :=
        List.eq_nil_iff_forall_not_mem.mpr
          (fun p hp => absurd (hall p hp) (List.not_mem_nil p))
      have hperm := hWF.predsMatch t ht
      rw [hempty] at hperm
      refine List.mem_map.mpr ⟨t, List.mem_filter.mpr ⟨ht, ?_⟩, rfl⟩
      simp [hperm.eq_nil]
  · intro id
    refine ⟨[], ?_, rfl⟩
    unfold kahnErsDone
    simp

/-- Two distinct members force a list length of at least two. -/
theorem two_mem_le_length {α : Type} {l : List α} {a b : α} (ha : a ∈ l) (hb : b ∈ l)
    (hab : a ≠ b) : 2 ≤ l.length := by
  induction l with
  | nil => cases ha
  | cons x l ih =>
    rcases List.mem_cons.mp ha with rfl | ha2
    · rcases List.mem_cons.mp hb with hbx | hb2
      · exact absurd hbx.symm hab
      · have := List.length_pos_of_mem hb2
        simp only [List.length_cons]
        omega
    · have := List.length_pos_of_mem ha2
      simp only [List.length_cons]
      omega

/-- A duplicate-free list whose members all equal one present value is a
singleton. -/
theorem nodup_all_eq_len_one {α : Type} {l : List α} {u : α} (hnd : l.Nodup)
    (hall : ∀ x ∈ l, x = u) (hu : u ∈ l) : l.length = 1 := by
  cases l with
  | nil => cases hu
  | cons x xs =>
    rw [List.nodup_cons] at hnd
    have hx : x = u := hall x (List.mem_cons_self x xs)
    have hxs : xs = [] := by
      refine List.eq_nil_iff_forall_not_mem.mpr ?_
      intro y hy
      have hyu : y = u := hall y (List.mem_cons_of_mem x hy)
      exact hnd.1 (hx ▸ hyu ▸ hy)
    simp [hxs]

/-- With `u` an unprocessed predecessor of `w`, the unprocessed count is
one exactly when every predecessor of `w` is processed or is `u`. -/
theorem kahnDegVal_eq_one_iff {inp : AnalysisInput} (hWF : WellFormedInput inp)
    {topo0 : List String} {u w : String} (hedge : u ∈ predIdsOf inp.relationships w)
    (hut : u ∉ topo0) :
    kahnDegVal inp.relationships topo0 w = 1 ↔
      ∀ p ∈ predIdsOf inp.relationships w, p ∈ topo0 ++ [u] := by
  unfold kahnDegVal
  have hndf := (predIdsOf_nodup hWF w).filter (fun p => !decide (p ∈ topo0))
  constructor
  · intro h1 p hp
    by_cases hpt : p ∈ topo0
    · simp [List.mem_append, hpt]
    · by_cases hpu : p = u
      · simp [List.mem_append, hpu]
      · exfalso
        have hpf : p ∈ (predIdsOf inp.relationships w).filter
            (fun p => !decide (p ∈ topo0)) :=
          List.mem_filter.mpr ⟨hp, by simp [hpt]⟩
        have huf : u ∈ (predIdsOf inp.relationships w).filter
            (fun p => !decide (p ∈ topo0)) :=
          List.mem_filter.mpr ⟨hedge, by simp [hut]⟩
        have h2 := two_mem_le_length hpf huf hpu
        omega
  · intro hall
    have hlen : ((predIdsOf inp.relationships w).filter
        (fun p => !decide (p ∈ topo0))).length = 1 := by
      refine @nodup_all_eq_len_one String _ u hndf ?_ ?_
      · intro x hx
        have hm := List.mem_filter.mp hx
        have hx2 : x ∉ topo0 := by simpa using hm.2
        rcases List.mem_append.mp (hall x hm.1) with h | h
        · exact absurd h hx2
        · simpa using h
      · exact List.mem_filter.mpr ⟨hedge, by simp [hut]⟩
    rw [hlen]
    rfl

/-- Appending a fresh element preserves duplicate-freedom. -/
theorem nodup_append_singleton {α : Type} {l : List α} {x : α} (hnd : l.Nodup)
    (hx : x ∉ l) : (l ++ [x]).Nodup := by
  rw [List.nodup_append]
  exact ⟨hnd, List.nodup_singleton x, fun a ha hax => hx ((List.mem_singleton.mp hax) ▸ ha)⟩

/-- Edge-processed condition during the inner loop: an incoming edge of
`id` counts once its predecessor is emitted, where the currently
processed task `u` counts only for the successor ids already handled. -/
def kahnMidCond (topo0 : List String) (u : String) (P : List String) (id : String) :
    SRel → Bool :=
  fun r => decide (r.predecessorId ∈ topo0) || (decide (r.predecessorId = u) && decide (id ∈ P))

/-- Invariant transfer across the successor loop of one dequeued task
`u`: processing the remaining successor list `ws` after the prefix `P`
preserves the mid-loop invariants and extends the processed set. -/
theorem kahn_inner_loop {inp : AnalysisInput} (hWF : WellFormedInput inp)
    {topo0 : List String} {u : String} (hut : u ∉ topo0)
    {predTask : STask} (hpt : findTask inp.tasks u = some predTask) :
    ∀ (ws P : List String) (st : FwdState),
      succIds inp.relationships u = P ++ ws →
      st.topo = topo0 ++ [u] →
      (st.topo ++ st.queue).Nodup →
      (∀ x ∈ st.topo ++ st.queue, x ∈ taskIds inp.tasks) →
      (∀ id ∈ taskIds inp.tasks, st.inDeg id =
        kahnDegVal inp.relationships topo0 id - (if id ∈ P then 1 else 0)) →
      (∀ id ∈ taskIds inp.tasks, (id ∈ st.topo ++ st.queue ↔
        ((∀ p ∈ predIdsOf inp.relationships id, p ∈ topo0) ∨
          (id ∈ P ∧ ∀ p ∈ predIdsOf inp.relationships id, p ∈ topo0 ++ [u])))) →
      (∀ id, ∃ l : List SRel,
        l.Perm ((inEdgesOf inp.relationships id).filter (kahnMidCond topo0 u P id))
        ∧ st.ers id = (l.map (impliedFwdOf inp.tasks)).foldl max (startOf inp.tasks id)) →
      ((ws.foldl (processEdge inp.tasks predTask) st).topo = topo0 ++ [u]
      ∧ ((ws.foldl (processEdge inp.tasks predTask) st).topo ++
          (ws.foldl (processEdge inp.tasks predTask) st).queue).Nodup
      ∧ (∀ x ∈ (ws.foldl (processEdge inp.tasks predTask) st).topo ++
          (ws.foldl (processEdge inp.tasks predTask) st).queue, x ∈ taskIds inp.tasks)
      ∧ (∀ id ∈ taskIds inp.tasks, (ws.foldl (processEdge inp.tasks predTask) st).inDeg id =
          kahnDegVal inp.relationships topo0 id - (if id ∈ P ++ ws then 1 else 0))
      ∧ (∀ id ∈ taskIds inp.tasks,
          (id ∈ (ws.foldl (processEdge inp.tasks predTask) st).topo ++
              (ws.foldl (processEdge inp.tasks predTask) st).queue ↔
            ((∀ p ∈ predIdsOf inp.relationships id, p ∈ topo0) ∨
              (id ∈ P ++ ws ∧ ∀ p ∈ predIdsOf inp.relationships id, p ∈ topo0 ++ [u]))))
      ∧ (∀ id, ∃ l : List SRel,
          l.Perm ((inEdgesOf inp.relationships id).filter
            (kahnMidCond topo0 u (P ++ ws) id))
          ∧ (ws.foldl (processEdge inp.tasks predTask) st).ers id =
            (l.map (impliedFwdOf inp.tasks)).foldl max (startOf inp.tasks id))) := by
  intro ws
  induction ws with
  | nil =>
    intro P st hsplit htopo hnd hmem hdeg hready hers
    refine ⟨htopo, hnd, hmem, by simpa using hdeg, by simpa using hready, by simpa using hers⟩
  | cons w ws ih =>
    intro P st hsplit htopo hnd hmem hdeg hready hers
    rw [List.foldl_cons]
    have hwmem : w ∈ succIds inp.relationships u := by
      rw [hsplit]
      exact List.mem_append_right P (List.mem_cons_self w ws)
    obtain ⟨re, hre, hrpred, hrsucc⟩ := mem_succIds.mp hwmem
    have hupred : u ∈ predIdsOf inp.relationships w :=
      mem_predIdsOf.mpr ⟨re, hre, hrpred, hrsucc⟩
    have hwids : w ∈ taskIds inp.tasks := by
      have := (hWF.relMem re hre).2.1
      rwa [hrsucc] at this
    obtain ⟨succTask, hsuccmem, hsuccid⟩ := List.mem_map.mp hwids
    have hft : findTask inp.tasks w = some succTask := by
      rw [← hsuccid]
      exact findTask_eq_self hWF.nodupIds hsuccmem
    have hsnd := succIds_nodup hWF u
    rw [hsplit, List.nodup_append] at hsnd
    have hwnP : w ∉ P := fun h => hsnd.2.2 h (List.mem_cons_self w ws)
    have hwnws : w ∉ ws := ((List.nodup_cons.mp hsnd.2.1).1)
    -- field equations of the one-step state
    have hq1 : (processEdge inp.tasks predTask st w).queue =
        (if st.inDeg w - 1 = 0 then st.queue ++ [w] else st.queue) := by
      unfold processEdge
      rw [hft]
    have ht1 : (processEdge inp.tasks predTask st w).topo = st.topo := by
      unfold processEdge
      rw [hft]
    have hd1 : (processEdge inp.tasks predTask st w).inDeg =
        (fun id => if id = w then st.inDeg w - 1 else st.inDeg id) := by
      unfold processEdge
      rw [hft]
    have he1 : (processEdge inp.tasks predTask st w).ers =
        (fun id => if id = w then
          max (st.ers w) (impliedReqStart predTask succTask) else st.ers id) := by
      unfold processEdge
      rw [hft]
    have hdegw : st.inDeg w = kahnDegVal inp.relationships topo0 w := by
      rw [hdeg w hwids, if_neg hwnP]
      ring
    have hndzero : (st.inDeg w - 1 = 0) ↔
        (∀ p ∈ predIdsOf inp.relationships w, p ∈ topo0 ++ [u]) := by
      rw [hdegw, ← kahnDegVal_eq_one_iff hWF hupred hut]
      omega
    have hwfresh : w ∉ st.topo ++ st.queue := by
      intro hcontra
      rcases (hready w hwids).mp hcontra with hc1 | hc2
      · exact hut (hc1 u hupred)
      · exact hwnP hc2.1
    -- rewrite target processed set
    have hPw : P ++ w :: ws = (P ++ [w]) ++ ws := by simp
    rw [hPw]
    rw [hPw, List.append_assoc] at hsplit
    refine ih (P ++ [w]) (processEdge inp.tasks predTask st w) (by simpa using hsplit)
      (by rw [ht1, htopo]) ?_ ?_ ?_ ?_ ?_
    -- nodup
    · rw [ht1, hq1]
      by_cases hz : st.inDeg w - 1 = 0
      · rw [if_pos hz, ← List.append_assoc]
        exact nodup_append_singleton hnd hwfresh
      · rw [if_neg hz]
        exact hnd
    -- membership
    · rw [ht1, hq1]
      by_cases hz : st.inDeg w - 1 = 0
      · rw [if_pos hz]
        intro x hx
        rcases List.mem_append.mp hx with hx1 | hx2
        · exact hmem x (List.mem_append_left _ hx1)
        · rcases List.mem_append.mp hx2 with hx3 | hx4
          · exact hmem x (List.mem_append_right _ hx3)
          · rw [List.mem_singleton.mp hx4]
            exact hwids
      · rw [if_neg hz]
        exact hmem
    -- in-degrees
    · simp only [hd1]
      intro id hid
      by_cases hidw : id = w
      · rw [if_pos hidw, hidw, hdegw,
          if_pos (List.mem_append_right P (List.mem_singleton.mpr rfl))]
      · rw [if_neg hidw, hdeg id hid]
        have hiff : (id ∈ P ++ [w]) ↔ (id ∈ P) := by simp [hidw]
        rw [if_congr hiff rfl rfl]
    -- readiness
    · rw [ht1, hq1]
      intro id hid
      by_cases hidw : id = w
      · rw [hidw]
        by_cases hz : st.inDeg w - 1 = 0
        · rw [if_pos hz]
          constructor
          · intro _
            exact Or.inr ⟨List.mem_append_right P (List.mem_singleton.mpr rfl),
              hndzero.mp hz⟩
          · intro _
            exact List.mem_append_right _ (List.mem_append_right _ (List.mem_singleton.mpr rfl))
        · rw [if_neg hz]
          constructor
          · intro hcontra
            exact absurd hcontra hwfresh
          · intro hrhs
            rcases hrhs with hc1 | hc2
            · exact absurd (hc1 u hupred) hut
            · exact absurd (hndzero.mpr hc2.2) hz
      · have hmemiff : (id ∈ st.topo ++
            (if st.inDeg w - 1 = 0 then st.queue ++ [w] else st.queue)) ↔
            (id ∈ st.topo ++ st.queue) := by
          by_cases hz : st.inDeg w - 1 = 0
          · rw [if_pos hz]
            simp [List.mem_append, hidw]
          · rw [if_neg hz]
        rw [hmemiff, hready id hid]
        have : (id ∈ P ++ [w]) ↔ (id ∈ P) := by simp [hidw]
        rw [this]
    -- running earliest required start
    · simp only [he1]
      intro id
      by_cases hidw : id = w
      · rw [hidw, if_pos rfl]
        obtain ⟨l, hlperm, hlers⟩ := hers w
        refine ⟨l ++ [re], ?_, ?_⟩
        · have hflip : ((inEdgesOf inp.relationships w).filter
              (kahnMidCond topo0 u (P ++ [w]) w)).Perm
              (re :: (inEdgesOf inp.relationships w).filter (kahnMidCond topo0 u P w)) := by
            refine filter_perm_cons_of_flip ?_ ?_ ?_ ?_ ?_
            · exact List.mem_filter.mpr ⟨hre, by simp [hrsucc]⟩
            · exact (rels_nodup hWF).filter _
            · unfold kahnMidCond
              rw [hrpred]
              simp [hut, hwnP]
            · unfold kahnMidCond
              rw [hrpred]
              simp [hut]
            · intro y hy hyne
              have hymem := List.mem_filter.mp hy
              have hysucc : y.successorId = w := by simpa using hymem.2
              have hypred : ¬ y.predecessorId = u := by
                intro hyu
                exact hyne (rel_pair_inj hWF y hymem.1 re hre (hyu.trans hrpred.symm)
                  (hysucc.trans hrsucc.symm))
              unfold kahnMidCond
              simp [hypred]
          refine List.Perm.trans ?_ hflip.symm
          exact (List.perm_append_singleton re l).trans (hlperm.cons re)
        · rw [hlers, List.map_append, List.foldl_append]
          have : impliedFwdOf inp.tasks re = impliedReqStart predTask succTask := by
            unfold impliedFwdOf
            rw [hrpred, hrsucc, hpt, hft]
          simp [this]
      · obtain ⟨l, hlperm, hlers⟩ := hers id
        refine ⟨l, ?_, by rw [if_neg hidw]; exact hlers⟩
        
        have hcong : (inEdgesOf inp.relationships id).filter
            (kahnMidCond topo0 u (P ++ [w]) id) =
            (inEdgesOf inp.relationships id).filter (kahnMidCond topo0 u P id) := by
          refine List.filter_congr ?_
          intro y _
          unfold kahnMidCond
          have : (id ∈ P ++ [w]) ↔ (id ∈ P) := by simp [hidw]
          simp [this]
        rw [hcong]
        exact hlperm

/-- Dequeuing the head of the queue and processing its successor list
preserves the Kahn invariant and emits exactly that task. -/
theorem kahnInv_step {inp : AnalysisInput} (hWF : WellFormedInput inp)
    {st : FwdState} (hInv : KahnInv inp st) {u : String} {rest : List String}
    (hq : st.queue = u :: rest) :
    KahnInv inp (processTask inp.tasks inp.relationships
      { st with queue := rest, topo := st.topo ++ [u] } u)
    ∧ (processTask inp.tasks inp.relationships
      { st with queue := rest, topo := st.topo ++ [u] } u).topo = st.topo ++ [u] := by
  have humem : u ∈ st.topo ++ st.queue := by
    rw [hq]
    exact List.mem_append_right _ (List.mem_cons_self u rest)
  have huids := hInv.memIds u humem
  obtain ⟨predTask, hpmem, hpid⟩ := List.mem_map.mp huids
  have hpt : findTask inp.tasks u = some predTask := by
    rw [← hpid]
    exact findTask_eq_self hWF.nodupIds hpmem
  have hndq := hInv.nodup
  rw [hq, List.nodup_append] at hndq
  have hunotopo : u ∉ st.topo := fun h => hndq.2.2 h (List.mem_cons_self u rest)
  have hfold_eq : processTask inp.tasks inp.relationships
      { st with queue := rest, topo := st.topo ++ [u] } u =
      (succIds inp.relationships u).foldl (processEdge inp.tasks predTask)
        { st with queue := rest, topo := st.topo ++ [u] } := by
    unfold processTask
    rw [hpt]
  have hresh : st.topo ++ [u] ++ rest = st.topo ++ (u :: rest) := by simp
  obtain ⟨htopo', hnd', hmem', hdeg', hready', hers'⟩ :=
    kahn_inner_loop hWF hunotopo hpt (succIds inp.relationships u) []
      { st with queue := rest, topo := st.topo ++ [u] }
      (by simp) rfl
      (by
        show (st.topo ++ [u] ++ rest).Nodup
        rw [hresh, ← hq]
        exact hInv.nodup)
      (by
        show ∀ x ∈ st.topo ++ [u] ++ rest, x ∈ taskIds inp.tasks
        rw [hresh, ← hq]
        exact hInv.memIds)
      (by
        intro id hid
        show st.inDeg id = _
        rw [hInv.degEq id hid]
        simp)
      (by
        intro id hid
        show (id ∈ st.topo ++ [u] ++ rest ↔ _)
        rw [hresh, ← hq, hInv.ready id hid]
        simp)
      (by
        intro id
        obtain ⟨l, hlperm, hlers⟩ := hInv.ersEq id
        refine ⟨l, ?_, hlers⟩
        have hcong : (inEdgesOf inp.relationships id).filter (kahnMidCond st.topo u [] id) =
            kahnErsDone inp.relationships st.topo id := by
          unfold kahnMidCond kahnErsDone
          refine List.filter_congr ?_
          intro y _
          simp
        rw [hcong]
        exact hlperm)
  rw [hfold_eq]
  set stf := (succIds inp.relationships u).foldl (processEdge inp.tasks predTask)
    { st with queue := rest, topo := st.topo ++ [u] } with hstf
  refine ⟨⟨?_, ?_, ?_, ?_, ?_⟩, htopo'⟩
  · exact hnd'
  · exact hmem'
  · intro id hid
    rw [hdeg' id hid, htopo']
    have hiff : (id ∈ [] ++ succIds inp.relationships u) ↔
        (u ∈ predIdsOf inp.relationships id) := by
      simp only [List.nil_append]
      rw [mem_succIds, mem_predIdsOf]
    rw [kahnDegVal_append (predIdsOf_nodup hWF id) hunotopo, if_congr hiff rfl rfl]
  · intro id hid
    rw [htopo'] at hready' ⊢
    rw [hready' id hid]
    simp only [List.nil_append]
    constructor
    · rintro (hc1 | hc2)
      · intro p hp
        exact List.mem_append_left _ (hc1 p hp)
      · exact hc2.2
    · intro hall
      by_cases hup : u ∈ predIdsOf inp.relationships id
      · exact Or.inr ⟨mem_succIds.mpr (mem_predIdsOf.mp hup), hall⟩
      · refine Or.inl ?_
        intro p hp
        rcases List.mem_append.mp (hall p hp) with h | h
        · exact h
        · exact absurd ((List.mem_singleton.mp h) ▸ hp) hup
  · intro id
    obtain ⟨l, hlperm, hlers⟩ := hers' id
    refine ⟨l, ?_, hlers⟩
    rw [htopo']
    have hcong : (inEdgesOf inp.relationships id).filter
        (kahnMidCond st.topo u ([] ++ succIds inp.relationships u) id) =
        kahnErsDone inp.relationships (st.topo ++ [u]) id := by
      unfold kahnMidCond kahnErsDone
      refine List.filter_congr ?_
      intro y hy
      have hymem := List.mem_filter.mp hy
      have hysucc : y.successorId = id := by simpa using hymem.2
      by_cases hyu : y.predecessorId = u
      · have hidin : id ∈ succIds inp.relationships u :=
          mem_succIds.mpr ⟨y, hymem.1, hyu, hysucc⟩
        simp [hyu, hidin, List.mem_append]
      · simp [hyu, List.mem_append]
    rw [← hcong]
    exact hlperm

/-- A duplicate-free sublist of the id list that is long enough is
onto. -/
theorem subset_full {l ids : List String} (hnd : l.Nodup) (hsub : ∀ x ∈ l, x ∈ ids)
    (hlen : ids.length ≤ l.length) : ∀ x ∈ ids, x ∈ l := by
  intro x hx
  have hfin : l.toFinset ⊆ ids.toFinset := fun a ha =>
    List.mem_toFinset.mpr (hsub a (List.mem_toFinset.mp ha))
  have hcard : ids.toFinset.card ≤ l.toFinset.card := by
    rw [List.toFinset_card_of_nodup hnd]
    exact le_trans ids.toFinset_card_le hlen
  have heq := Finset.eq_of_subset_of_card_le hfin hcard
  exact List.mem_toFinset.mp (heq ▸ List.mem_toFinset.mpr hx)

/-- The Kahn loop preserves the invariant and, with enough fuel, drains
the queue. -/
theorem kahnLoop_inv {inp : AnalysisInput} (hWF : WellFormedInput inp) :
    ∀ (fuel : ℕ) (st : FwdState), KahnInv inp st →
      (taskIds inp.tasks).length ≤ fuel + st.topo.length →
      KahnInv inp (kahnLoop inp.tasks inp.relationships fuel st)
      ∧ (kahnLoop inp.tasks inp.relationships fuel st).queue = [] := by
  intro fuel
  induction fuel with
  | zero =>
    intro st hInv hlen
    refine ⟨hInv, ?_⟩
    cases hq : st.queue with
    | nil => exact hq
    | cons u rest =>
      exfalso
      have hndt : st.topo.Nodup := (List.nodup_append.mp hInv.nodup).1
      have hsubt : ∀ x ∈ st.topo, x ∈ taskIds inp.tasks := fun x hx =>
        hInv.memIds x (List.mem_append_left _ hx)
      have hcover := subset_full hndt hsubt (by omega)
      have humem : u ∈ st.topo ++ st.queue := by
        rw [hq]
        exact List.mem_append_right _ (List.mem_cons_self u rest)
      have huids := hInv.memIds u humem
      have hut := hcover u huids
      have hdn := hInv.nodup
      rw [hq, List.nodup_append] at hdn
      exact hdn.2.2 hut (List.mem_cons_self u rest)
  | succ n ih =>
    intro st hInv hlen
    cases hq : st.queue with
    | nil =>
      have hstay : kahnLoop inp.tasks inp.relationships (n + 1) st = st := by
        unfold kahnLoop
        rw [hq]
      rw [hstay]
      exact ⟨hInv, hq⟩
    | cons u rest =>
      have hunf : kahnLoop inp.tasks inp.relationships (n + 1) st =
          kahnLoop inp.tasks inp.relationships n
            (processTask inp.tasks inp.relationships
              { st with queue := rest, topo := st.topo ++ [u] } u) := by
        simp only [kahnLoop, hq]
      obtain ⟨hInv', htopo'⟩ := kahnInv_step hWF hInv hq
      rw [hunf]
      refine ih _ hInv' ?_
      rw [htopo', List.length_append]
      simp only [List.length_singleton]
      omega

/-- The completed forward pass satisfies the invariant with an empty
queue. -/
theorem forwardPass_inv {inp : AnalysisInput} (hWF : WellFormedInput inp) :
    KahnInv inp (forwardPass inp.tasks inp.relationships)
    ∧ (forwardPass inp.tasks inp.relationships).queue = [] := by
  unfold forwardPass
  refine kahnLoop_inv hWF _ _ (kahnInv_init hWF) ?_
  simp [taskIds]

/-- On an acyclic well-formed input, every task is topologically
emitted. -/
theorem kahn_complete {inp : AnalysisInput} (hWF : WellFormedInput inp)
    (hacyc : ¬ hasCycleProp inp.relationships) :
    ∀ id ∈ taskIds inp.tasks, id ∈ (forwardPass inp.tasks inp.relationships).topo := by
  obtain ⟨hInv, hqe⟩ := forwardPass_inv hWF
  by_contra hcon
  push_neg at hcon
  obtain ⟨id0, hid0, hid0n⟩ := hcon
  apply hacyc
  refine cycle_of_all_have_pred
    ((taskIds inp.tasks).filter
      (fun x => !decide (x ∈ (forwardPass inp.tasks inp.relationships).topo))) ?_ ?_
  · intro hnil
    have hmem0 : id0 ∈ (taskIds inp.tasks).filter
        (fun x => !decide (x ∈ (forwardPass inp.tasks inp.relationships).topo)) :=
      List.mem_filter.mpr ⟨hid0, by simp [hid0n]⟩
    rw [hnil] at hmem0
    cases hmem0
  · intro s hs
    have hsm := List.mem_filter.mp hs
    have hsnt : s ∉ (forwardPass inp.tasks inp.relationships).topo := by simpa using hsm.2
    have hready := hInv.ready s hsm.1
    rw [hqe] at hready
    have hnall : ¬ (∀ p ∈ predIdsOf inp.relationships s,
        p ∈ (forwardPass inp.tasks inp.relationships).topo) := by
      intro hall
      exact hsnt (by simpa using hready.mpr hall)
    push_neg at hnall
    obtain ⟨p, hp, hpn⟩ := hnall
    obtain ⟨r, hr, hrp, hrs⟩ := mem_predIdsOf.mp hp
    have hpids : p ∈ taskIds inp.tasks := by
      have := (hWF.relMem r hr).1
      rwa [hrp] at this
    exact ⟨p, List.mem_filter.mpr ⟨hpids, by simp [hpn]⟩, mem_predIdsOf.mp hp⟩

/-- Final characterization of the forward pass on acyclic well-formed
inputs: the earliest required start is the maximum of the actual start
and all implied values over incoming edges. -/
theorem forward_ers_char {inp : AnalysisInput} (hWF : WellFormedInput inp)
    (hacyc : ¬ hasCycleProp inp.relationships) (id : String) :
    (forwardPass inp.tasks inp.relationships).ers id =
      ((inEdgesOf inp.relationships id).map (impliedFwdOf inp.tasks)).foldl max
        (startOf inp.tasks id) := by
  obtain ⟨hInv, hqe⟩ := forwardPass_inv hWF
  obtain ⟨l, hlperm, hlers⟩ := hInv.ersEq id
  have hfull : kahnErsDone inp.relationships
      (forwardPass inp.tasks inp.relationships).topo id =
      inEdgesOf inp.relationships id := by
    unfold kahnErsDone
    rw [List.filter_eq_self]
    intro r hr
    have hrrel : r ∈ inp.relationships := (List.mem_filter.mp hr).1
    have hpids : r.predecessorId ∈ taskIds inp.tasks := (hWF.relMem r hrrel).1
    simp [kahn_complete hWF hacyc _ hpids]
  rw [hfull] at hlperm
  rw [hlers]
  exact (hlperm.map (impliedFwdOf inp.tasks)).foldl_eq'
    (fun x _ y _ z => by rw [max_assoc, max_assoc, max_comm x y])
    (startOf inp.tasks id)

/-- Acyclicity certificate: a rank function strictly increasing along
every relationship rules out cycles. -/
theorem no_cycle_of_rank {rels : List SRel} (rank : String → ℕ)
    (hr : ∀ r ∈ rels, rank r.predecessorId < rank r.successorId) :
    ¬ hasCycleProp rels := by
  rintro ⟨u, l, hchain⟩
  have hmono : ∀ (m : List String) (a : String), List.Chain (relEdge rels) a m →
      ∀ x ∈ m, rank a < rank x := by
    intro m
    induction m with
    | nil => intro a _ x hx; cases hx
    | cons b m ihm =>
      intro a hch x hx
      rw [List.chain_cons] at hch
      obtain ⟨r, hrm, hrp, hrs⟩ := hch.1
      have hab : rank a < rank b := by
        have := hr r hrm
        rwa [hrp, hrs] at this
      cases hx with
      | head => exact hab
      | tail _ hx =>
        have := ihm b hch.2 x hx
        omega
  have hmem : u ∈ l ++ [u] := List.mem_append_right _ (List.mem_singleton.mpr rfl)
  have := hmono (l ++ [u]) u hchain u hmem
  omega

/-- A member of the id list is found by `findTask`. -/
theorem findTask_isSome_of_mem {tasks : List STask} (hnd : (taskIds tasks).Nodup)
    {id : String} (hid : id ∈ taskIds tasks) : (findTask tasks id).isSome := by
  obtain ⟨u, hu, hui⟩ := List.mem_map.mp hid
  rw [← hui, findTask_eq_self hnd hu]
  rfl

/-- C2: on every acyclic well-formed input, the forward pass of the
full-project analysis yields, for each task, the fold of `max` over the
implied values of all incoming relationships, started from the task's
actual start (so every task with no predecessor keeps its actual start,
and the binding constraint among all predecessors wins); the implied
value follows the relationship type: FS gives `predFinish + lag`, SS
`predStart + lag`, FF `predFinish - succDuration + lag`, SF
`predStart - succDuration + lag`, and any unrecognized type falls back
to the FS formula. -/
theorem claim_C2_forward_pass (inp : AnalysisInput)
    (hWF : WellFormedInput inp) (hacyc : ¬ hasCycleProp inp.relationships) :
    (∀ t ∈ inp.tasks,
      (runScheduleAnalysis inp).earliestReqStart t.internalId =
        ((inEdgesOf inp.relationships t.internalId).map
          (impliedFwdOf inp.tasks)).foldl max t.start)
    ∧ (∀ pred succ : STask,
        (relTypeOf succ pred.internalId = "FS" →
          impliedReqStart pred succ = pred.finish + relLagOf succ pred.internalId)
        ∧ (relTypeOf succ pred.internalId = "SS" →
          impliedReqStart pred succ = pred.start + relLagOf succ pred.internalId)
        ∧ (relTypeOf succ pred.internalId = "FF" →
          impliedReqStart pred succ =
            pred.finish - durationOf succ + relLagOf succ pred.internalId)
        ∧ (relTypeOf succ pred.internalId = "SF" →
          impliedReqStart pred succ =
            pred.start - durationOf succ + relLagOf succ pred.internalId)
        ∧ (relTypeOf succ pred.internalId ≠ "FS" →
           relTypeOf succ pred.internalId ≠ "SS" →
           relTypeOf succ pred.internalId ≠ "FF" →
           relTypeOf succ pred.internalId ≠ "SF" →
          impliedReqStart pred succ = pred.finish + relLagOf succ pred.internalId)) := by
  constructor
  · intro t ht
    have h1 : (runScheduleAnalysis inp).earliestReqStart =
        (forwardPass inp.tasks inp.relationships).ers := rfl
    rw [h1, forward_ers_char hWF hacyc]
    have hst : startOf inp.tasks t.internalId = t.start := by
      unfold startOf
      rw [findTask_eq_self hWF.nodupIds ht]
    rw [hst]
  · intro pred succ
    refine ⟨?_, ?_, ?_, ?_, ?_⟩
    · intro h; simp [impliedReqStart, h]
    · intro h; simp [impliedReqStart, h]
    · intro h; simp [impliedReqStart, h]
    · intro h; simp [impliedReqStart, h]
    · intro h1 h2 h3 h4
      simp only [impliedReqStart]
      rw [if_neg h1, if_neg h2, if_neg h3, if_neg h4]

/-- The closed-form value the backward pass writes for one id: the
minimum implied requirement over its successors, clamped by its own
actual finish, or the incoming value when the id is unknown or has no
successors. -/
def backVal (tasks : List STask) (rels : List SRel) (x : ℚ) (id : String) : ℚ :=
  match findTask tasks id with
  | none => x
  | some task =>
    if (succIds rels id).isEmpty then x
    else
      match minReqOverSuccs tasks task (succIds rels id) with
      | none => x
      | some m => min task.finish m

/-- `backStep` rewrites exactly its own id's entry, to `backVal`. -/
theorem backStep_apply (tasks : List STask) (rels : List SRel)
    (lrf : String → ℚ) (id j : String) :
    backStep tasks rels lrf id j =
      if j = id then backVal tasks rels (lrf id) id else lrf j := by
  by_cases hj : j = id
  · subst hj
    rw [if_pos rfl]
    cases hft : findTask tasks j with
    | none => simp [backStep, backVal, hft]
    | some task =>
      by_cases he : (succIds rels j).isEmpty
      · simp [backStep, backVal, hft, he]
      · cases hmr : minReqOverSuccs tasks task (succIds rels j) with
        | none => simp [backStep, backVal, hft, he, hmr]
        | some m => simp [backStep, backVal, hft, he, hmr]
  · rw [if_neg hj]
    cases hft : findTask tasks id with
    | none => simp [backStep, hft]
    | some task =>
      by_cases he : (succIds rels id).isEmpty
      · simp [backStep, hft, he]
      · cases hmr : minReqOverSuccs tasks task (succIds rels id) with
        | none => simp [backStep, hft, he, hmr]
        | some m => simp [backStep, hft, he, hmr, hj]

/-- `backVal` is idempotent in its pass-through argument. -/
theorem backVal_idem (tasks : List STask) (rels : List SRel) (x : ℚ) (id : String) :
    backVal tasks rels (backVal tasks rels x id) id = backVal tasks rels x id := by
  cases hft : findTask tasks id with
  | none => simp [backVal, hft]
  | some task =>
    by_cases he : (succIds rels id).isEmpty
    · simp [backVal, hft, he]
    · cases hmr : minReqOverSuccs tasks task (succIds rels id) with
      | none => simp [backVal, hft, he, hmr]
      | some m => simp [backVal, hft, he, hmr]

/-- Fold characterization of the backward sweep: each id ends at its own
`backVal` when it appears in the processed list, else at its initial
value. -/
theorem foldl_backStep_eq (tasks : List STask) (rels : List SRel) :
    ∀ (L : List String) (f0 : String → ℚ) (id : String),
      (L.foldl (backStep tasks rels) f0) id =
        if id ∈ L then backVal tasks rels (f0 id) id else f0 id := by
  intro L
  induction L with
  | nil => intro f0 id; simp
  | cons a L ih =>
    intro f0 id
    rw [List.foldl_cons, ih (backStep tasks rels f0 a) id]
    by_cases hid : id ∈ L
    · rw [if_pos hid, if_pos (List.mem_cons_of_mem a hid), backStep_apply]
      by_cases hja : id = a
      · rw [if_pos hja, hja]
        exact backVal_idem tasks rels (f0 a) a
      · rw [if_neg hja]
    · rw [if_neg hid, backStep_apply]
      by_cases hja : id = a
      · rw [if_pos hja, if_pos (by rw [hja]; exact List.mem_cons_self a L), hja]
      · rw [if_neg hja, if_neg (by
          intro h
          cases List.mem_cons.mp h with
          | inl h => exact hja h
          | inr h => exact hid h)]

/-- The fold of `minReqOverSuccs` with an explicit accumulator. -/
def minReqAux (tasks : List STask) (task : STask) (succs : List String)
    (acc : Option ℚ) : Option ℚ :=
  succs.foldl (fun acc succId =>
    match findTask tasks succId with
    | none => acc
    | some succ =>
      let req := impliedReqFinish task succ
      match acc with
      | none => some req
      | some m => if req < m then some req else some m) acc

/-- One step of the accumulator fold. -/
theorem minReqAux_cons (tasks : List STask) (task : STask) (s : String)
    (rest : List String) (acc : Option ℚ) :
    minReqAux tasks task (s :: rest) acc =
      minReqAux tasks task rest
        (match findTask tasks s with
         | none => acc
         | some succ =>
           match acc with
           | none => some (impliedReqFinish task succ)
           | some m =>
             if impliedReqFinish task succ < m then some (impliedReqFinish task succ)
             else some m) := rfl

/-- With every successor id resolvable, the accumulator fold computes
the running minimum. -/
theorem minReqAux_some (tasks : List STask) (task : STask) :
    ∀ (sids : List String) (m : ℚ),
      (∀ s ∈ sids, (findTask tasks s).isSome) →
      minReqAux tasks task sids (some m) =
        some ((sids.map (fun s =>
          match findTask tasks s with
          | some succ => impliedReqFinish task succ
          | none => 0)).foldl min m) := by
  intro sids
  induction sids with
  | nil => intro m _; rfl
  | cons s rest ih =>
    intro m hall
    have hs := hall s (List.mem_cons_self s rest)
    obtain ⟨succ, hsucc⟩ := Option.isSome_iff_exists.mp hs
    rw [minReqAux_cons]
    simp only [hsucc]
    have hmin : (if impliedReqFinish task succ < m
        then some (impliedReqFinish task succ) else some m) =
        some (min m (impliedReqFinish task succ)) := by
      by_cases hlt : impliedReqFinish task succ < m
      · rw [if_pos hlt, min_eq_right (le_of_lt hlt)]
      · rw [if_neg hlt, min_eq_left (not_lt.mp hlt)]
    rw [hmin, ih (min m (impliedReqFinish task succ))
      (fun x hx => hall x (List.mem_cons_of_mem s hx)), List.map_cons, List.foldl_cons]
    simp only [hsucc]

/-- With every successor id resolvable, `minReqOverSuccs` is the
`minOfList` of the implied requirements. -/
theorem minReqOverSuccs_eq (tasks : List STask) (task : STask)
    (sids : List String) (hall : ∀ s ∈ sids, (findTask tasks s).isSome) :
    minReqOverSuccs tasks task sids =
      minOfList (sids.map (fun s =>
        match findTask tasks s with
        | some succ => impliedReqFinish task succ
        | none => 0)) := by
  have hrfl : minReqOverSuccs tasks task sids = minReqAux tasks task sids none := rfl
  cases sids with
  | nil => rfl
  | cons s rest =>
    rw [hrfl, minReqAux_cons]
    have hs := hall s (List.mem_cons_self s rest)
    obtain ⟨succ, hsucc⟩ := Option.isSome_iff_exists.mp hs
    simp only [hsucc]
    rw [minReqAux_some tasks task rest (impliedReqFinish task succ)
      (fun x hx => hall x (List.mem_cons_of_mem s hx)), List.map_cons]
    simp only [hsucc, minOfList]

/-- Final characterization of the backward pass on acyclic well-formed
inputs. -/
theorem backward_lrf_char {inp : AnalysisInput} (hWF : WellFormedInput inp)
    (hacyc : ¬ hasCycleProp inp.relationships) {t : STask} (ht : t ∈ inp.tasks) :
    (runScheduleAnalysis inp).latestReqFinish t.internalId =
      (match minOfList ((outEdgesOf inp.relationships t.internalId).map
          (impliedBwdOf inp.tasks)) with
       | none => t.finish
       | some m => min t.finish m) := by
  have hlrf : (runScheduleAnalysis inp).latestReqFinish =
      backwardPass inp.tasks inp.relationships
        (forwardPass inp.tasks inp.relationships).topo := rfl
  rw [hlrf]
  unfold backwardPass
  rw [foldl_backStep_eq]
  have htid : t.internalId ∈ taskIds inp.tasks :=
    List.mem_map_of_mem (fun x => x.internalId) ht
  have htopo : t.internalId ∈ (forwardPass inp.tasks inp.relationships).topo :=
    kahn_complete hWF hacyc _ htid
  rw [if_pos (List.mem_reverse.mpr htopo)]
  have hft : findTask inp.tasks t.internalId = some t := findTask_eq_self hWF.nodupIds ht
  have hfin : finishOf inp.tasks t.internalId = t.finish := by
    unfold finishOf
    rw [hft]
  have hsucc : succIds inp.relationships t.internalId =
      (outEdgesOf inp.relationships t.internalId).map (fun r => r.successorId) := rfl
  have hall : ∀ s ∈ succIds inp.relationships t.internalId,
      (findTask inp.tasks s).isSome := by
    intro s hsm
    rw [hsucc] at hsm
    obtain ⟨r, hr, hrs⟩ := List.mem_map.mp hsm
    have hrrel : r ∈ inp.relationships := (List.mem_filter.mp hr).1
    have hmem := (hWF.relMem r hrrel).2.1
    rw [← hrs]
    exact findTask_isSome_of_mem hWF.nodupIds hmem
  have hmap : (succIds inp.relationships t.internalId).map (fun s =>
        match findTask inp.tasks s with
        | some succ => impliedReqFinish t succ
        | none => 0) =
      (outEdgesOf inp.relationships t.internalId).map (impliedBwdOf inp.tasks) := by
    rw [hsucc, List.map_map]
    refine List.map_congr_left ?_
    intro r hr
    have hrrel : r ∈ inp.relationships := (List.mem_filter.mp hr).1
    have hpred : r.predecessorId = t.internalId := by
      have := (List.mem_filter.mp hr).2
      simpa using this
    obtain ⟨succ, hsuccr⟩ := Option.isSome_iff_exists.mp
      (findTask_isSome_of_mem hWF.nodupIds (hWF.relMem r hrrel).2.1)
    simp [Function.comp, impliedBwdOf, hpred, hft, hsuccr]
  by_cases he : (succIds inp.relationships t.internalId).isEmpty
  · have hsnil : succIds inp.relationships t.internalId = [] :=
      List.isEmpty_iff.mp he
    have honil : outEdgesOf inp.relationships t.internalId = [] := by
      rw [hsucc] at hsnil
      exact List.map_eq_nil.mp hsnil
    rw [honil]
    simp [backVal, hft, he, hfin, minOfList]
  · have hmq : minReqOverSuccs inp.tasks t (succIds inp.relationships t.internalId) =
        minOfList ((outEdgesOf inp.relationships t.internalId).map
          (impliedBwdOf inp.tasks)) := by
      rw [minReqOverSuccs_eq inp.tasks t _ hall, hmap]
    cases hmin : minOfList ((outEdgesOf inp.relationships t.internalId).map
        (impliedBwdOf inp.tasks)) with
    | none =>
      exfalso
      have honil : (outEdgesOf inp.relationships t.internalId).map
          (impliedBwdOf inp.tasks) = [] := by
        cases hcl : (outEdgesOf inp.relationships t.internalId).map
            (impliedBwdOf inp.tasks) with
        | nil => rfl
        | cons v vs =>
          rw [hcl] at hmin
          simp [minOfList] at hmin
      have hsnil : succIds inp.relationships t.internalId = [] := by
        rw [hsucc]
        have := List.map_eq_nil.mp honil
        rw [this]
        rfl
      rw [hsnil] at he
      exact he rfl
    | some m =>
      rw [hmin] at hmq
      simp [backVal, hft, he, hmq]

/-- C3: on every acyclic well-formed input, the backward pass of the
full-project analysis leaves each task without outgoing relationships at
its actual finish, and sets each task with successors to the minimum of
the implied latest required finishes over its outgoing relationships,
clamped to be no later than the task's own actual finish; the implied
value follows the relationship type: FS gives `succStart - lag`, SS
`succStart - lag + predDuration`, FF `succFinish - lag`, SF
`succFinish - lag - succDuration + predDuration`, and any unrecognized
type falls back to the FS formula. -/
theorem claim_C3_backward_pass (inp : AnalysisInput)
    (hWF : WellFormedInput inp) (hacyc : ¬ hasCycleProp inp.relationships) :
    (∀ t ∈ inp.tasks,
      (runScheduleAnalysis inp).latestReqFinish t.internalId =
        (match minOfList ((outEdgesOf inp.relationships t.internalId).map
            (impliedBwdOf inp.tasks)) with
         | none => t.finish
         | some m => min t.finish m))
    ∧ (∀ task succ : STask,
        (relTypeOf succ task.internalId = "FS" →
          impliedReqFinish task succ = succ.start - relLagOf succ task.internalId)
        ∧ (relTypeOf succ task.internalId = "SS" →
          impliedReqFinish task succ =
            succ.start - relLagOf succ task.internalId + durationOf task)
        ∧ (relTypeOf succ task.internalId = "FF" →
          impliedReqFinish task succ = succ.finish - relLagOf succ task.internalId)
        ∧ (relTypeOf succ task.internalId = "SF" →
          impliedReqFinish task succ =
            succ.finish - relLagOf succ task.internalId - durationOf succ
              + durationOf task)
        ∧ (relTypeOf succ task.internalId ≠ "FS" →
           relTypeOf succ task.internalId ≠ "SS" →
           relTypeOf succ task.internalId ≠ "FF" →
           relTypeOf succ task.internalId ≠ "SF" →
          impliedReqFinish task succ = succ.start - relLagOf succ task.internalId)) := by
  constructor
  · intro t ht
    exact backward_lrf_char hWF hacyc ht
  · intro task succ
    refine ⟨?_, ?_, ?_, ?_, ?_⟩
    · intro h; simp [impliedReqFinish, h]
    · intro h; simp [impliedReqFinish, h]
    · intro h; simp [impliedReqFinish, h]
    · intro h; simp [impliedReqFinish, h]
    · intro h1 h2 h3 h4
      simp only [impliedReqFinish]
      rw [if_neg h1, if_neg h2, if_neg h3, if_neg h4]

/-- Witness for C2: the two-task FS fixture is well-formed and acyclic,
and its forward pass satisfies the fold-of-max characterization. -/
theorem claim_C2_witness :
    WellFormedInput exViolation
    ∧ ¬ hasCycleProp exViolation.relationships
    ∧ ((∀ t ∈ exViolation.tasks,
        (runScheduleAnalysis exViolation).earliestReqStart t.internalId =
          ((inEdgesOf exViolation.relationships t.internalId).map
            (impliedFwdOf exViolation.tasks)).foldl max t.start)
      ∧ (∀ pred succ : STask,
          (relTypeOf succ pred.internalId = "FS" →
            impliedReqStart pred succ = pred.finish + relLagOf succ pred.internalId)
          ∧ (relTypeOf succ pred.internalId = "SS" →
            impliedReqStart pred succ = pred.start + relLagOf succ pred.internalId)
          ∧ (relTypeOf succ pred.internalId = "FF" →
            impliedReqStart pred succ =
              pred.finish - durationOf succ + relLagOf succ pred.internalId)
          ∧ (relTypeOf succ pred.internalId = "SF" →
            impliedReqStart pred succ =
              pred.start - durationOf succ + relLagOf succ pred.internalId)
          ∧ (relTypeOf succ pred.internalId ≠ "FS" →
             relTypeOf succ pred.internalId ≠ "SS" →
             relTypeOf succ pred.internalId ≠ "FF" →
             relTypeOf succ pred.internalId ≠ "SF" →
            impliedReqStart pred succ =
              pred.finish + relLagOf succ pred.internalId))) := by
  have hWF : WellFormedInput exViolation :=
    ⟨by decide, by decide, by decide, by decide⟩
  have hacyc : ¬ hasCycleProp exViolation.relationships :=
    no_cycle_of_rank (fun s => if s = "A" then 0 else 1) (by decide)
  exact ⟨hWF, hacyc, claim_C2_forward_pass exViolation hWF hacyc⟩

/-- Witness for C3: the two-task FS fixture is well-formed and acyclic,
and its backward pass satisfies the clamped-minimum characterization. -/
theorem claim_C3_witness :
    WellFormedInput exViolation
    ∧ ¬ hasCycleProp exViolation.relationships
    ∧ ((∀ t ∈ exViolation.tasks,
        (runScheduleAnalysis exViolation).latestReqFinish t.internalId =
          (match minOfList ((outEdgesOf exViolation.relationships t.internalId).map
              (impliedBwdOf exViolation.tasks)) with
           | none => t.finish
           | some m => min t.finish m))
      ∧ (∀ task succ : STask,
          (relTypeOf succ task.internalId = "FS" →
            impliedReqFinish task succ = succ.start - relLagOf succ task.internalId)
          ∧ (relTypeOf succ task.internalId = "SS" →
            impliedReqFinish task succ =
              succ.start - relLagOf succ task.internalId + durationOf task)
          ∧ (relTypeOf succ task.internalId = "FF" →
            impliedReqFinish task succ = succ.finish - relLagOf succ task.internalId)
          ∧ (relTypeOf succ task.internalId = "SF" →
            impliedReqFinish task succ =
              succ.finish - relLagOf succ task.internalId - durationOf succ
                + durationOf task)
          ∧ (relTypeOf succ task.internalId ≠ "FS" →
             relTypeOf succ task.internalId ≠ "SS" →
             relTypeOf succ task.internalId ≠ "FF" →
             relTypeOf succ task.internalId ≠ "SF" →
            impliedReqFinish task succ =
              succ.start - relLagOf succ task.internalId))) := by
  have hWF : WellFormedInput exViolation :=
    ⟨by decide, by decide, by decide, by decide⟩
  have hacyc : ¬ hasCycleProp exViolation.relationships :=
    no_cycle_of_rank (fun s => if s = "A" then 0 else 1) (by decide)
  exact ⟨hWF, hacyc, claim_C3_backward_pass exViolation hWF hacyc⟩

/-- Number of task ids not yet visited by the cycle DFS; the recursion
depth is bounded by one more than this count. -/
def knownUnvisited (tasks : List STask) (s : CycleState) : ℕ :=
  (taskIds tasks).countP (fun x => !decide (x ∈ s.visited))

/-- The unvisited count never exceeds the task count. -/
theorem knownUnvisited_le (tasks : List STask) (s : CycleState) :
    knownUnvisited tasks s ≤ tasks.length := by
  unfold knownUnvisited
  calc (taskIds tasks).countP (fun x => !decide (x ∈ s.visited))
      ≤ (taskIds tasks).length := List.countP_le_length _
    _ = tasks.length := List.length_map _ _

/-- Growing the visited set cannot increase the unvisited count. -/
theorem knownUnvisited_mono (tasks : List STask) (s s' : CycleState)
    (h : ∀ x ∈ s.visited, x ∈ s'.visited) :
    knownUnvisited tasks s' ≤ knownUnvisited tasks s := by
  unfold knownUnvisited
  refine List.countP_mono_left ?_
  intro x _ hx
  simp only [Bool.not_eq_true', decide_eq_false_iff_not] at hx ⊢
  intro hmem
  exact hx (h x hmem)

/-- Visiting a known unvisited task strictly decreases the unvisited
count. -/
theorem knownUnvisited_strict (tasks : List STask) (s s' : CycleState)
    (hsub : ∀ x ∈ s.visited, x ∈ s'.visited)
    {tid : String} (htid : tid ∈ taskIds tasks)
    (hold : tid ∉ s.visited) (hnew : tid ∈ s'.visited) :
    knownUnvisited tasks s' < knownUnvisited tasks s := by
  unfold knownUnvisited
  rw [List.countP_eq_length_filter, List.countP_eq_length_filter]
  have hcomp : (taskIds tasks).filter (fun x => !decide (x ∈ s'.visited)) =
      ((taskIds tasks).filter (fun x => !decide (x ∈ s.visited))).filter
        (fun x => !decide (x ∈ s'.visited)) := by
    rw [List.filter_filter]
    refine (List.filter_congr ?_).symm
    intro x _
    cases hx : (!decide (x ∈ s'.visited)) with
    | false => rfl
    | true =>
      simp only [Bool.true_and]
      simp only [Bool.not_eq_true', decide_eq_false_iff_not] at hx ⊢
      intro hmem
      exact hx (hsub x hmem)
  rw [hcomp]
  refine List.length_filter_lt_length_iff_exists.mpr ?_
  refine ⟨tid, List.mem_filter.mpr ⟨htid, by simp [hold]⟩, by simp [hnew]⟩

/-- Invariant of the cycle DFS while no cycle has been found: the
recursion stack is a duplicate-free subset of the visited set, and the
finished vertices (visited, off the stack) admit a finish order in which
no known task has an edge to a later-finished vertex and every known
finished task's successors are themselves finished. -/
structure DfsInv (tasks : List STask) (rels : List SRel) (s : CycleState) : Prop where
  stackNodup : s.recStack.Nodup
  stackSub : ∀ x ∈ s.recStack, x ∈ s.visited
  finOrder : ∃ L : List String, L.Nodup
    ∧ (∀ v, v ∈ L ↔ v ∈ s.visited ∧ v ∉ s.recStack)
    ∧ L.Pairwise (fun a b => (findTask tasks a).isSome → ¬ relEdge rels a b)
    ∧ (∀ v ∈ L, (findTask tasks v).isSome → ∀ w, relEdge rels v w → w ∈ L)

/-- The DFS only extends the cyclic-task set and appends to the cycle
descriptions. -/
theorem dfsVisit_mono (tasks : List STask) (rels : List SRel) :
    ∀ (fuel : ℕ) (tid : String) (path : List String) (s : CycleState),
      (∀ x ∈ s.cyclicTasks, x ∈ (dfsVisit tasks rels fuel tid path s).2.cyclicTasks)
      ∧ (∃ ext, (dfsVisit tasks rels fuel tid path s).2.cycleDetails =
          s.cycleDetails ++ ext) := by
  intro fuel
  induction fuel with
  | zero => intro tid path s; exact ⟨fun x hx => hx, [], by simp [dfsVisit]⟩
  | succ n ih =>
    intro tid path s
    have hloop : ∀ (succs : List String) (u : CycleState),
        (∀ x ∈ u.cyclicTasks,
          x ∈ (dfsLoopAux (fun sid p st => dfsVisit tasks rels n sid p st)
            tasks tid (path ++ [tid]) succs u).2.cyclicTasks)
        ∧ (∃ ext, (dfsLoopAux (fun sid p st => dfsVisit tasks rels n sid p st)
            tasks tid (path ++ [tid]) succs u).2.cycleDetails =
            u.cycleDetails ++ ext) := by
      intro succs
      induction succs with
      | nil => intro u; exact ⟨fun x hx => hx, [], by simp [dfsLoopAux]⟩
      | cons w rest ihr =>
        intro u
        simp only [dfsLoopAux]
        by_cases hv : w ∈ u.visited
        · simp only [if_pos hv]
          by_cases hstk : w ∈ u.recStack
          · simp only [if_pos hstk]
            refine ⟨fun x hx => ?_, [describeCycle tasks (path ++ [tid]) w], rfl⟩
            exact List.mem_insert_of_mem (List.mem_insert_of_mem hx)
          · simp only [if_neg hstk]
            exact ihr u
        · simp only [if_neg hv]
          obtain ⟨hc1, ext1, he1⟩ := ih w (path ++ [tid]) u
          cases hsv : dfsVisit tasks rels n w (path ++ [tid]) u with
          | mk b s2 =>
            rw [hsv] at hc1 he1
            cases b with
            | true =>
              exact ⟨fun x hx => List.mem_insert_of_mem (hc1 x hx), ext1, he1⟩
            | false =>
              obtain ⟨hc2, ext2, he2⟩ := ihr s2
              exact ⟨fun x hx => hc2 x (hc1 x hx), ext1 ++ ext2,
                by rw [he2, he1, List.append_assoc]⟩
    cases hft : findTask tasks tid with
    | none =>
      refine ⟨fun x hx => ?_, [], ?_⟩
      · simp only [dfsVisit, hft]
        exact hx
      · simp only [dfsVisit, hft]
        simp
    | some task =>
      obtain ⟨hc, ext, he⟩ := hloop (succIds rels tid)
        { s with visited := s.visited.insert tid, recStack := s.recStack.insert tid }
      cases hlp : dfsLoopAux (fun sid p st => dfsVisit tasks rels n sid p st)
          tasks tid (path ++ [tid]) (succIds rels tid)
          { s with visited := s.visited.insert tid, recStack := s.recStack.insert tid } with
      | mk b s2 =>
        rw [hlp] at hc he
        cases b with
        | true =>
          refine ⟨fun x hx => ?_, ext, ?_⟩
          · simp only [dfsVisit, hft, hlp]
            exact hc x hx
          · simp only [dfsVisit, hft, hlp]
            exact he
        | false =>
          refine ⟨fun x hx => ?_, ext, ?_⟩
          · simp only [dfsVisit, hft, hlp]
            exact hc x hx
          · simp only [dfsVisit, hft, hlp]
            exact he

/-- A `true` return of the DFS leaves a nonempty cyclic-task set and at
least one cycle description. -/
theorem dfsVisit_true (tasks : List STask) (rels : List SRel) :
    ∀ (fuel : ℕ) (tid : String) (path : List String) (s : CycleState),
      (dfsVisit tasks rels fuel tid path s).1 = true →
      (dfsVisit tasks rels fuel tid path s).2.cyclicTasks ≠ []
      ∧ (dfsVisit tasks rels fuel tid path s).2.cycleDetails ≠ [] := by
  intro fuel
  induction fuel with
  | zero => intro tid path s h; cases h
  | succ n ih =>
    intro tid path s htrue
    have hloop : ∀ (succs : List String) (u : CycleState),
        (dfsLoopAux (fun sid p st => dfsVisit tasks rels n sid p st)
          tasks tid (path ++ [tid]) succs u).1 = true →
        (dfsLoopAux (fun sid p st => dfsVisit tasks rels n sid p st)
          tasks tid (path ++ [tid]) succs u).2.cyclicTasks ≠ []
        ∧ (dfsLoopAux (fun sid p st => dfsVisit tasks rels n sid p st)
          tasks tid (path ++ [tid]) succs u).2.cycleDetails ≠ [] := by
      intro succs
      induction succs with
      | nil => intro u h; cases h
      | cons w rest ihr =>
        intro u h
        simp only [dfsLoopAux] at h ⊢
        by_cases hv : w ∈ u.visited
        · simp only [if_pos hv] at h ⊢
          by_cases hstk : w ∈ u.recStack
          · simp only [if_pos hstk] at h ⊢
            constructor
            · exact List.ne_nil_of_mem (List.mem_insert_self _ _)
            · simp
          · simp only [if_neg hstk] at h ⊢
            exact ihr u h
        · simp only [if_neg hv] at h ⊢
          cases hsv : dfsVisit tasks rels n w (path ++ [tid]) u with
          | mk b s2 =>
            rw [hsv] at h
            cases b with
            | true =>
              obtain ⟨hc, hd⟩ := ih w (path ++ [tid]) u
                (by rw [hsv])
              rw [hsv] at hc hd
              exact ⟨List.ne_nil_of_mem (List.mem_insert_self _ _), hd⟩
            | false =>
              exact ihr s2 h
    cases hft : findTask tasks tid with
    | none =>
      simp only [dfsVisit, hft] at htrue
      cases htrue
    | some task =>
      simp only [dfsVisit, hft] at htrue ⊢
      cases hlp : dfsLoopAux (fun sid p st => dfsVisit tasks rels n sid p st)
          tasks tid (path ++ [tid]) (succIds rels tid)
          { s with visited := s.visited.insert tid, recStack := s.recStack.insert tid } with
      | mk b s2 =>
        rw [hlp] at htrue
        cases b with
        | true =>
          obtain ⟨hc, hd⟩ := hloop (succIds rels tid)
            { s with visited := s.visited.insert tid, recStack := s.recStack.insert tid }
            (by rw [hlp])
          rw [hlp] at hc hd
          exact ⟨hc, hd⟩
        | false => simp at htrue

/-- Inserting a fresh element and erasing it again is the identity. -/
theorem insert_erase_self {l : List String} {a : String} (h : a ∉ l) :
    (l.insert a).erase a = l := by
  rw [List.insert_of_not_mem h, List.erase_cons_head]

/-- A successfully found id is in the id list. -/
theorem findTask_mem_taskIds {tasks : List STask} {id : String} {t : STask}
    (h : findTask tasks id = some t) : id ∈ taskIds tasks := by
  have hmem := List.mem_of_find?_eq_some h
  have hp := List.find?_some h
  have hid : t.internalId = id := of_decide_eq_true hp
  exact hid ▸ List.mem_map_of_mem (fun x => x.internalId) hmem

/-- Specification of a `false`-returning DFS visit of an unvisited task:
the invariant is preserved, the recursion stack is restored, the visited
set only grows and now holds the visited task. -/
theorem dfsVisit_false_spec (tasks : List STask) (rels : List SRel) :
    ∀ (fuel : ℕ) (taskId : String) (path : List String) (s : CycleState),
      taskId ∉ s.visited →
      DfsInv tasks rels s →
      knownUnvisited tasks s < fuel →
      (dfsVisit tasks rels fuel taskId path s).1 = false →
      DfsInv tasks rels (dfsVisit tasks rels fuel taskId path s).2
      ∧ (dfsVisit tasks rels fuel taskId path s).2.recStack = s.recStack
      ∧ (∀ x ∈ s.visited, x ∈ (dfsVisit tasks rels fuel taskId path s).2.visited)
      ∧ taskId ∈ (dfsVisit tasks rels fuel taskId path s).2.visited := by
  intro fuel
  induction fuel with
  | zero => intro taskId path s _ _ hUV _; omega
  | succ n ih =>
    intro taskId path s hunv hInv hUV hfalse
    have htid_stk : taskId ∉ s.recStack := fun h => hunv (hInv.stackSub _ h)
    cases hft : findTask tasks taskId with
    | none =>
      have hres : dfsVisit tasks rels (n + 1) taskId path s =
          (false, { visited := s.visited.insert taskId,
                    recStack := s.recStack,
                    cyclicTasks := s.cyclicTasks,
                    cycleDetails := s.cycleDetails }) := by
        simp only [dfsVisit, hft]
        rw [insert_erase_self htid_stk]
      rw [hres]
      obtain ⟨L, hnd, hiff, hpw, hcl⟩ := hInv.finOrder
      refine ⟨⟨hInv.stackNodup, ?_, ?_⟩, rfl, ?_, List.mem_insert_self _ _⟩
      · intro x hx
        exact List.mem_insert_of_mem (hInv.stackSub x hx)
      · refine ⟨L ++ [taskId],
          nodup_append_singleton hnd (fun hmem => hunv ((hiff taskId).mp hmem).1),
          ?_, ?_, ?_⟩
        · intro v
          constructor
          · intro hv
            cases List.mem_append.mp hv with
            | inl hv =>
              obtain ⟨hv1, hv2⟩ := (hiff v).mp hv
              exact ⟨List.mem_insert_of_mem hv1, hv2⟩
            | inr hv =>
              have : v = taskId := List.mem_singleton.mp hv
              subst this
              exact ⟨List.mem_insert_self _ _, htid_stk⟩
          · rintro ⟨hv1, hv2⟩
            cases List.mem_insert_iff.mp hv1 with
            | inl hv =>
              subst hv
              exact List.mem_append_right _ (List.mem_singleton.mpr rfl)
            | inr hv =>
              exact List.mem_append_left _ ((hiff v).mpr ⟨hv, hv2⟩)
        · refine List.pairwise_append.mpr ⟨hpw, List.pairwise_singleton _ _, ?_⟩
          intro a ha b hb
          have hb' : b = taskId := List.mem_singleton.mp hb
          intro hk he
          rw [hb'] at he
          exact hunv ((hiff taskId).mp (hcl a ha hk taskId he)).1
        · intro v hv hk w he
          cases List.mem_append.mp hv with
          | inl hv =>
            exact List.mem_append_left _ (hcl v hv hk w he)
          | inr hv =>
            have hveq : v = taskId := List.mem_singleton.mp hv
            rw [hveq, hft] at hk
            cases hk
      · intro x hx
        exact List.mem_insert_of_mem hx
    | some task =>
      have htid_ids : taskId ∈ taskIds tasks := findTask_mem_taskIds hft
      have hloop : ∀ (succs : List String) (u : CycleState),
          DfsInv tasks rels u →
          taskId ∈ u.recStack →
          knownUnvisited tasks u < n →
          (dfsLoopAux (fun sid p st => dfsVisit tasks rels n sid p st)
            tasks taskId (path ++ [taskId]) succs u).1 = false →
          DfsInv tasks rels (dfsLoopAux (fun sid p st => dfsVisit tasks rels n sid p st)
            tasks taskId (path ++ [taskId]) succs u).2
          ∧ (dfsLoopAux (fun sid p st => dfsVisit tasks rels n sid p st)
              tasks taskId (path ++ [taskId]) succs u).2.recStack = u.recStack
          ∧ (∀ x ∈ u.visited,
              x ∈ (dfsLoopAux (fun sid p st => dfsVisit tasks rels n sid p st)
                tasks taskId (path ++ [taskId]) succs u).2.visited)
          ∧ (∀ w ∈ succs,
              w ∈ (dfsLoopAux (fun sid p st => dfsVisit tasks rels n sid p st)
                tasks taskId (path ++ [taskId]) succs u).2.visited
              ∧ w ∉ (dfsLoopAux (fun sid p st => dfsVisit tasks rels n sid p st)
                tasks taskId (path ++ [taskId]) succs u).2.recStack) := by
        intro succs
        induction succs with
        | nil =>
          intro u hI _ _ _
          refine ⟨hI, rfl, fun x hx => hx, ?_⟩
          intro w hw
          cases hw
        | cons w rest ihr =>
          intro u hI hstk_tid hUVu hfal
          simp only [dfsLoopAux] at hfal ⊢
          by_cases hv : w ∈ u.visited
          · simp only [if_pos hv] at hfal ⊢
            by_cases hwstk : w ∈ u.recStack
            · simp only [if_pos hwstk] at hfal
              cases hfal
            · simp only [if_neg hwstk] at hfal ⊢
              obtain ⟨I3, R3, M3, S3⟩ := ihr u hI hstk_tid hUVu hfal
              refine ⟨I3, R3, M3, ?_⟩
              intro x hx
              cases hx with
              | head =>
                refine ⟨M3 w hv, ?_⟩
                rw [R3]
                exact hwstk
              | tail _ hx => exact S3 x hx
          · simp only [if_neg hv] at hfal ⊢
            have hwstk : w ∉ u.recStack := fun h => hv (hI.stackSub _ h)
            cases hsv : dfsVisit tasks rels n w (path ++ [taskId]) u with
            | mk b s2 =>
              rw [hsv] at hfal
              cases b with
              | true => cases hfal
              | false =>
                obtain ⟨I2, R2, M2, W2⟩ :=
                  ih w (path ++ [taskId]) u hv hI hUVu (by rw [hsv])
                rw [hsv] at I2 R2 M2 W2
                have hUV2 : knownUnvisited tasks s2 < n :=
                  lt_of_le_of_lt (knownUnvisited_mono tasks u s2 M2) hUVu
                have hstk2 : taskId ∈ s2.recStack := by
                  rw [R2]
                  exact hstk_tid
                obtain ⟨I3, R3, M3, S3⟩ := ihr s2 I2 hstk2 hUV2 hfal
                refine ⟨I3, by rw [R3, R2], fun x hx => M3 x (M2 x hx), ?_⟩
                intro x hx
                cases hx with
                | head =>
                  refine ⟨M3 w W2, ?_⟩
                  rw [R3, R2]
                  exact hwstk
                | tail _ hx => exact S3 x hx
      cases hlp : dfsLoopAux (fun sid p st => dfsVisit tasks rels n sid p st)
          tasks taskId (path ++ [taskId]) (succIds rels taskId)
          { s with visited := s.visited.insert taskId,
                   recStack := s.recStack.insert taskId } with
      | mk b s2 =>
        cases b with
        | true =>
          simp only [dfsVisit, hft, hlp] at hfalse
          cases hfalse
        | false =>
          have hs1Inv : DfsInv tasks rels
              { s with visited := s.visited.insert taskId,
                       recStack := s.recStack.insert taskId } := by
            obtain ⟨L, hnd, hiff, hpw, hcl⟩ := hInv.finOrder
            refine ⟨hInv.stackNodup.insert, ?_, L, hnd, ?_, hpw, hcl⟩
            · intro x hx
              cases List.mem_insert_iff.mp hx with
              | inl h => exact h ▸ List.mem_insert_self _ _
              | inr h => exact List.mem_insert_of_mem (hInv.stackSub x h)
            · intro v
              rw [hiff v]
              constructor
              · rintro ⟨hv1, hv2⟩
                refine ⟨List.mem_insert_of_mem hv1, ?_⟩
                intro hmem
                cases List.mem_insert_iff.mp hmem with
                | inl h => exact hunv (h ▸ hv1)
                | inr h => exact hv2 h
              · rintro ⟨hv1, hv2⟩
                cases List.mem_insert_iff.mp hv1 with
                | inl h =>
                  exact absurd (h ▸ List.mem_insert_self taskId s.recStack) hv2
                | inr h =>
                  exact ⟨h, fun hc => hv2 (List.mem_insert_of_mem hc)⟩
          have hUV1 : knownUnvisited tasks
              { s with visited := s.visited.insert taskId,
                       recStack := s.recStack.insert taskId } < n := by
            have hstrict := knownUnvisited_strict tasks s
              { s with visited := s.visited.insert taskId,
                       recStack := s.recStack.insert taskId }
              (fun x hx => List.mem_insert_of_mem hx) htid_ids hunv
              (List.mem_insert_self _ _)
            omega
          obtain ⟨I2, R2, M2, S2⟩ := hloop (succIds rels taskId)
            { s with visited := s.visited.insert taskId,
                     recStack := s.recStack.insert taskId }
            hs1Inv (List.mem_insert_self _ _) hUV1 (by rw [hlp])
          rw [hlp] at I2 R2 M2 S2
          have htid_v2 : taskId ∈ s2.visited := M2 taskId (List.mem_insert_self _ _)
          have htid_stk2 : taskId ∈ s2.recStack := by
            rw [R2]
            exact List.mem_insert_self _ _
          have hstk_eq : s2.recStack.erase taskId = s.recStack := by
            rw [R2]
            exact insert_erase_self htid_stk
          have hres : dfsVisit tasks rels (n + 1) taskId path s =
              (false, { visited := s2.visited,
                        recStack := s2.recStack.erase taskId,
                        cyclicTasks := s2.cyclicTasks,
                        cycleDetails := s2.cycleDetails }) := by
            simp only [dfsVisit, hft, hlp]
          rw [hres]
          obtain ⟨L2, hnd2, hiff2, hpw2, hcl2⟩ := I2.finOrder
          have htid_notL2 : taskId ∉ L2 := fun h => ((hiff2 taskId).mp h).2 htid_stk2
          refine ⟨⟨?_, ?_, ?_⟩, hstk_eq, ?_, htid_v2⟩
          · exact I2.stackNodup.erase _
          · intro x hx
            exact I2.stackSub x (List.mem_of_mem_erase hx)
          · refine ⟨L2 ++ [taskId], nodup_append_singleton hnd2 htid_notL2, ?_, ?_, ?_⟩
            · intro v
              constructor
              · intro hv
                cases List.mem_append.mp hv with
                | inl hv =>
                  obtain ⟨hv1, hv2⟩ := (hiff2 v).mp hv
                  exact ⟨hv1, fun hc => hv2 (List.mem_of_mem_erase hc)⟩
                | inr hv =>
                  have : v = taskId := List.mem_singleton.mp hv
                  subst this
                  refine ⟨htid_v2, ?_⟩
                  intro hc
                  exact ((I2.stackNodup.mem_erase_iff).mp hc).1 rfl
              · rintro ⟨hv1, hv2⟩
                by_cases hvt : v = taskId
                · subst hvt
                  exact List.mem_append_right _ (List.mem_singleton.mpr rfl)
                · have hv3 : v ∉ s2.recStack := by
                    intro hc
                    exact hv2 ((I2.stackNodup.mem_erase_iff).mpr ⟨hvt, hc⟩)
                  exact List.mem_append_left _ ((hiff2 v).mpr ⟨hv1, hv3⟩)
            · refine List.pairwise_append.mpr ⟨hpw2, List.pairwise_singleton _ _, ?_⟩
              intro a ha b hb
              have hb' : b = taskId := List.mem_singleton.mp hb
              intro hk he
              rw [hb'] at he
              exact htid_notL2 (hcl2 a ha hk taskId he)
            · intro v hv hk w he
              cases List.mem_append.mp hv with
              | inl hv =>
                exact List.mem_append_left _ (hcl2 v hv hk w he)
              | inr hv =>
                have hveq : v = taskId := List.mem_singleton.mp hv
                rw [hveq] at he
                have hw : w ∈ succIds rels taskId := mem_succIds.mpr he
                obtain ⟨hw1, hw2⟩ := S2 w hw
                exact List.mem_append_left _ ((hiff2 w).mpr ⟨hw1, hw2⟩)
          · intro x hx
            exact M2 x (List.mem_insert_of_mem hx)

/-- The driver loop of `detectAndReportCycles`, with explicit start
state. -/
def detectFold (tasks : List STask) (rels : List SRel) (ts : List STask)
    (s : CycleState) : CycleState :=
  ts.foldl (fun s t =>
    if t.internalId ∈ s.visited then s
    else (dfsVisit tasks rels (tasks.length + 1) t.internalId [] s).2) s

/-- The driver loop only extends the cyclic-task set and appends to the
cycle descriptions. -/
theorem detectFold_mono (tasks : List STask) (rels : List SRel) :
    ∀ (ts : List STask) (s : CycleState),
      (∀ x ∈ s.cyclicTasks, x ∈ (detectFold tasks rels ts s).cyclicTasks)
      ∧ (∃ ext, (detectFold tasks rels ts s).cycleDetails =
          s.cycleDetails ++ ext) := by
  intro ts
  induction ts with
  | nil => intro s; exact ⟨fun x hx => hx, [], by simp [detectFold]⟩
  | cons t ts iht =>
    intro s
    have hfold : detectFold tasks rels (t :: ts) s =
        detectFold tasks rels ts
          (if t.internalId ∈ s.visited then s
           else (dfsVisit tasks rels (tasks.length + 1) t.internalId [] s).2) := rfl
    rw [hfold]
    by_cases hmem : t.internalId ∈ s.visited
    · rw [if_pos hmem]
      exact iht s
    · rw [if_neg hmem]
      obtain ⟨hcm1, ext1, hde1⟩ :=
        dfsVisit_mono tasks rels (tasks.length + 1) t.internalId [] s
      obtain ⟨hcm2, ext2, hde2⟩ := iht
        (dfsVisit tasks rels (tasks.length + 1) t.internalId [] s).2
      exact ⟨fun x hx => hcm2 x (hcm1 x hx), ext1 ++ ext2,
        by rw [hde2, hde1, List.append_assoc]⟩

/-- Disjunctive invariant across the driver loop: either no cycle has
been found, the DFS invariant holds, the recursion stack is empty and
every processed task is visited; or the cyclic-task set and the cycle
descriptions are already nonempty. -/
theorem detectFold_run (tasks : List STask) (rels : List SRel) :
    ∀ (ts : List STask) (s : CycleState),
      (DfsInv tasks rels s ∧ s.recStack = []) ∨
        (s.cyclicTasks ≠ [] ∧ s.cycleDetails ≠ []) →
      (DfsInv tasks rels (detectFold tasks rels ts s)
        ∧ (detectFold tasks rels ts s).recStack = []
        ∧ (∀ t ∈ ts, t.internalId ∈ (detectFold tasks rels ts s).visited)
        ∧ (∀ x ∈ s.visited, x ∈ (detectFold tasks rels ts s).visited)) ∨
      ((detectFold tasks rels ts s).cyclicTasks ≠ []
        ∧ (detectFold tasks rels ts s).cycleDetails ≠ []) := by
  intro ts
  induction ts with
  | nil =>
    intro s hdisj
    cases hdisj with
    | inl h =>
      exact Or.inl ⟨h.1, h.2, fun t ht => absurd ht (List.not_mem_nil _),
        fun x hx => hx⟩
    | inr h => exact Or.inr h
  | cons t ts iht =>
    intro s hdisj
    have hfold : detectFold tasks rels (t :: ts) s =
        detectFold tasks rels ts
          (if t.internalId ∈ s.visited then s
           else (dfsVisit tasks rels (tasks.length + 1) t.internalId [] s).2) := rfl
    by_cases hmem : t.internalId ∈ s.visited
    · have hstep : (if t.internalId ∈ s.visited then s
          else (dfsVisit tasks rels (tasks.length + 1) t.internalId [] s).2) = s :=
        if_pos hmem
      rw [hfold, hstep]
      cases iht s hdisj with
      | inl h =>
        refine Or.inl ⟨h.1, h.2.1, ?_, h.2.2.2⟩
        intro u hu
        cases hu with
        | head => exact h.2.2.2 _ hmem
        | tail _ hu => exact h.2.2.1 u hu
      | inr h => exact Or.inr h
    · have hstep : (if t.internalId ∈ s.visited then s
          else (dfsVisit tasks rels (tasks.length + 1) t.internalId [] s).2) =
          (dfsVisit tasks rels (tasks.length + 1) t.internalId [] s).2 :=
        if_neg hmem
      rw [hfold, hstep]
      cases hdisj with
      | inr h =>
        obtain ⟨hcm, ext, hde⟩ :=
          dfsVisit_mono tasks rels (tasks.length + 1) t.internalId [] s
        have hright : (dfsVisit tasks rels (tasks.length + 1)
              t.internalId [] s).2.cyclicTasks ≠ []
            ∧ (dfsVisit tasks rels (tasks.length + 1)
              t.internalId [] s).2.cycleDetails ≠ [] := by
          constructor
          · obtain ⟨x, hx⟩ := List.exists_mem_of_ne_nil _ h.1
            exact List.ne_nil_of_mem (hcm x hx)
          · rw [hde]
            intro hnil
            exact h.2 (List.append_eq_nil.mp hnil).1
        obtain ⟨hcm2, ext2, hde2⟩ := detectFold_mono tasks rels ts
          (dfsVisit tasks rels (tasks.length + 1) t.internalId [] s).2
        refine Or.inr ⟨?_, ?_⟩
        · obtain ⟨x, hx⟩ := List.exists_mem_of_ne_nil _ hright.1
          exact List.ne_nil_of_mem (hcm2 x hx)
        · rw [hde2]
          intro hnil
          exact hright.2 (List.append_eq_nil.mp hnil).1
      | inl h =>
        obtain ⟨hI, hR⟩ := h
        have hUV : knownUnvisited tasks s < tasks.length + 1 :=
          lt_of_le_of_lt (knownUnvisited_le tasks s) (Nat.lt_succ_self _)
        cases hb : (dfsVisit tasks rels (tasks.length + 1) t.internalId [] s).1 with
        | false =>
          obtain ⟨I', R', M', T'⟩ := dfsVisit_false_spec tasks rels
            (tasks.length + 1) t.internalId [] s hmem hI hUV hb
          have hR' : (dfsVisit tasks rels (tasks.length + 1)
              t.internalId [] s).2.recStack = [] := by rw [R', hR]
          cases iht _ (Or.inl ⟨I', hR'⟩) with
          | inl h2 =>
            refine Or.inl ⟨h2.1, h2.2.1, ?_, fun x hx => h2.2.2.2 x (M' x hx)⟩
            intro u hu
            cases hu with
            | head => exact h2.2.2.2 _ T'
            | tail _ hu => exact h2.2.2.1 u hu
          | inr h2 => exact Or.inr h2
        | true =>
          obtain ⟨hc, hd⟩ := dfsVisit_true tasks rels
            (tasks.length + 1) t.internalId [] s hb
          obtain ⟨hcm2, ext2, hde2⟩ := detectFold_mono tasks rels ts
            (dfsVisit tasks rels (tasks.length + 1) t.internalId [] s).2
          refine Or.inr ⟨?_, ?_⟩
          · obtain ⟨x, hx⟩ := List.exists_mem_of_ne_nil _ hc
            exact List.ne_nil_of_mem (hcm2 x hx)
          · rw [hde2]
            intro hnil
            exact hd (List.append_eq_nil.mp hnil).1

/-- C1: for every well-formed input whose successor relation contains a
cycle, the full-project run reports `hasCycles = true` with at least one
concrete cyclic path description, and `calculateCPM` refuses the run: it
returns no per-task results at all. -/
theorem claim_C1_cycle_gate (inp : AnalysisInput) (hWF : WellFormedInput inp)
    (hcyc : hasCycleProp inp.relationships) :
    (detectAndReportCycles inp.tasks inp.relationships).hasCycles = true
    ∧ (detectAndReportCycles inp.tasks inp.relationships).cycleDetails ≠ []
    ∧ calculateCPM inp = none := by
  have hinit : DfsInv inp.tasks inp.relationships ⟨[], [], [], []⟩ := by
    refine ⟨List.nodup_nil, ?_, [], List.nodup_nil, ?_, List.Pairwise.nil, ?_⟩
    · intro x hx
      cases hx
    · intro v
      constructor
      · intro hv
        cases hv
      · rintro ⟨hv, _⟩
        cases hv
    · intro v hv
      cases hv
  have hrun := detectFold_run inp.tasks inp.relationships inp.tasks
    ⟨[], [], [], []⟩ (Or.inl ⟨hinit, rfl⟩)
  have hdet : detectAndReportCycles inp.tasks inp.relationships =
      { hasCycles := !(detectFold inp.tasks inp.relationships inp.tasks
          ⟨[], [], [], []⟩).cyclicTasks.isEmpty
        cyclicTasks := (detectFold inp.tasks inp.relationships inp.tasks
          ⟨[], [], [], []⟩).cyclicTasks
        cycleDetails := (detectFold inp.tasks inp.relationships inp.tasks
          ⟨[], [], [], []⟩).cycleDetails } := rfl
  cases hrun with
  | inl h =>
    exfalso
    obtain ⟨hI, hR, hts, _⟩ := h
    obtain ⟨L, hnd, hiff, hpw, _⟩ := hI.finOrder
    have hmemL : ∀ id ∈ taskIds inp.tasks,
        id ∈ L := by
      intro id hid
      obtain ⟨u, hu, hui⟩ := List.mem_map.mp hid
      refine (hiff id).mpr ⟨hui ▸ hts u hu, ?_⟩
      rw [hR]
      exact List.not_mem_nil id
    refine no_cycle_of_rank (fun v => L.length - L.indexOf v) ?_ hcyc
    intro r hr
    obtain ⟨hpm, hsm, hne⟩ := hWF.relMem r hr
    have hpredL : r.predecessorId ∈ L := hmemL _ hpm
    have hsuccL : r.successorId ∈ L := hmemL _ hsm
    have hp_lt : L.indexOf r.predecessorId < L.length :=
      List.indexOf_lt_length.mpr hpredL
    have hs_lt : L.indexOf r.successorId < L.length :=
      List.indexOf_lt_length.mpr hsuccL
    have hknown : (findTask inp.tasks r.predecessorId).isSome :=
      findTask_isSome_of_mem hWF.nodupIds hpm
    have hedge : relEdge inp.relationships r.predecessorId r.successorId :=
      ⟨r, hr, rfl, rfl⟩
    rcases Nat.lt_trichotomy (L.indexOf r.predecessorId)
        (L.indexOf r.successorId) with hlt | heq | hgt
    · exfalso
      have hpair := List.pairwise_iff_getElem.mp hpw
        (L.indexOf r.predecessorId) (L.indexOf r.successorId) hp_lt hs_lt hlt
      rw [List.getElem_indexOf hp_lt, List.getElem_indexOf hs_lt] at hpair
      exact hpair hknown hedge
    · exact absurd ((List.indexOf_inj hpredL hsuccL).mp heq) hne
    · show L.length - L.indexOf r.predecessorId <
        L.length - L.indexOf r.successorId
      omega
  | inr h =>
    obtain ⟨hc, hd⟩ := h
    have hcyc_true : (detectAndReportCycles inp.tasks inp.relationships).hasCycles
        = true := by
      rw [hdet]
      cases hcl : (detectFold inp.tasks inp.relationships inp.tasks
          ⟨[], [], [], []⟩).cyclicTasks with
      | nil => exact absurd hcl hc
      | cons a l => rfl
    refine ⟨hcyc_true, ?_, ?_⟩
    · rw [hdet]
      exact hd
    · unfold calculateCPM
      by_cases he : inp.tasks.isEmpty
      · rw [if_pos he]
      · rw [if_neg he, hcyc_true]
        rfl

/-- Fixture: task A of the 2-task cycle A → B → A (both FS). -/
def exCycTaskA : STask := ⟨"A", "A", 0, 1, ["B"], [("B", "FS")], [("B", some 0)]⟩

/-- Fixture: task B of the 2-task cycle A → B → A (both FS). -/
def exCycTaskB : STask := ⟨"B", "B", 1, 2, ["A"], [("A", "FS")], [("A", some 0)]⟩

/-- Fixture: the FS relationship A → B of the cyclic graph. -/
def exRelABc : SRel := ⟨"A", "B", "FS", none, some 0⟩

/-- Fixture: the FS relationship B → A closing the cycle. -/
def exRelBAc : SRel := ⟨"B", "A", "FS", none, some 0⟩

/-- Fixture: the cyclic 2-task input A → B → A. -/
def exCycInput : AnalysisInput :=
  ⟨[exCycTaskA, exCycTaskB], [exRelABc, exRelBAc], 1/100, 1⟩

/-- Witness for C1: the 2-task graph A → B → A is well-formed and
cyclic, and the engine refuses it with a reported cycle. -/
theorem claim_C1_witness :
    WellFormedInput exCycInput
    ∧ hasCycleProp exCycInput.relationships
    ∧ ((detectAndReportCycles exCycInput.tasks exCycInput.relationships).hasCycles
        = true
      ∧ (detectAndReportCycles exCycInput.tasks
          exCycInput.relationships).cycleDetails ≠ []
      ∧ calculateCPM exCycInput = none) := by
  have hWF : WellFormedInput exCycInput :=
    ⟨by decide, by decide, by decide, by decide⟩
  have hcyc : hasCycleProp exCycInput.relationships := by
    refine ⟨"A", ["B"], ?_⟩
    exact List.Chain.cons ⟨exRelABc, by simp [exCycInput], rfl, rfl⟩
      (List.Chain.cons ⟨exRelBAc, by simp [exCycInput], rfl, rfl⟩ List.Chain.nil)
  exact ⟨hWF, hcyc, claim_C1_cycle_gate exCycInput hWF hcyc⟩

/-- Priority stored at a heap cell (0 for an out-of-range index; such
indices are always guarded). -/
def prioAt {α : Type} (h : List (PQEntry α)) (i : ℕ) : ℚ :=
  match h.get? i with
  | some e => e.priority
  | none => 0

/-- The binary-heap invariant of the backing array: every cell is no
smaller than its parent at `(i - 1) / 2`. -/
def IsHeap {α : Type} (h : List (PQEntry α)) : Prop :=
  ∀ i, 0 < i → i < h.length → prioAt h ((i - 1) / 2) ≤ prioAt h i

/-- Setting a cell changes only that cell's priority. -/
theorem prioAt_set_self {α : Type} {h : List (PQEntry α)} {j : ℕ}
    (hj : j < h.length) (e : PQEntry α) :
    prioAt (h.set j e) j = e.priority := by
  unfold prioAt
  rw [List.get?_eq_getElem?, List.getElem?_set_self (by simpa using hj)]

/-- Setting a cell leaves other cells' priorities unchanged. -/
theorem prioAt_set_ne {α : Type} {h : List (PQEntry α)} {i j : ℕ}
    (hij : j ≠ i) (e : PQEntry α) :
    prioAt (h.set j e) i = prioAt h i := by
  unfold prioAt
  rw [List.get?_eq_getElem?, List.get?_eq_getElem?, List.getElem?_set_ne hij]

/-- In a heap the root's priority is minimal. -/
theorem root_min {α : Type} {h : List (PQEntry α)} (hh : IsHeap h) :
    ∀ i, i < h.length → prioAt h 0 ≤ prioAt h i := by
  intro i
  induction i using Nat.strong_induction_on with
  | _ i ih =>
    intro hi
    cases Nat.eq_zero_or_pos i with
    | inl h0 => rw [h0]
    | inr hpos =>
      have hp : (i - 1) / 2 < i := by omega
      exact le_trans (ih _ hp (lt_trans hp hi)) (hh i hpos hi)

/-- `bubbleUp` permutes cells in place: the length is unchanged. -/
theorem bubbleUp_length {α : Type} (cmp : ℚ → ℚ → Bool) (e : PQEntry α) :
    ∀ (k : ℕ) (h : List (PQEntry α)), (bubbleUp cmp e h k).length = h.length := by
  intro k
  induction k using Nat.strong_induction_on with
  | _ k ih =>
    intro h
    match k with
    | 0 => simp [bubbleUp]
    | i + 1 =>
      simp only [bubbleUp]
      split
      · rfl
      · split
        · rw [ih ((i + 1 - 1) / 2) (by omega)]
          simp
        · rfl

/-- `bubbleDown` permutes cells in place: the length is unchanged. -/
theorem bubbleDown_length {α : Type} (cmp : ℚ → ℚ → Bool) (e : PQEntry α) :
    ∀ (n : ℕ) (h : List (PQEntry α)) (k : ℕ), h.length - k ≤ n →
      (bubbleDown cmp e h k).length = h.length := by
  intro n
  induction n with
  | zero =>
    intro h k hn
    rw [bubbleDown]
    split
    · rfl
    · rename_i s hs
      exfalso
      have := chooseSwap_some hs
      omega
  | succ n ih =>
    intro h k hn
    rw [bubbleDown]
    split
    · rfl
    · rename_i s hs
      split
      · rfl
      · rename_i es hes
        have hss := chooseSwap_some hs
        rw [ih ((h.set k es).set s e) s (by simp; omega)]
        simp

/-- `cmpAt` under the default comparator decides a strict in-range
comparison. -/
theorem cmpAt_iff {α : Type} (h : List (PQEntry α)) (j : ℕ) (p : ℚ) :
    cmpAt defaultCompare h j p = true ↔ j < h.length ∧ prioAt h j < p := by
  unfold cmpAt prioAt defaultCompare
  cases hj : h.get? j with
  | none =>
    constructor
    · intro hfalse
      cases hfalse
    · rintro ⟨hlt, _⟩
      have := List.get?_eq_none.mp hj
      omega
  | some q =>
    simp only [decide_eq_true_eq]
    constructor
    · intro hlt
      obtain ⟨hlen, _⟩ := List.get?_eq_some.mp hj
      exact ⟨hlen, hlt⟩
    · rintro ⟨_, hlt⟩
      exact hlt

/-- `cmpAt2` under the default comparator decides a strict comparison of
two in-range cells. -/
theorem cmpAt2_iff {α : Type} (h : List (PQEntry α)) (j k : ℕ) :
    cmpAt2 defaultCompare h j k = true ↔
      j < h.length ∧ k < h.length ∧ prioAt h j < prioAt h k := by
  unfold cmpAt2 prioAt defaultCompare
  cases hj : h.get? j with
  | none =>
    constructor
    · intro hfalse
      cases hk : h.get? k with
      | none => rw [hk] at hfalse; cases hfalse
      | some b => rw [hk] at hfalse; cases hfalse
    · rintro ⟨hlt, _, _⟩
      have := List.get?_eq_none.mp hj
      omega
  | some a =>
    cases hk : h.get? k with
    | none =>
      constructor
      · intro hfalse
        cases hfalse
      · rintro ⟨_, hlt, _⟩
        have := List.get?_eq_none.mp hk
        omega
    | some b =>
      simp only [decide_eq_true_eq]
      constructor
      · intro hlt
        obtain ⟨hlenj, _⟩ := List.get?_eq_some.mp hj
        obtain ⟨hlenk, _⟩ := List.get?_eq_some.mp hk
        exact ⟨hlenj, hlenk, hlt⟩
      · rintro ⟨_, _, hlt⟩
        exact hlt

/-- When no swap target is chosen, the element is no greater than every
in-range child. -/
theorem chooseSwap_none_spec {α : Type} {h : List (PQEntry α)} {k : ℕ}
    {e : PQEntry α} (hn : chooseSwap defaultCompare h k e = none) :
    ∀ j, (j = 2 * k + 1 ∨ j = 2 * k + 2) → j < h.length →
      e.priority ≤ prioAt h j := by
  simp only [chooseSwap] at hn
  by_cases h1 : cmpAt defaultCompare h (2 * k + 1) e.priority = true
  · rw [if_pos h1] at hn
    by_cases h2 : cmpAt2 defaultCompare h (2 * k + 2) (2 * k + 1) = true
    · rw [if_pos h2] at hn
      cases hn
    · rw [if_neg h2] at hn
      cases hn
  · rw [if_neg h1] at hn
    by_cases h2 : cmpAt defaultCompare h (2 * k + 2) e.priority = true
    · rw [if_pos h2] at hn
      cases hn
    · intro j hj hjlen
      refine not_lt.mp ?_
      intro hlt
      cases hj with
      | inl hj =>
        exact h1 ((cmpAt_iff h _ _).mpr ⟨hj ▸ hjlen, hj ▸ hlt⟩)
      | inr hj =>
        exact h2 ((cmpAt_iff h _ _).mpr ⟨hj ▸ hjlen, hj ▸ hlt⟩)

/-- The chosen swap target is an in-range child strictly smaller than
the element and no greater than the other in-range child. -/
theorem chooseSwap_some_spec {α : Type} {h : List (PQEntry α)} {k s : ℕ}
    {e : PQEntry α} (hs : chooseSwap defaultCompare h k e = some s) :
    (s = 2 * k + 1 ∨ s = 2 * k + 2) ∧ s < h.length ∧ prioAt h s < e.priority
    ∧ (∀ j, (j = 2 * k + 1 ∨ j = 2 * k + 2) → j < h.length →
        prioAt h s ≤ prioAt h j) := by
  simp only [chooseSwap] at hs
  by_cases h1 : cmpAt defaultCompare h (2 * k + 1) e.priority = true
  · rw [if_pos h1] at hs
    obtain ⟨hl_len, hl_lt⟩ := (cmpAt_iff h _ _).mp h1
    by_cases h2 : cmpAt2 defaultCompare h (2 * k + 2) (2 * k + 1) = true
    · rw [if_pos h2] at hs
      cases hs
      obtain ⟨hr_len, _, hr_lt⟩ := (cmpAt2_iff h _ _).mp h2
      refine ⟨Or.inr rfl, hr_len, lt_trans hr_lt hl_lt, ?_⟩
      intro j hj hjl
      cases hj with
      | inl hj => rw [hj]; exact le_of_lt hr_lt
      | inr hj => rw [hj]
    · rw [if_neg h2] at hs
      cases hs
      refine ⟨Or.inl rfl, hl_len, hl_lt, ?_⟩
      intro j hj hjl
      cases hj with
      | inl hj => rw [hj]
      | inr hj =>
        rw [hj]
        rw [hj] at hjl
        refine not_lt.mp ?_
        intro hlt
        exact h2 ((cmpAt2_iff h _ _).mpr ⟨hjl, hl_len, hlt⟩)
  · rw [if_neg h1] at hs
    by_cases h2 : cmpAt defaultCompare h (2 * k + 2) e.priority = true
    · rw [if_pos h2] at hs
      cases hs
      obtain ⟨hr_len, hr_lt⟩ := (cmpAt_iff h _ _).mp h2
      refine ⟨Or.inr rfl, hr_len, hr_lt, ?_⟩
      intro j hj hjl
      cases hj with
      | inl hj =>
        rw [hj]
        rw [hj] at hjl
        have hnl : ¬ prioAt h (2 * k + 1) < e.priority := fun hlt =>
          h1 ((cmpAt_iff h _ _).mpr ⟨hjl, hlt⟩)
        exact le_trans (le_of_lt hr_lt) (not_lt.mp hnl)
      | inr hj => rw [hj]
    · rw [if_neg h2] at hs
      cases hs

/-- Sift-up correctness: starting from an array that is a heap except
possibly on the edge into the moved element's cell — with the
grandparent already bounding the element's children — `bubbleUp`
produces a heap. -/
theorem bubbleUp_isHeap {α : Type} (e : PQEntry α) :
    ∀ (k : ℕ) (h : List (PQEntry α)),
      k < h.length →
      prioAt h k = e.priority →
      (∀ i, 0 < i → i < h.length → i ≠ k → prioAt h ((i - 1) / 2) ≤ prioAt h i) →
      (∀ i, 0 < i → i < h.length → (i - 1) / 2 = k → 0 < k →
        prioAt h ((k - 1) / 2) ≤ prioAt h i) →
      IsHeap (bubbleUp defaultCompare e h k) := by
  intro k
  induction k using Nat.strong_induction_on with
  | _ k ihk =>
    intro h hk hke hexc hskip
    match k, hk, hke, hexc, hskip with
    | 0, hk, hke, hexc, hskip =>
      have h0 : bubbleUp defaultCompare e h 0 = h := by rw [bubbleUp]
      rw [h0]
      intro i hi hilen
      exact hexc i hi hilen (by omega)
    | i + 1, hk, hke, hexc, hskip =>
      have hplt : (i + 1 - 1) / 2 < i + 1 := by omega
      have hplen : (i + 1 - 1) / 2 < h.length := lt_trans hplt hk
      obtain ⟨parent, hparent⟩ : ∃ parent, h.get? ((i + 1 - 1) / 2) = some parent := by
        cases hg : h.get? ((i + 1 - 1) / 2) with
        | none =>
          have := List.get?_eq_none.mp hg
          omega
        | some q => exact ⟨q, rfl⟩
      have hpprio : prioAt h ((i + 1 - 1) / 2) = parent.priority := by
        unfold prioAt
        rw [hparent]
      simp only [bubbleUp, hparent]
      by_cases hc : defaultCompare e.priority parent.priority = true
      · rw [if_pos hc]
        have hlt : e.priority < parent.priority := by
          simpa [defaultCompare] using hc
        have hlen' : ((h.set ((i + 1 - 1) / 2) e).set (i + 1) parent).length
            = h.length := by simp
        have hne_pk : (i + 1 - 1) / 2 ≠ i + 1 := by omega
        have hat_p : prioAt ((h.set ((i + 1 - 1) / 2) e).set (i + 1) parent)
            ((i + 1 - 1) / 2) = e.priority := by
          rw [prioAt_set_ne (by omega) parent, prioAt_set_self hplen e]
        have hat_k : prioAt ((h.set ((i + 1 - 1) / 2) e).set (i + 1) parent)
            (i + 1) = parent.priority := by
          rw [prioAt_set_self (by simpa using hk) parent]
        have hat_other : ∀ j, j ≠ (i + 1 - 1) / 2 → j ≠ i + 1 →
            prioAt ((h.set ((i + 1 - 1) / 2) e).set (i + 1) parent) j
              = prioAt h j := by
          intro j hj1 hj2
          rw [prioAt_set_ne (fun hh => hj2 hh.symm) parent,
            prioAt_set_ne (fun hh => hj1 hh.symm) e]
        apply ihk ((i + 1 - 1) / 2) hplt
        · rw [hlen']
          exact hplen
        · exact hat_p
        · intro i2 hi2 hi2len hi2ne
          rw [hlen'] at hi2len
          by_cases hip : i2 = i + 1
          · rw [hip, hat_p, hat_k]
            exact le_of_lt hlt
          · by_cases hpar_p : (i2 - 1) / 2 = (i + 1 - 1) / 2
            · rw [hpar_p, hat_p, hat_other i2 hi2ne hip]
              refine le_trans (le_of_lt hlt) ?_
              rw [← hpprio, hpar_p.symm]
              exact hexc i2 hi2 hi2len hip
            · by_cases hpar_k : (i2 - 1) / 2 = i + 1
              · rw [hpar_k, hat_k, hat_other i2 hi2ne hip, ← hpprio]
                exact hskip i2 hi2 hi2len hpar_k (by omega)
              · rw [hat_other _ hpar_p hpar_k, hat_other i2 hi2ne hip]
                exact hexc i2 hi2 hi2len hip
        · intro i2 hi2 hi2len hpar2 hppos
          rw [hlen'] at hi2len
          have hgp_lt : ((i + 1 - 1) / 2 - 1) / 2 < (i + 1 - 1) / 2 := by omega
          have hgp_other : prioAt ((h.set ((i + 1 - 1) / 2) e).set (i + 1) parent)
              (((i + 1 - 1) / 2 - 1) / 2) = prioAt h (((i + 1 - 1) / 2 - 1) / 2) :=
            hat_other _ (by omega) (by omega)
          have hgp_le : prioAt h (((i + 1 - 1) / 2 - 1) / 2)
              ≤ prioAt h ((i + 1 - 1) / 2) :=
            hexc _ hppos hplen (by omega)
          by_cases hip : i2 = i + 1
          · rw [hip, hat_k, hgp_other, ← hpprio]
            exact hgp_le
          · have hi2ne_p : i2 ≠ (i + 1 - 1) / 2 := by omega
            rw [hgp_other, hat_other i2 hi2ne_p hip]
            refine le_trans hgp_le ?_
            rw [← hpar2]
            exact hexc i2 hi2 hi2len hip
      · rw [if_neg hc]
        have hge : parent.priority ≤ e.priority := by
          refine not_lt.mp ?_
          intro hlt
          exact hc (by simp [defaultCompare, hlt])
        intro i2 hi2 hi2len
        by_cases hieq : i2 = i + 1
        · rw [hieq, hpprio, hke]
          exact hge
        · exact hexc i2 hi2 hi2len hieq

/-- Sift-down correctness: starting from an array that is a heap except
possibly on the edges out of the moved element's cell — with the
grandparent already bounding those children — `bubbleDown` produces a
heap. -/
theorem bubbleDown_isHeap {α : Type} (e : PQEntry α) :
    ∀ (n : ℕ) (h : List (PQEntry α)) (k : ℕ),
      h.length - k ≤ n →
      k < h.length →
      prioAt h k = e.priority →
      (∀ i, 0 < i → i < h.length → (i - 1) / 2 ≠ k →
        prioAt h ((i - 1) / 2) ≤ prioAt h i) →
      (∀ i, 0 < i → i < h.length → (i - 1) / 2 = k → 0 < k →
        prioAt h ((k - 1) / 2) ≤ prioAt h i) →
      IsHeap (bubbleDown defaultCompare e h k) := by
  intro n
  induction n with
  | zero =>
    intro h k hn hk _ _ _
    exfalso
    omega
  | succ n ih =>
    intro h k hn hk hke hexc hskip
    rw [bubbleDown]
    split
    · rename_i hnone
      intro i hi hilen
      by_cases hpar : (i - 1) / 2 = k
      · have hij : i = 2 * k + 1 ∨ i = 2 * k + 2 := by omega
        rw [hpar, hke]
        exact chooseSwap_none_spec hnone i hij hilen
      · exact hexc i hi hilen hpar
    · rename_i s hs
      split
      · rename_i hes_none
        exfalso
        obtain ⟨_, hslen, _, _⟩ := chooseSwap_some_spec hs
        have := List.get?_eq_none.mp hes_none
        omega
      · rename_i es hes
        obtain ⟨hchild, hslen, hslt, hsib⟩ := chooseSwap_some_spec hs
        have hks : k < s := by omega
        have hesp : prioAt h s = es.priority := by
          unfold prioAt
          rw [hes]
        have hlen' : ((h.set k es).set s e).length = h.length := by simp
        have hat_s : prioAt ((h.set k es).set s e) s = e.priority :=
          prioAt_set_self (by simpa using hslen) e
        have hat_k : prioAt ((h.set k es).set s e) k = es.priority := by
          rw [prioAt_set_ne (by omega) e, prioAt_set_self hk es]
        have hat_other : ∀ j, j ≠ k → j ≠ s →
            prioAt ((h.set k es).set s e) j = prioAt h j := by
          intro j hj1 hj2
          rw [prioAt_set_ne (fun hh => hj2 hh.symm) e,
            prioAt_set_ne (fun hh => hj1 hh.symm) es]
        have hpar_s : (s - 1) / 2 = k := by omega
        apply ih ((h.set k es).set s e) s
        · rw [hlen']
          omega
        · rw [hlen']
          exact hslen
        · exact hat_s
        · intro i2 hi2 hi2len hi2ne
          rw [hlen'] at hi2len
          by_cases his : i2 = s
          · rw [his, hpar_s, hat_k, hat_s, ← hesp]
            exact le_of_lt hslt
          · by_cases hik : i2 = k
            · have hkpos : 0 < k := by
                rcases Nat.eq_zero_or_pos k with h0 | hpos
                · exfalso
                  rw [hik, h0] at hi2
                  omega
                · exact hpos
              have hpark_ne : (k - 1) / 2 ≠ k := by omega
              have hpark_ne_s : (k - 1) / 2 ≠ s := by omega
              rw [hik, hat_k, hat_other _ hpark_ne hpark_ne_s, ← hesp]
              exact hskip s (by omega) hslen hpar_s hkpos
            · by_cases hpar_k : (i2 - 1) / 2 = k
              · have hij : i2 = 2 * k + 1 ∨ i2 = 2 * k + 2 := by omega
                rw [hpar_k, hat_k, hat_other i2 hik his, ← hesp]
                exact hsib i2 hij hi2len
              · have hpar_ne_s : (i2 - 1) / 2 ≠ s := hi2ne
                have hpar2_ne_k : (i2 - 1) / 2 ≠ k := hpar_k
                rw [hat_other _ hpar2_ne_k hpar_ne_s, hat_other i2 hik his]
                exact hexc i2 hi2 hi2len hpar_k
        · intro i2 hi2 hi2len hpar2 hspos
          rw [hlen'] at hi2len
          have hi2_gt : s < i2 := by omega
          have hi2_ne_k : i2 ≠ k := by omega
          have hi2_ne_s : i2 ≠ s := by omega
          rw [hpar_s, hat_k, hat_other i2 hi2_ne_k hi2_ne_s, ← hesp]
          have := hexc i2 hi2 hi2len (by omega)
          rw [hpar2] at this
          exact this

/-- Dropping the last cell leaves the other cells' priorities. -/
theorem prioAt_dropLast {α : Type} {l : List (PQEntry α)} {j : ℕ}
    (hj : j < l.dropLast.length) : prioAt l.dropLast j = prioAt l j := by
  unfold prioAt
  rw [List.get?_eq_getElem?, List.get?_eq_getElem?, List.getElem?_dropLast,
    if_pos (by simpa using hj)]

/-- `enqueue` preserves the heap invariant. -/
theorem enqueue_isHeap {α : Type} {q : PriorityQueue α} (hh : IsHeap q.heap)
    (x : α) (p : ℚ) : IsHeap (q.enqueue defaultCompare x p).heap := by
  have hresult : (q.enqueue defaultCompare x p).heap =
      bubbleUp defaultCompare ⟨x, p⟩ (q.heap ++ [(⟨x, p⟩ : PQEntry α)])
        ((q.heap ++ [(⟨x, p⟩ : PQEntry α)]).length - 1) := rfl
  have hlen : (q.heap ++ [(⟨x, p⟩ : PQEntry α)]).length = q.heap.length + 1 := by
    simp
  have hk0 : (q.heap ++ [(⟨x, p⟩ : PQEntry α)]).length - 1 = q.heap.length := by
    simp
  rw [hresult, hk0]
  have hat_last : prioAt (q.heap ++ [(⟨x, p⟩ : PQEntry α)]) q.heap.length = p := by
    unfold prioAt
    rw [List.get?_eq_getElem?, List.getElem?_append_right (le_refl _)]
    simp
  have hat_left : ∀ j, j < q.heap.length →
      prioAt (q.heap ++ [(⟨x, p⟩ : PQEntry α)]) j = prioAt q.heap j := by
    intro j hj
    unfold prioAt
    rw [List.get?_eq_getElem?, List.get?_eq_getElem?, List.getElem?_append_left hj]
  apply bubbleUp_isHeap ⟨x, p⟩ q.heap.length (q.heap ++ [(⟨x, p⟩ : PQEntry α)])
  · rw [hlen]
    omega
  · exact hat_last
  · intro i hi hilen hine
    rw [hlen] at hilen
    have hilt : i < q.heap.length := by omega
    have hplt : (i - 1) / 2 < q.heap.length := by omega
    rw [hat_left i hilt, hat_left _ hplt]
    exact hh i hi hilt
  · intro i hi hilen hpar hk0pos
    rw [hlen] at hilen
    exfalso
    omega

/-- `dequeue` preserves the heap invariant. -/
theorem dequeue_isHeap {α : Type} {q : PriorityQueue α} (hh : IsHeap q.heap) :
    IsHeap (q.dequeue defaultCompare).2.heap := by
  cases hq : q.heap with
  | nil =>
    have hres : (q.dequeue defaultCompare).2 = q := by
      simp only [PriorityQueue.dequeue, hq]
    rw [hres]
    exact hh
  | cons top rest =>
    rw [hq] at hh
    simp only [PriorityQueue.dequeue, hq]
    by_cases hpe : (top :: rest).dropLast.isEmpty = true
    · rw [if_pos hpe]
      intro i hi hilen
      rw [List.isEmpty_iff.mp hpe] at hilen
      simp at hilen
    · rw [if_neg hpe]
      have hdl_pos : 0 < (top :: rest).dropLast.length :=
        List.length_pos.mpr (fun hnil => hpe (List.isEmpty_iff.mpr hnil))

      have hat0 : prioAt ((top :: rest).dropLast.set 0 ((top :: rest).getLast (by simp)))
          0 = ((top :: rest).getLast (by simp)).priority :=
        prioAt_set_self hdl_pos _
      have hat_other : ∀ j, j ≠ 0 → j < (top :: rest).dropLast.length →
          prioAt ((top :: rest).dropLast.set 0 ((top :: rest).getLast (by simp))) j
            = prioAt (top :: rest) j := by
        intro j hj hjlen
        rw [prioAt_set_ne (fun hh0 => hj hh0.symm) _, prioAt_dropLast hjlen]
      apply bubbleDown_isHeap ((top :: rest).getLast (by simp))
        (((top :: rest).dropLast.set 0 ((top :: rest).getLast (by simp))).length)
        ((top :: rest).dropLast.set 0 ((top :: rest).getLast (by simp))) 0
      · omega
      · simpa using hdl_pos
      · exact hat0
      · intro i hi hilen hpar
        have hilen' : i < (top :: rest).dropLast.length := by simpa using hilen
        have hplen' : (i - 1) / 2 < (top :: rest).dropLast.length := by omega
        have hidl : i < (top :: rest).length := by
          rw [List.length_dropLast] at hilen'
          omega
        rw [hat_other i (by omega) hilen', hat_other _ hpar hplen']
        exact hh i hi hidl
      · intro i hi hilen hpar hkpos
        exact absurd hkpos (lt_irrefl 0)

/-- Every reachable queue state is a heap. -/
theorem pq_isHeap {α : Type} {q : PriorityQueue α} (hq : Reachable q) :
    IsHeap q.heap := by
  induction hq with
  | empty =>
    intro i hi hilen
    simp at hilen
  | enq q x p _ ih => exact enqueue_isHeap ih x p
  | deq q _ ih => exact dequeue_isHeap ih

/-- On a nonempty queue, `dequeue` returns the root's item. -/
theorem dequeue_fst_cons {α : Type} (cmp : ℚ → ℚ → Bool) (q : PriorityQueue α)
    {top : PQEntry α} {rest : List (PQEntry α)} (hq : q.heap = top :: rest) :
    (q.dequeue cmp).1 = some top.item := by
  simp only [PriorityQueue.dequeue, hq]
  by_cases hpe : (top :: rest).dropLast.isEmpty = true
  · rw [if_pos hpe]
  · rw [if_neg hpe]

/-- On a nonempty queue, `dequeue` shrinks the backing array by one. -/
theorem dequeue_size_cons {α : Type} (cmp : ℚ → ℚ → Bool) (q : PriorityQueue α)
    {top : PQEntry α} {rest : List (PQEntry α)} (hq : q.heap = top :: rest) :
    (q.dequeue cmp).2.size = q.size - 1 := by
  simp only [PriorityQueue.dequeue, hq, PriorityQueue.size]
  by_cases hpe : (top :: rest).dropLast.isEmpty = true
  · rw [if_pos hpe]
    simp
  · rw [if_neg hpe]
    show (bubbleDown cmp ((top :: rest).getLast (by simp))
        ((top :: rest).dropLast.set 0 ((top :: rest).getLast (by simp))) 0).length
      = (top :: rest).length - 1
    rw [bubbleDown_length cmp _
      (((top :: rest).dropLast.set 0 ((top :: rest).getLast (by simp))).length) _ 0
      (by omega)]
    simp

/-- On a nonempty heap, the root's priority bounds every entry. -/
theorem dequeue_min {α : Type} {q : PriorityQueue α} (hh : IsHeap q.heap)
    {top : PQEntry α} {rest : List (PQEntry α)} (hq : q.heap = top :: rest) :
    ∀ e' ∈ q.heap, top.priority ≤ e'.priority := by
  intro e' he'
  obtain ⟨i, hi⟩ := List.mem_iff_get?.mp he'
  have hilen : i < q.heap.length := (List.get?_eq_some.mp hi).1
  have h0 : prioAt q.heap 0 = top.priority := by
    unfold prioAt
    rw [hq]
    rfl
  have hie : prioAt q.heap i = e'.priority := by
    unfold prioAt
    rw [hi]
  rw [← h0, ← hie]
  exact root_min hh i hilen

/-- C10: with the default comparator `(a, b) => a < b`, `dequeue`
returns `undefined` exactly on the empty queue; on every reachable
nonempty queue it returns an item of minimal stored priority and shrinks
`size()` by one; `enqueue` always grows `size()` by one. -/
theorem claim_C10_priority_queue {α : Type} (q : PriorityQueue α)
    (hq : Reachable q) :
    ((q.dequeue defaultCompare).1 = none ↔ q.size = 0)
    ∧ (∀ (x : α) (p : ℚ), (q.enqueue defaultCompare x p).size = q.size + 1)
    ∧ (q.size ≠ 0 →
        (q.dequeue defaultCompare).2.size = q.size - 1
        ∧ ∃ e ∈ q.heap, (q.dequeue defaultCompare).1 = some e.item
            ∧ ∀ e' ∈ q.heap, e.priority ≤ e'.priority) := by
  have hheap : IsHeap q.heap := pq_isHeap hq
  refine ⟨?_, ?_, ?_⟩
  · cases hqh : q.heap with
    | nil =>
      have h1 : (q.dequeue defaultCompare).1 = none := by
        simp only [PriorityQueue.dequeue, hqh]
      have h2 : q.size = 0 := by
        simp [PriorityQueue.size, hqh]
      simp [h1, h2]
    | cons top rest =>
      rw [dequeue_fst_cons defaultCompare q hqh]
      simp [PriorityQueue.size, hqh]
  · intro x p
    have heq : (q.enqueue defaultCompare x p).size =
        (bubbleUp defaultCompare ⟨x, p⟩ (q.heap ++ [(⟨x, p⟩ : PQEntry α)])
          ((q.heap ++ [(⟨x, p⟩ : PQEntry α)]).length - 1)).length := rfl
    rw [heq, bubbleUp_length]
    simp [PriorityQueue.size]
  · intro hne
    cases hqh : q.heap with
    | nil =>
      exfalso
      apply hne
      simp [PriorityQueue.size, hqh]
    | cons top rest =>
      refine ⟨dequeue_size_cons defaultCompare q hqh, top, ?_, ?_, ?_⟩
      · exact List.mem_cons_self _ _
      · exact dequeue_fst_cons defaultCompare q hqh
      · have := dequeue_min hheap hqh
        rw [hqh] at this
        exact this

/-- Witness for C10: the queue holding one entry (item 0, priority 5)
reached by a single enqueue from empty. -/
theorem claim_C10_witness :
    Reachable (PriorityQueue.enqueue defaultCompare (⟨[]⟩ : PriorityQueue ℕ) 0 5)
    ∧ (((PriorityQueue.enqueue defaultCompare (⟨[]⟩ : PriorityQueue ℕ) 0 5).dequeue
          defaultCompare).1 = none
        ↔ (PriorityQueue.enqueue defaultCompare (⟨[]⟩ : PriorityQueue ℕ) 0 5).size = 0)
    ∧ (∀ (x : ℕ) (p : ℚ),
        ((PriorityQueue.enqueue defaultCompare (⟨[]⟩ : PriorityQueue ℕ) 0 5).enqueue
          defaultCompare x p).size =
          (PriorityQueue.enqueue defaultCompare (⟨[]⟩ : PriorityQueue ℕ) 0 5).size + 1)
    ∧ ((PriorityQueue.enqueue defaultCompare (⟨[]⟩ : PriorityQueue ℕ) 0 5).size ≠ 0 →
        ((PriorityQueue.enqueue defaultCompare (⟨[]⟩ : PriorityQueue ℕ) 0 5).dequeue
          defaultCompare).2.size =
          (PriorityQueue.enqueue defaultCompare (⟨[]⟩ : PriorityQueue ℕ) 0 5).size - 1
        ∧ ∃ e ∈ (PriorityQueue.enqueue defaultCompare
            (⟨[]⟩ : PriorityQueue ℕ) 0 5).heap,
            ((PriorityQueue.enqueue defaultCompare (⟨[]⟩ : PriorityQueue ℕ) 0 5).dequeue
              defaultCompare).1 = some e.item
            ∧ ∀ e' ∈ (PriorityQueue.enqueue defaultCompare
                (⟨[]⟩ : PriorityQueue ℕ) 0 5).heap, e.priority ≤ e'.priority) := by
  have hq : Reachable (PriorityQueue.enqueue defaultCompare (⟨[]⟩ : PriorityQueue ℕ) 0 5) :=
    Reachable.enq ⟨[]⟩ 0 5 Reachable.empty
  obtain ⟨h1, h2, h3⟩ := claim_C10_priority_queue
    (PriorityQueue.enqueue defaultCompare (⟨[]⟩ : PriorityQueue ℕ) 0 5) hq
  exact ⟨hq, h1, h2, h3⟩

end CPV
